import Mathlib

/-!
Verification development for the lakesis virtual machine
(register-based abstract processor with a managed, garbage-collected heap,
plus an assembler encoder).

The Rust sources are shallowly embedded:
* machine integers (`u64`/`i64`/`u8`) become `Nat`/`Int` with explicit
  `% 2 ^ 64` (resp. `% 256`) where wrap-around matters;
* fallible code (`Result`, and panics such as division by zero or
  `unwrap`/`expect` failures) becomes `Option`;
* the backing heap buffer becomes a byte function `Nat → Nat`, read through
  `% 256` so that every read observes `u8` values;
* `IdHashMap<T>` (a hash map keyed by monotonically assigned ids, together
  with a separate in-order `Vec` of ids for `HeapRegions`) becomes a `List`
  of the entries, each entry carrying its `id` field, plus the `next_id`
  counter; lookups search the list by the `id` field;
* the `HashMap<UWord, VirtualAddressMapping>` page table becomes a function
  `Nat → Option VirtualAddressMapping`.

Rust source names are kept (snake_case fields, module-qualified functions)
wherever Lean allows.
-/

namespace Lakesis

/-! ## Core constants (src/core.rs and src/interpreter/memory.rs) -/

abbrev WORD_BYTE_SIZE : Nat := 8

abbrev REGISTER_NUM : Nat := 4

abbrev VIRTUAL_PAGE_SIZE : Nat := 1024

/-- Modulus of the 64-bit machine word (`UWord = u64`). -/
def U64_MOD : Nat := 2 ^ 64

/-- Modulus of `u32`; shift amounts are cast `as u32` before shifting. -/
def U32_MOD : Nat := 2 ^ 32

/-! ## Little-endian byte codecs (`u64::to_le_bytes` / `from_le_bytes`) -/

/-- Byte `j` of the little-endian representation of `v`. -/
def leByte (v j : Nat) : Nat := v / 256 ^ j % 256

/-- The `n`-byte little-endian representation of `v`
(`u64::to_le_bytes` is `leBytes 8`). -/
def leBytes (n v : Nat) : List Nat := (List.range n).map (leByte v)

/-- Recombine little-endian bytes into a natural number
(`u64::from_le_bytes` after zero-padding).  Each byte is reduced `% 256`,
matching the `u8` type of the buffer elements. -/
def fromLeBytes (l : List Nat) : Nat := l.foldr (fun b acc => b % 256 + 256 * acc) 0

/-- Two's-complement reinterpretation of an `i64` as a `u64`
(`offset as UWord`). -/
def uOfInt (x : Int) : Nat := (x % (U64_MOD : Int)).toNat

/-- Reinterpretation of a `u64` as an `i64` (`uvalue as IWord`). -/
def iOfU (u : Nat) : Int := if u % U64_MOD < 2 ^ 63 then (u % U64_MOD : Int) else (u % U64_MOD : Int) - (U64_MOD : Int)

/-! ## Tagged words (src/interpreter/mod.rs, `DataValue` / `DataWord`)

The source's `DataValue<T>` is only ever instantiated at `T = UWord` in the
interpreter, so we embed `DataWord = DataValue<u64>` directly, with the
value as a `Nat` (kept below `2 ^ 64` in every reachable state). -/

structure DataWord where
  value : Nat
  is_reference : Bool
deriving DecidableEq, Repr

/-- `DataValue::combine`: pointwise combination of the values; the result is
tagged as a reference when either input is. -/
def DataWord.combine (a b : DataWord) (combiner : Nat → Nat → Nat) : DataWord :=
  { value := combiner a.value b.value
    is_reference := a.is_reference || b.is_reference }

/-- `DataValue::overflowing_operation`: `combine` with an operation that also
reports an overflow flag (captured through a mutable in the source). -/
def DataWord.overflowingOperation (a b : DataWord) (op : Nat → Nat → Nat × Bool) :
    DataWord × Bool :=
  (a.combine b (fun x y => (op x y).1), (op a.value b.value).2)

/-- `DataValue::expect_reference`: the value, provided the tag is set. -/
def DataWord.expect_reference (a : DataWord) : Option Nat :=
  if a.is_reference then some a.value else none

/-! `u64` primitive overflowing operations, on values below `2 ^ 64`. -/

/-- `u64::overflowing_add`. -/
def uwordAdd (a b : Nat) : Nat × Bool := ((a + b) % U64_MOD, decide (U64_MOD ≤ a + b))

/-- `u64::overflowing_sub` (wrap-around subtraction; overflow iff `a < b`). -/
def uwordSub (a b : Nat) : Nat × Bool := ((a + U64_MOD - b) % U64_MOD, decide (a < b))

/-- `u64::overflowing_mul`. -/
def uwordMul (a b : Nat) : Nat × Bool := ((a * b) % U64_MOD, decide (U64_MOD ≤ a * b))

/-- `|a, b| a.overflowing_shl(b as u32)`: the shift amount is first truncated
to 32 bits by the cast, then `overflowing_shl` masks it with 63 and reports
overflow iff the 32-bit amount is `≥ 64`. -/
def uwordShl (a b : Nat) : Nat × Bool :=
  ((a <<< (b % U32_MOD % 64)) % U64_MOD, decide (64 ≤ b % U32_MOD))

/-- `|a, b| a.overflowing_shr(b as u32)`, analogously. -/
def uwordShr (a b : Nat) : Nat × Bool :=
  ((a % U64_MOD) >>> (b % U32_MOD % 64), decide (64 ≤ b % U32_MOD))

/-- `DataWord::overflowing_add`. -/
def DataWord.overflowing_add (a b : DataWord) : DataWord × Bool :=
  a.overflowingOperation b uwordAdd

/-- `DataWord::overflowing_sub`. -/
def DataWord.overflowing_sub (a b : DataWord) : DataWord × Bool :=
  a.overflowingOperation b uwordSub

/-- `DataWord::overflowing_mul`. -/
def DataWord.overflowing_mul (a b : DataWord) : DataWord × Bool :=
  a.overflowingOperation b uwordMul

/-- `DataWord::overflowing_div`.  `u64::overflowing_div` never overflows but
panics when the divisor is zero; the panic is embedded as `none`. -/
def DataWord.overflowing_div (a b : DataWord) : Option (DataWord × Bool) :=
  if b.value = 0 then none
  else some (a.overflowingOperation b (fun x y => (x / y, false)))

/-- `DataWord::overflowing_shl`. -/
def DataWord.overflowing_shl (a b : DataWord) : DataWord × Bool :=
  a.overflowingOperation b uwordShl

/-- `DataWord::overflowing_shr`. -/
def DataWord.overflowing_shr (a b : DataWord) : DataWord × Bool :=
  a.overflowingOperation b uwordShr

/-- `impl BitAnd for DataValue` (`a & b`). -/
def DataWord.bitand (a b : DataWord) : DataWord := a.combine b Nat.land

/-- `impl BitOr for DataValue` (`a | b`). -/
def DataWord.bitor (a b : DataWord) : DataWord := a.combine b Nat.lor

/-- `impl BitXor for DataValue` (`a ^ b`). -/
def DataWord.bitxor (a b : DataWord) : DataWord := a.combine b Nat.xor

/-- `impl Not for DataValue` (`!a`, bitwise complement on `u64`). -/
def DataWord.bitnot (a : DataWord) : DataWord :=
  { value := Nat.xor (a.value % U64_MOD) (U64_MOD - 1), is_reference := a.is_reference }

/-! ## Sizing helpers (src/interpreter/memory.rs, bottom of file) -/

/-- `divide_round_up`. -/
def divide_round_up (dividend divisor : Nat) : Nat := (dividend + divisor - 1) / divisor

/-- `round_down_to`. -/
def round_down_to (value alignment : Nat) : Nat := value / alignment * alignment

/-- `bitfield_len`: bytes of reference bitfield needed for `data_len` payload
bytes (one bit per word, `⌈data_len / (8 · word_size)⌉`). -/
def bitfield_len (data_len : Nat) : Nat := divide_round_up data_len (WORD_BYTE_SIZE * 8)

/-- `total_region_len`: payload plus its reference bitfield. -/
def total_region_len (data_len : Nat) : Nat := data_len + bitfield_len data_len

/-! ## Allocations (src/interpreter/memory.rs, `Allocation`) -/

structure Allocation where
  id : Nat
  start : Nat
  data_length : Nat
  is_collectible : Bool
  name : Option String
  virtual_block : Nat
  region : Nat
deriving DecidableEq, Repr

def Allocation.data_end (a : Allocation) : Nat := a.start + a.data_length

def Allocation.bitfield_start (a : Allocation) : Nat := a.data_end

def Allocation.bitfield_length (a : Allocation) : Nat := bitfield_len a.data_length

def Allocation.bitfield_end (a : Allocation) : Nat := a.bitfield_start + a.bitfield_length

/-! ## Virtual address mapper (src/interpreter/memory.rs) -/

structure VirtualAddressMapping where
  block : Nat
  offset : Nat
deriving DecidableEq, Repr

structure VirtualAddressBlock where
  id : Nat
  allocation : Nat
  base : Nat
  size : Nat
deriving DecidableEq, Repr

def VirtualAddressBlock.block_end (b : VirtualAddressBlock) : Nat := b.base + b.size

/-- `VirtualAddressMapper`.  `blocks` embeds the `IdHashMap` as a list of
blocks (each carrying its id) plus the `next_block_id` counter; `mappings`
embeds the page-table `HashMap` as a function. -/
structure VirtualAddressMapper where
  blocks : List VirtualAddressBlock
  next_block_id : Nat
  mappings : Nat → Option VirtualAddressMapping
  next_address : Nat

def VirtualAddressMapper.new : VirtualAddressMapper :=
  { blocks := [], next_block_id := 1, mappings := fun _ => none, next_address := 0 }

/-- `VirtualAddressMapper::pages_of`: one `(page index, page address)` pair for
each `page` in `0..=(size / page_size)`. -/
def VirtualAddressMapper.pages_of (base_addr size : Nat) : List (Nat × Nat) :=
  (List.range (size / VIRTUAL_PAGE_SIZE + 1)).map
    (fun page => (page, base_addr + page * VIRTUAL_PAGE_SIZE))

/-- `IdHashMap::get` for blocks. -/
def VirtualAddressMapper.get (vm : VirtualAddressMapper) (id : Nat) :
    Option VirtualAddressBlock :=
  vm.blocks.find? (fun b => b.id == id)

/-- The page-table insertions of the `for (page, addr) in Self::pages_of`
loop of `VirtualAddressMapper::map`: each pair adds a mapping from the page
address to `(block_id, page · page_size)`. -/
def insertMappings (block_id : Nat) (pages : List (Nat × Nat))
    (mm : Nat → Option VirtualAddressMapping) : Nat → Option VirtualAddressMapping :=
  pages.foldl
    (fun mm2 pa => fun k =>
      if k = pa.2 then
        some { block := block_id, offset := pa.1 * VIRTUAL_PAGE_SIZE }
      else mm2 k)
    mm

/-- `VirtualAddressMapper::map`.  Errors (`BadBase` conditions) become
`none`; on success returns the base address, the new block id, and the
updated mapper.  (`next_address` advances by one page per inserted page.) -/
def VirtualAddressMapper.map (vm : VirtualAddressMapper) (size allocation : Nat)
    (preferred_base : Option Nat) : Option (Nat × Nat × VirtualAddressMapper) := do
  let vm ←
    match preferred_base with
    | none => some vm
    | some base =>
        if base % VIRTUAL_PAGE_SIZE ≠ 0 then none
        else if base < vm.next_address then none
        else some { vm with next_address := base }
  let base_addr := vm.next_address
  let block_id := vm.next_block_id
  let block : VirtualAddressBlock :=
    { id := block_id, base := base_addr, size := size, allocation := allocation }
  let pages := VirtualAddressMapper.pages_of base_addr size
  some (base_addr, block_id,
    { blocks := block :: vm.blocks
      next_block_id := block_id + 1
      mappings := insertMappings block_id pages vm.mappings
      next_address := vm.next_address + pages.length * VIRTUAL_PAGE_SIZE })

/-- `VirtualAddressMapper::unmap`: remove the block and all its page
entries; `none` when the block id is unknown. -/
def VirtualAddressMapper.unmap (vm : VirtualAddressMapper) (id : Nat) :
    Option VirtualAddressMapper := do
  let block ← vm.get id
  let pages := VirtualAddressMapper.pages_of block.base block.size
  some { vm with
    blocks := vm.blocks.filter (fun b => b.id ≠ id)
    mappings := fun k => if (pages.map Prod.snd).contains k then none else vm.mappings k }

/-- `VirtualAddressMapper::translate`: round the address down to a page,
look the page up, and return the owning allocation id together with the
offset into the allocation.  A missing page, or a mapping whose block has
disappeared (an `expect` panic in the source), is `none`. -/
def VirtualAddressMapper.translate (vm : VirtualAddressMapper) (addr : Nat) :
    Option (Nat × Nat) := do
  let aligned_addr := round_down_to addr VIRTUAL_PAGE_SIZE
  let alignment_offset := addr - aligned_addr
  let mapping ← vm.mappings aligned_addr
  let block ← vm.blocks.find? (fun b => b.id == mapping.block)
  some (block.allocation, mapping.offset + alignment_offset)

/-! ## Heap regions (src/interpreter/memory.rs, `HeapRegions`) -/

inductive HeapRegionState where
  | Free : HeapRegionState
  | Used : Nat → HeapRegionState
deriving DecidableEq, Repr

def HeapRegionState.is_free : HeapRegionState → Bool
  | .Free => true
  | .Used _ => false

structure HeapRegion where
  id : Nat
  state : HeapRegionState
  base : Nat
  length : Nat
deriving DecidableEq, Repr

def HeapRegion.is_free (r : HeapRegion) : Bool := r.state.is_free

def HeapRegion.is_used (r : HeapRegion) : Bool := !r.state.is_free

def HeapRegion.region_end (r : HeapRegion) : Nat := r.base + r.length

/-- `HeapRegions`.  The source keeps an `IdHashMap<HeapRegion>` plus an
`in_order: Vec<HeapRegionId>`; since the two are maintained in lock step,
they are embedded as the single address-ordered list of regions (each
carrying its id) plus the `next_id` counter of the map. -/
structure HeapRegions where
  in_order : List HeapRegion
  next_id : Nat
deriving DecidableEq, Repr

/-- `HeapRegions::new`: a single `Free` region spanning the whole heap. -/
def HeapRegions.new (size : Nat) : HeapRegions :=
  { in_order := [{ id := 1, state := .Free, base := 0, length := size }], next_id := 2 }

/-- `IdHashMap::get` for regions. -/
def HeapRegions.get (h : HeapRegions) (id : Nat) : Option HeapRegion :=
  h.in_order.find? (fun r => r.id == id)

/-- The scan inside `HeapRegions::allocate`: walk the ordered regions, find
the first `Free` one with `length ≥ total_size`, convert it to
`Used(allocation)` of exactly `total_size` bytes and, when it was larger,
insert the remainder as a new `Free` region (with the fresh id) right after
it.  Returns the new list together with `(base, id)` of the used region. -/
def HeapRegions.allocateGo (total_size allocation new_id : Nat) :
    List HeapRegion → Option (List HeapRegion × Nat × Nat)
  | [] => none
  | r :: rest =>
    if r.is_free && total_size ≤ r.length then
      let used : HeapRegion := { r with state := .Used allocation, length := total_size }
      if total_size < r.length then
        let remainder : HeapRegion :=
          { id := new_id, state := .Free, base := r.base + total_size,
            length := r.length - total_size }
        some (used :: remainder :: rest, r.base, r.id)
      else
        some (used :: rest, r.base, r.id)
    else
      (HeapRegions.allocateGo total_size allocation new_id rest).map
        (fun x => (r :: x.1, x.2))

/-- `HeapRegions::allocate`.  `none` is the `OutOfMemory` result (the
source's `Error` variant is never produced by `allocate`). -/
def HeapRegions.allocate (h : HeapRegions) (data_size allocation : Nat) :
    Option (HeapRegions × Nat × Nat) :=
  let total_size := total_region_len data_size
  (HeapRegions.allocateGo total_size allocation h.next_id h.in_order).map
    (fun x => ({ in_order := x.1, next_id := h.next_id + 1 }, x.2))

def HeapRegion.setFree (r : HeapRegion) : HeapRegion := { r with state := .Free }

/-- `join_free_right` applied to two adjacent regions: the left one becomes
`Free` and absorbs the right one's length. -/
def HeapRegion.joinRight (l r : HeapRegion) : HeapRegion :=
  { l with state := .Free, length := l.length + r.length }

/-- The case analysis of `HeapRegions::deallocate` on the ordered region
list: find the region with the given id, mark it `Free`, and coalesce with
`Free` neighbours via `join_free_right` (merging into the leftmost index).
The head-of-list case is the source's `!has_left` branch; the clause that
sees the target as the second element has the left neighbour in hand and
covers the four `has_left` cases.  `none` when the id is absent. -/
def HeapRegions.deallocateGo (id : Nat) : List HeapRegion → Option (List HeapRegion)
  | [] => none
  | [r] => if r.id = id then some [r.setFree] else none
  | r :: r2 :: rest =>
    if r.id = id then
      -- no left neighbour
      if r2.is_free then some (r.joinRight r2 :: rest)
      else some (r.setFree :: r2 :: rest)
    else if r2.id = id then
      if r.is_free then
        match rest with
        | [] => some [r.joinRight r2]
        | r3 :: rest3 =>
          if r3.is_free then
            some ((r.joinRight r2).joinRight r3 :: rest3)
          else some (r.joinRight r2 :: r3 :: rest3)
      else
        match rest with
        | [] => some [r, r2.setFree]
        | r3 :: rest3 =>
          if r3.is_free then some (r :: r2.joinRight r3 :: rest3)
          else some (r :: r2.setFree :: r3 :: rest3)
    else
      (HeapRegions.deallocateGo id (r2 :: rest)).map (fun l => r :: l)

/-- `HeapRegions::deallocate`. -/
def HeapRegions.deallocate (h : HeapRegions) (id : Nat) : Option HeapRegions :=
  (HeapRegions.deallocateGo id h.in_order).map (fun l => { h with in_order := l })

/-- The middle clause of `deallocateGo` (target is the second region, the
left neighbour `r` is in hand), with the case split on the right
neighbour list hoisted to the top so that its equations reduce once the
list's shape is known.  Equal to the corresponding arm of `deallocateGo`
by `rfl` after fixing the list constructor. -/
def deallocMid (r r2 : HeapRegion) : List HeapRegion → Option (List HeapRegion)
  | [] =>
    if r.is_free then some [r.joinRight r2] else some [r, r2.setFree]
  | r3 :: rest3 =>
    if r.is_free then
      if r3.is_free then some ((r.joinRight r2).joinRight r3 :: rest3)
      else some (r.joinRight r2 :: r3 :: rest3)
    else
      if r3.is_free then some (r :: r2.joinRight r3 :: rest3)
      else some (r :: r2.setFree :: r3 :: rest3)

/-- `<[u8]>::copy_within(src..src+len, dest)` on a byte function
(`memmove` semantics: the source bytes are read from the pre-copy state). -/
def copyWithin (h : Nat → Nat) (src len dest : Nat) : Nat → Nat :=
  fun i => if dest ≤ i ∧ i < dest + len then h (src + (i - dest)) else h i

/-- The loop of `HeapRegions::compact`: walk the regions in address order,
drop `Free` ones, and move each `Used` one down to `next_base`, copying its
bytes.  Returns the surviving regions, the final `next_base`, and the
updated heap bytes. -/
def HeapRegions.compactGo : List HeapRegion → Nat → (Nat → Nat) →
    List HeapRegion × Nat × (Nat → Nat)
  | [], next_base, heap => ([], next_base, heap)
  | r :: rest, next_base, heap =>
    if r.is_free then HeapRegions.compactGo rest next_base heap
    else
      let heap1 := copyWithin heap r.base r.length next_base
      let moved : HeapRegion := { r with base := next_base }
      let res := HeapRegions.compactGo rest (next_base + r.length) heap1
      (moved :: res.1, res.2.1, res.2.2)

/-- `HeapRegions::compact`.  `heap_end` is the end of the last region (the
source panics when the list is empty, which cannot happen in reachable
states; the embedding then takes `0`).  After the walk, any remaining space
is covered by a single trailing `Free` region with a fresh id. -/
def HeapRegions.compact (h : HeapRegions) (heap : Nat → Nat) :
    HeapRegions × (Nat → Nat) :=
  let heap_end := (h.in_order.getLast?.map HeapRegion.region_end).getD 0
  let res := HeapRegions.compactGo h.in_order 0 heap
  let next_base := res.2.1
  if next_base < heap_end then
    ({ in_order := res.1 ++
        [{ id := h.next_id, state := .Free, base := next_base,
           length := heap_end - next_base }]
       next_id := h.next_id + 1 }, res.2.2)
  else
    ({ in_order := res.1, next_id := h.next_id }, res.2.2)

/-- `HeapRegions::extend`: grow the final `Free` region to reach `new_size`,
or append a fresh `Free` region after a final `Used` one.  The source
asserts `new_size >= last.end()` and panics on an empty list; both become
`none`. -/
def HeapRegions.extend (h : HeapRegions) (new_size : Nat) : Option HeapRegions := do
  let last ← h.in_order.getLast?
  if new_size < last.region_end then none
  else if last.is_free then
    some { h with
      in_order := h.in_order.dropLast ++ [{ last with length := new_size - last.base }] }
  else
    let fresh : HeapRegion :=
      { id := h.next_id, state := .Free, base := last.region_end,
        length := new_size - last.region_end }
    some { in_order := h.in_order ++ [fresh], next_id := h.next_id + 1 }

/-! ## The managed memory façade (src/interpreter/memory.rs, `Memory`) -/

/-- `Memory`.  The `IdHashMap<Allocation>` is the entry list (insertion
order) plus its `next_id` counter; the backing `Heap` buffer is a byte
function together with its length. -/
structure Memory where
  virtual_mapper : VirtualAddressMapper
  regions : HeapRegions
  allocations : List Allocation
  next_allocation_id : Nat
  heap : Nat → Nat
  heap_len : Nat

/-- `IdHashMap::get` for allocations. -/
def Memory.getAllocation (m : Memory) (id : Nat) : Option Allocation :=
  m.allocations.find? (fun a => a.id == id)

/-- `Memory::addr_to_allocation`: translate the virtual address and look up
the owning allocation; fails past `data_length`.  (The `expect` on a
missing allocation becomes `none`.) -/
def Memory.addr_to_allocation (m : Memory) (addr : Nat) : Option (Allocation × Nat) := do
  let (allocation_id, offset) ← m.virtual_mapper.translate addr
  let allocation ← m.getAllocation allocation_id
  if allocation.data_length ≤ offset then none
  else some (allocation, offset)

/-- `Memory::addr_to_indices`: physical byte range for `size` bytes at the
virtual address, bound-checked against the allocation's `data_length`. -/
def Memory.addr_to_indices (m : Memory) (addr size : Nat) : Option (Nat × Nat) := do
  let (allocation, offset) ← m.addr_to_allocation addr
  let readable_len := allocation.data_length - offset
  if readable_len < size then none
  else
    let first := allocation.start + offset
    some (first, first + size)

/-- `Memory::get`: the `size` bytes at the virtual address (each a `u8`). -/
def Memory.get (m : Memory) (addr size : Nat) : Option (List Nat) :=
  (m.addr_to_indices addr size).map
    (fun se => (List.range size).map (fun j => m.heap (se.1 + j) % 256))

/-- Pointwise update of the byte function with `data` starting at `first`. -/
def writeBytes (h : Nat → Nat) (first : Nat) (data : List Nat) : Nat → Nat :=
  fun i => if first ≤ i ∧ i < first + data.length then data.getD (i - first) 0 else h i

/-- `Memory::set`: overwrite `data.length` bytes at the virtual address. -/
def Memory.set (m : Memory) (addr : Nat) (data : List Nat) : Option Memory :=
  (m.addr_to_indices addr data.length).map
    (fun se => { m with heap := writeBytes m.heap se.1 data })

/-- `Memory::ensure_aligned`. -/
def ensure_aligned (addr : Nat) : Bool := addr % WORD_BYTE_SIZE == 0

/-- `Memory::get_word`: word-aligned 8-byte little-endian read. -/
def Memory.get_word (m : Memory) (addr : Nat) : Option Nat :=
  if ensure_aligned addr then (m.get addr WORD_BYTE_SIZE).map fromLeBytes else none

/-- `Memory::set_word`: word-aligned 8-byte little-endian write. -/
def Memory.set_word (m : Memory) (addr value : Nat) : Option Memory :=
  if ensure_aligned addr then m.set addr (leBytes WORD_BYTE_SIZE value) else none

/-- `Memory::addr_to_reference_indices`: bitfield byte range of the owning
allocation plus the word index of the address inside it. -/
def Memory.addr_to_reference_indices (m : Memory) (addr : Nat) :
    Option (Nat × Nat × Nat) := do
  if addr % WORD_BYTE_SIZE ≠ 0 then none
  else
    let (allocation, byte_offset) ← m.addr_to_allocation addr
    let word_offset := byte_offset / WORD_BYTE_SIZE
    some (allocation.bitfield_start, allocation.bitfield_end, word_offset)

/-- Bit `pos` of a byte (`Lsb0` bit order, as in the `bitvec` views). -/
def byteBit (byte pos : Nat) : Bool := ((byte % 256) >>> pos) % 2 == 1

/-- Set or clear bit `pos` of a byte. -/
def setByteBit (byte pos : Nat) (b : Bool) : Nat :=
  if b then byte % 256 ||| 2 ^ pos
  else byte % 256 &&& (255 - 2 ^ pos)

/-- `Memory::is_reference`: the reference-bitfield bit of the word at the
virtual address. -/
def Memory.is_reference (m : Memory) (addr : Nat) : Option Bool :=
  (m.addr_to_reference_indices addr).map
    (fun x => byteBit (m.heap (x.1 + x.2.2 / 8)) (x.2.2 % 8))

/-- `Memory::set_reference`. -/
def Memory.set_reference (m : Memory) (addr : Nat) (is_reference : Bool) :
    Option Memory :=
  (m.addr_to_reference_indices addr).map
    (fun x =>
      let byte_index := x.1 + x.2.2 / 8
      { m with heap := fun i =>
          if i = byte_index then setByteBit (m.heap byte_index) (x.2.2 % 8) is_reference
          else m.heap i })

/-- `Memory::get_data_word`: the word value together with its tag. -/
def Memory.get_data_word (m : Memory) (addr : Nat) : Option DataWord := do
  let value ← m.get_word addr
  let is_reference ← m.is_reference addr
  some { value := value, is_reference := is_reference }

/-- `Memory::set_data_word`: write the word value, then its tag bit. -/
def Memory.set_data_word (m : Memory) (addr : Nat) (value : DataWord) : Option Memory := do
  let m ← m.set_word addr value.value
  m.set_reference addr value.is_reference

/-! ## Garbage collection (src/interpreter/memory.rs,
`Memory::force_garbage_collection`) -/

/-- `Memory::deallocate`: drop the allocation record, unmap its virtual
block, free its heap region. -/
def Memory.deallocate (m : Memory) (id : Nat) : Option Memory := do
  let allocation ← m.getAllocation id
  let vm ← m.virtual_mapper.unmap allocation.virtual_block
  let regions ← m.regions.deallocate allocation.region
  some { m with
    allocations := m.allocations.filter (fun a => a.id ≠ id)
    virtual_mapper := vm
    regions := regions }

/-- The tagged root values that seed the GC worklist. -/
def rootsNext (gc_roots : List DataWord) : List Nat :=
  (gc_roots.filter (fun x => x.is_reference)).map DataWord.value

/-- The `block.base` seeds pushed for each non-collectible allocation
(entry order); the source's `expect` on a missing block is `none`. -/
def basesOf (m : Memory) : Option (List Nat) :=
  (m.allocations.filter (fun a => !a.is_collectible)).mapM
    (fun a => (m.virtual_mapper.get a.virtual_block).map VirtualAddressBlock.base)

/-- The ids initially inserted into the GC's `collectible` set (entry
order). -/
def collectibleIds (m : Memory) : List Nat :=
  (m.allocations.filter (fun a => a.is_collectible)).map Allocation.id

/-- The addresses pushed while visiting one allocation: for every set bit
`i` of its reference bitfield (`iter_ones`, ascending, `Lsb0` within each
byte), the little-endian word at physical index `start + 8 i`. -/
def pointersOf (m : Memory) (a : Allocation) : List Nat :=
  ((List.range (a.bitfield_length * 8)).filter
      (fun i => byteBit (m.heap (a.bitfield_start + i / 8)) (i % 8))).map
    (fun i => fromLeBytes ((List.range WORD_BYTE_SIZE).map
      (fun j => m.heap (a.start + i * WORD_BYTE_SIZE + j) % 256)))

/-- The allocation ids of the entry list not yet visited; the mark loop's
termination measure. -/
def unvisitedCount (m : Memory) (visited : List Nat) : Nat :=
  ((m.allocations.map Allocation.id).filter (fun i => decide (i ∉ visited))).length

/-- A successful `addr_to_allocation` returns an allocation of the entry
list, retrievable by its own id (needed before `gcMark` for its
termination argument). -/
theorem Memory.addr_to_allocation_mem {m : Memory} {addr : Nat}
    {a : Allocation} {off : Nat}
    (h : m.addr_to_allocation addr = some (a, off)) :
    a ∈ m.allocations ∧ m.getAllocation a.id = some a := by
  rw [Memory.addr_to_allocation] at h
  simp only [Option.bind_eq_bind] at h
  cases ht : m.virtual_mapper.translate addr with
  | none => rw [ht] at h; cases h
  | some pr =>
    obtain ⟨aid, off0⟩ := pr
    rw [ht] at h
    simp only [Option.some_bind] at h
    cases hg : m.getAllocation aid with
    | none => rw [hg] at h; cases h
    | some al =>
      rw [hg] at h
      simp only [Option.some_bind] at h
      by_cases hd : al.data_length ≤ off0
      · rw [if_pos hd] at h; cases h
      · rw [if_neg hd] at h
        simp only [Option.some_inj, Prod.mk.injEq] at h
        obtain ⟨h1, h2⟩ := h
        subst h1
        rw [Memory.getAllocation] at hg
        have haid : al.id = aid := by
          have := List.find?_some hg
          simpa using this
        refine ⟨List.mem_of_find?_eq_some hg, ?_⟩
        rw [Memory.getAllocation, haid]
        exact hg

/-- Filtering with a stronger predicate gives a sublist of filtering with
a weaker one (needed before `gcMark` for its termination argument). -/
theorem filter_imp_sublist {α} {p q : α → Bool}
    (himp : ∀ x, q x = true → p x = true) :
    ∀ l : List α, List.Sublist (l.filter q) (l.filter p) := by
  intro l
  induction l with
  | nil => simp
  | cons x xs ih =>
    by_cases hq : q x = true
    · rw [List.filter_cons_of_pos hq, List.filter_cons_of_pos (himp x hq)]
      exact List.cons_sublist_cons.mpr ih
    · rw [List.filter_cons_of_neg (by simpa using hq)]
      by_cases hp : p x = true
      · rw [List.filter_cons_of_pos hp]
        exact ih.trans (List.sublist_cons_self _ _)
      · rw [List.filter_cons_of_neg (by simpa using hp)]
        exact ih

/-- Visiting a fresh id of the entry list strictly shrinks the unvisited
count (the mark loop's termination argument). -/
theorem unvisitedCount_lt {m : Memory} {visited : List Nat} {i : Nat}
    (hmem : i ∈ m.allocations.map Allocation.id) (hnew : i ∉ visited) :
    unvisitedCount m (i :: visited) < unvisitedCount m visited := by
  rw [unvisitedCount, unvisitedCount]
  have hsub := filter_imp_sublist
    (p := fun j => decide (j ∉ visited))
    (q := fun j => decide (j ∉ (i :: visited)))
    (fun x hx => by
      simp only [decide_eq_true_eq, List.mem_cons] at hx ⊢
      exact fun hc => hx (Or.inr hc))
    (m.allocations.map Allocation.id)
  rcases Nat.lt_or_ge
    (((m.allocations.map Allocation.id).filter
        (fun j => decide (j ∉ (i :: visited)))).length)
    (((m.allocations.map Allocation.id).filter
        (fun j => decide (j ∉ visited))).length) with hlt | hge
  · exact hlt
  · exfalso
    have heq := hsub.eq_of_length (Nat.le_antisymm hsub.length_le hge)
    have hi : i ∈ (m.allocations.map Allocation.id).filter
        (fun j => decide (j ∉ visited)) :=
      List.mem_filter.mpr ⟨hmem, by simpa using hnew⟩
    rw [← heq] at hi
    have := (List.mem_filter.mp hi).2
    simp at this

/-- The GC mark loop (`while let Some(addr) = next.pop()`).  The `Vec`
worklist is embedded head-reversed: `push` is `cons` and `pop` takes the
head, so the bit-ascending pushes of one visit appear reversed in front.
`visited` is the `HashSet` as the list of ids in insertion order. -/
def gcMark (m : Memory) : List Nat → List Nat → List Nat
  | visited, [] => visited
  | visited, addr :: rest =>
    match h : m.addr_to_allocation addr with
    | none => gcMark m visited rest
    | some (a, _off) =>
      if h2 : a.id ∈ visited then gcMark m visited rest
      else gcMark m (a.id :: visited) ((pointersOf m a).reverse ++ rest)
termination_by visited next => (unvisitedCount m visited, next.length)
decreasing_by
· apply Prod.Lex.right
  simp
· apply Prod.Lex.right
  simp
· apply Prod.Lex.left
  exact unvisitedCount_lt
    (List.mem_map_of_mem Allocation.id (Memory.addr_to_allocation_mem h).1) h2

/-- `Memory::force_garbage_collection`.  The `collectible` set after the
mark loop is its initial content minus the visited ids (removal happens on
first visit); iterating the `HashSet` for the deallocation loop is
embedded in entry order (the source's iteration order is unspecified).
The final loop re-reads each allocation's region base (the source's
`unwrap` is `none`). -/
def Memory.force_garbage_collection (m : Memory) (gc_roots : List DataWord) :
    Option Memory := do
  let bases ← basesOf m
  let visited := gcMark m [] ((rootsNext gc_roots ++ bases).reverse)
  let remaining := (collectibleIds m).filter (fun i => decide (i ∉ visited))
  let m2 ← remaining.foldlM Memory.deallocate m
  let rc := m2.regions.compact m2.heap
  let m3 : Memory := { m2 with regions := rc.1, heap := rc.2 }
  let allocs ← m3.allocations.mapM
    (fun a => (m3.regions.get a.region).map (fun r => { a with start := r.base }))
  some { m3 with allocations := allocs }

/-- Transitive GC reachability over virtual addresses: a seed address is
reachable, and so is every tagged word of a resolvable reachable
allocation. -/
inductive GCReachableAddr (m : Memory) (seeds : List Nat) : Nat → Prop where
  | seed : ∀ addr, addr ∈ seeds → GCReachableAddr m seeds addr
  | step : ∀ addr a off p, GCReachableAddr m seeds addr →
      m.addr_to_allocation addr = some (a, off) →
      p ∈ pointersOf m a → GCReachableAddr m seeds p

/-- An allocation id is GC-reachable when some reachable address resolves
to it. -/
def reachesId (m : Memory) (seeds : List Nat) (i : Nat) : Prop :=
  ∃ addr a off, GCReachableAddr m seeds addr ∧
    m.addr_to_allocation addr = some (a, off) ∧ a.id = i

/-- The seed list of `force_garbage_collection`: the tagged roots followed
by the non-collectible blocks' bases. -/
def gcSeeds (gc_roots : List DataWord) (bases : List Nat) : List Nat :=
  rootsNext gc_roots ++ bases

/-- The mark loop's worklist invariant: every pointer of a visited
allocation is either still pending or leads to a visited allocation. -/
def gcInv (m : Memory) (visited next : List Nat) : Prop :=
  ∀ i ∈ visited, ∀ a, m.getAllocation i = some a →
    ∀ p ∈ pointersOf m a, p ∈ next ∨
      ∀ a2 off2, m.addr_to_allocation p = some (a2, off2) → a2.id ∈ visited

/-! ## CPU state and interpreter (src/interpreter/mod.rs) -/

/-- The operand sum of src/opcodes.rs (`Operand`).  Register indices are the
raw `u8` of the source; reads and writes bounds-check them against
`REGISTER_NUM` (an out-of-range index panics in the source, `none` here). -/
inductive Operand where
  | Immediate : Int → Operand
  | Register : Nat → Operand
  | Reference : (register : Nat) → (offset : Int) → Operand
  | Stack : Nat → Operand
deriving DecidableEq, Repr

structure CpuState where
  registers : Fin REGISTER_NUM → DataWord
  stack_pointer : Nat
  instruction_pointer : Nat
  carry_flag : Bool
  zero_flag : Bool

/-- The instruction enum of src/opcodes.rs. -/
inductive Instruction where
  | NoOperation | Move | Add | Subtract | Multiply | Divide
  | BitwiseAnd | BitwiseOr | BitwiseXor | BitwiseNot
  | ShiftLeft | ShiftRight | Compare
  | Jump | JumpEqual | JumpNotEqual | JumpGreater | JumpGreaterEqual
  | JumpLess | JumpLessEqual
  | Call | Return | Push | Pop
  | New | GarbageCollector | Reference | Unreference | CallNative
  | DebugMemory | DebugDump | DebugCpu | Halt
deriving DecidableEq, Repr

/-- `Interpreter` (CPU state plus managed memory). -/
structure Interp where
  cpu_state : CpuState
  memory : Memory

/-- `Interpreter::get_effective_address`. -/
def Interp.get_effective_address (s : Interp) : Operand → Option Nat
  | .Reference register offset =>
    if h : register < REGISTER_NUM then
      (s.cpu_state.registers ⟨register, h⟩).expect_reference.map
        (fun base_addr => (base_addr + uOfInt offset) % U64_MOD)
    else none
  | .Stack offset => some ((s.cpu_state.stack_pointer + offset) % U64_MOD)
  | _ => none

/-- `Interpreter::read`. -/
def Interp.read (s : Interp) : Operand → Option DataWord
  | .Immediate v => some { value := uOfInt v, is_reference := false }
  | .Register i =>
    if h : i < REGISTER_NUM then some (s.cpu_state.registers ⟨i, h⟩) else none
  | op => (s.get_effective_address op).bind (fun addr => s.memory.get_data_word addr)

/-- `Interpreter::write`.  An `Immediate` destination is the
`BadDestination` error. -/
def Interp.write (s : Interp) (op : Operand) (value : DataWord) : Option Interp :=
  match op with
  | .Immediate _ => none
  | .Register i =>
    if h : i < REGISTER_NUM then
      some { s with cpu_state :=
        { s.cpu_state with registers :=
            Function.update s.cpu_state.registers ⟨i, h⟩ value } }
    else none
  | op =>
    (s.get_effective_address op).bind
      (fun addr => (s.memory.set_data_word addr value).map
        (fun m => { s with memory := m }))

/-- `Interpreter::write_with_flags`: write, clear `carry`, set `zero` iff
the written value is zero. -/
def Interp.write_with_flags (s : Interp) (op : Operand) (value : DataWord) :
    Option Interp :=
  (s.write op value).map
    (fun s1 => { s1 with cpu_state :=
      { s1.cpu_state with carry_flag := false, zero_flag := value.value == 0 } })

/-- `Interpreter::combine`: read both operands, apply the operation, write
the result (with flags) to the second operand.  The `ensure_operands` count
check failing is `none`. -/
def Interp.combine (s : Interp) (operands : List Operand)
    (operation : DataWord → DataWord → DataWord) : Option Interp :=
  match operands with
  | [op1, op2] => do
    let value1 ← s.read op1
    let value2 ← s.read op2
    s.write_with_flags op2 (operation value1 value2)
  | _ => none

/-- `Interpreter::combine_with_carry`: like `combine` for an operation that
also reports a carry, which is stored into `carry_flag` afterwards.  The
operation is `Option`-valued so that `overflowing_div`'s divide-by-zero
panic propagates. -/
def Interp.combine_with_carry (s : Interp) (operands : List Operand)
    (operation : DataWord → DataWord → Option (DataWord × Bool)) : Option Interp :=
  match operands with
  | [op1, op2] => do
    let value1 ← s.read op1
    let value2 ← s.read op2
    let rc ← operation value1 value2
    let s1 ← s.write_with_flags op2 rc.1
    some { s1 with cpu_state := { s1.cpu_state with carry_flag := rc.2 } }
  | _ => none

/-- `Interpreter::reverse_combine_with_carry`: `combine_with_carry` with the
operand order of the operation flipped (so `sub`/`div` compute
`destination op source`). -/
def Interp.reverse_combine_with_carry (s : Interp) (operands : List Operand)
    (operation : DataWord → DataWord → Option (DataWord × Bool)) : Option Interp :=
  s.combine_with_carry operands (fun a b => operation b a)

/-- `Interpreter::jump`. -/
def Interp.jump (s : Interp) (operands : List Operand) : Option Interp :=
  match operands with
  | [op] =>
    (s.read op).map (fun addr =>
      { s with cpu_state := { s.cpu_state with instruction_pointer := addr.value } })
  | _ => none

/-- `Interpreter::conditional_jump`: jump iff every requested flag matches. -/
def Interp.conditional_jump (s : Interp) (operands : List Operand)
    (zero_flag carry_flag : Option Bool) : Option Interp :=
  let zero_matches :=
    match zero_flag with
    | none => true
    | some expected => s.cpu_state.zero_flag == expected
  let carry_matches :=
    match carry_flag with
    | none => true
    | some expected => s.cpu_state.carry_flag == expected
  if zero_matches && carry_matches then s.jump operands else some s

/-- `Interpreter::push_stack`: write the tagged word at the stack pointer,
then decrement it by one word (wrapping). -/
def Interp.push_stack (s : Interp) (value : DataWord) : Option Interp :=
  (s.memory.set_data_word s.cpu_state.stack_pointer value).map
    (fun m =>
      { cpu_state := { s.cpu_state with
          stack_pointer := (s.cpu_state.stack_pointer + U64_MOD - WORD_BYTE_SIZE) % U64_MOD }
        memory := m })

/-- `Interpreter::pop_stack`: increment the stack pointer by one word
(wrapping), then read the tagged word there. -/
def Interp.pop_stack (s : Interp) : Option (DataWord × Interp) := do
  let sp := (s.cpu_state.stack_pointer + WORD_BYTE_SIZE) % U64_MOD
  let result ← s.memory.get_data_word sp
  some (result, { s with cpu_state := { s.cpu_state with stack_pointer := sp } })

/-- The instruction dispatch of `Interpreter::step`, applied to an already
decoded opcode: the fetch/decode (which advances `instruction_pointer` past
the instruction, so that it already points at the *following* instruction
when an arm runs) is factored out.  Returns the new state and the
continue/halt flag of `step`.  The `New`, `GarbageCollector`, `CallNative`
and debug-print arms perform I/O or allocation plumbing not needed by any
claim and are not modelled (`none`). -/
def Interp.stepOpcode (s : Interp) (instruction : Instruction)
    (operands : List Operand) : Option (Interp × Bool) :=
  match instruction with
  | .NoOperation => some (s, true)
  | .Move =>
    match operands with
    | [op1, op2] => do
      let value ← s.read op1
      let s1 ← s.write_with_flags op2 value
      some (s1, true)
    | _ => none
  | .Add => (s.combine_with_carry operands
      (fun a b => some (a.overflowing_add b))).map (fun s1 => (s1, true))
  | .Subtract => (s.reverse_combine_with_carry operands
      (fun a b => some (a.overflowing_sub b))).map (fun s1 => (s1, true))
  | .Multiply => (s.combine_with_carry operands
      (fun a b => some (a.overflowing_mul b))).map (fun s1 => (s1, true))
  | .Divide => (s.reverse_combine_with_carry operands
      DataWord.overflowing_div).map (fun s1 => (s1, true))
  | .BitwiseAnd => (s.combine operands DataWord.bitand).map (fun s1 => (s1, true))
  | .BitwiseOr => (s.combine operands DataWord.bitor).map (fun s1 => (s1, true))
  | .BitwiseXor => (s.combine operands DataWord.bitxor).map (fun s1 => (s1, true))
  | .BitwiseNot =>
    match operands with
    | [op1] => do
      let value ← s.read op1
      let s1 ← s.write_with_flags op1 value.bitnot
      some (s1, true)
    | _ => none
  | .ShiftLeft => (s.combine_with_carry operands
      (fun a b => some (a.overflowing_shl b))).map (fun s1 => (s1, true))
  | .ShiftRight => (s.combine_with_carry operands
      (fun a b => some (a.overflowing_shr b))).map (fun s1 => (s1, true))
  | .Compare =>
    match operands with
    | [op1, op2] => do
      let value1 ← s.read op1
      let value2 ← s.read op2
      some ({ s with cpu_state := { s.cpu_state with
        zero_flag := value1.value == value2.value
        carry_flag := value2.value ≤ value1.value } }, true)
    | _ => none
  | .Jump => (s.jump operands).map (fun s1 => (s1, true))
  | .JumpEqual =>
    (s.conditional_jump operands (some true) none).map (fun s1 => (s1, true))
  | .JumpNotEqual =>
    (s.conditional_jump operands (some false) none).map (fun s1 => (s1, true))
  | .JumpGreater =>
    (s.conditional_jump operands (some false) (some true)).map (fun s1 => (s1, true))
  | .JumpGreaterEqual =>
    (s.conditional_jump operands none (some true)).map (fun s1 => (s1, true))
  | .JumpLess =>
    (s.conditional_jump operands none (some false)).map (fun s1 => (s1, true))
  | .JumpLessEqual =>
    -- special-cased in the source: 'or' of the two flag conditions
    if s.cpu_state.zero_flag || !s.cpu_state.carry_flag then
      (s.jump operands).map (fun s1 => (s1, true))
    else some (s, true)
  | .Call =>
    match operands with
    | [op1] => do
      let addr ← s.read op1
      let s1 ← s.push_stack
        { value := s.cpu_state.instruction_pointer, is_reference := true }
      some ({ s1 with cpu_state :=
        { s1.cpu_state with instruction_pointer := addr.value } }, true)
    | _ => none
  | .Return =>
    match operands with
    | [] => do
      let (addr, s1) ← s.pop_stack
      if !addr.is_reference then none
      else
        some ({ s1 with cpu_state :=
          { s1.cpu_state with instruction_pointer := addr.value } }, true)
    | _ => none
  | .Push =>
    match operands with
    | [op1] => do
      let value ← s.read op1
      let s1 ← s.push_stack value
      some (s1, true)
    | _ => none
  | .Pop =>
    match operands with
    | [op1] => do
      let (value, s1) ← s.pop_stack
      let s2 ← s1.write op1 value
      some (s2, true)
    | _ => none
  | .Reference =>
    match operands with
    | [op1] => do
      let value ← s.read op1
      let s1 ← s.write op1 { value with is_reference := true }
      some (s1, true)
    | _ => none
  | .Unreference =>
    match operands with
    | [op1] => do
      let value ← s.read op1
      let s1 ← s.write op1 { value with is_reference := false }
      some (s1, true)
    | _ => none
  | .Halt => some (s, false)
  | _ => none

/-! ## Operand encoding (src/assembler/encoder.rs) and decoding
(src/opcodes.rs, `Operand::decode`)

Bit-layout constants of `impl Operand` in src/opcodes.rs. -/

abbrev ADDRESSING_MODE_MASK : Nat := 0xC0
abbrev ADDRESSING_MODE_SHIFT : Nat := 6
abbrev REGISTER_NUM_MASK : Nat := 0x30
abbrev REGISTER_NUM_SHIFT : Nat := 4
abbrev SIGN_MASK : Nat := 0x08
abbrev SIGN_SHIFT : Nat := 3
abbrev VALUE_SIZE_MASK : Nat := 0x07
abbrev VALUE_SIZE_SHIFT : Nat := 0

/-- The assembler front-end operand sum (src/assembler/parser.rs `Operand`),
which additionally carries label references. -/
inductive AsmOperand where
  | Label : String → AsmOperand
  | Immediate : Int → AsmOperand
  | Register : Nat → AsmOperand
  | Reference : (register : Nat) → (offset : Int) → AsmOperand
  | Stack : Nat → AsmOperand
deriving DecidableEq, Repr

/-- `OperandData` of the encoder. -/
structure OperandData where
  addressing_mode : Nat
  register_number : Nat
  value_is_positive : Bool
  value_absolute : Nat
  label : Option String
deriving DecidableEq, Repr

/-- `Encoder::get_operand_data`.  (`x.abs()` on `i64::MIN` panics in the
source before reaching the length check; its `natAbs` image `2 ^ 63` leads
to the same observable encode failure here.) -/
def get_operand_data : AsmOperand → OperandData
  | .Label l =>
    { addressing_mode := 0, register_number := 0, value_is_positive := true
      value_absolute := 0, label := some l }
  | .Immediate x =>
    { addressing_mode := 0, register_number := 0, value_is_positive := decide (0 ≤ x)
      value_absolute := x.natAbs, label := none }
  | .Register r =>
    { addressing_mode := 1, register_number := r, value_is_positive := true
      value_absolute := 0, label := none }
  | .Reference r off =>
    { addressing_mode := 2, register_number := r, value_is_positive := decide (0 ≤ off)
      value_absolute := off.natAbs, label := none }
  | .Stack o =>
    { addressing_mode := 3, register_number := 0, value_is_positive := true
      value_absolute := o, label := none }

/-- The `while value_bytes.ends_with(&[0]) { value_bytes.pop(); }` loop. -/
def stripTrailingZeros (l : List Nat) : List Nat :=
  (l.reverse.dropWhile (fun b => b == 0)).reverse

/-- `Encoder::encode_operand`: the bytes written for one operand (first the
bit-packed descriptor byte, then the little-endian value bytes — all 8
`to_le_bytes` bytes minus the popped last one for a label, minus the
stripped trailing zeroes otherwise).  A value needing more than 7 bytes is
the source's error (`none`); recording the label fixup offset is output
bookkeeping and not part of the byte stream. -/
def encode_operand (operand : AsmOperand) : Option (List Nat) :=
  let data := get_operand_data operand
  let fb0 := ((data.addressing_mode <<< ADDRESSING_MODE_SHIFT) &&& ADDRESSING_MODE_MASK) |||
    ((data.register_number <<< REGISTER_NUM_SHIFT) &&& REGISTER_NUM_MASK) |||
    (if data.value_is_positive then 0 else SIGN_MASK)
  let value_bytes :=
    if data.label.isSome then (leBytes 8 data.value_absolute).dropLast
    else stripTrailingZeros (leBytes 8 data.value_absolute)
  if 7 < value_bytes.length then none
  else
    some ((fb0 ||| ((value_bytes.length <<< VALUE_SIZE_SHIFT) &&& VALUE_SIZE_MASK)) ::
      value_bytes)

/-- `Operand::decode` (src/opcodes.rs) on a byte stream: read the
descriptor byte, extract the bit fields, read `value_size` bytes into a
zero-padded 8-byte buffer, and dispatch on the addressing mode.  Returns
the operand and the unconsumed rest of the stream; a short read is the
source's error (`none`).  Stream entries are `u8`, read through `% 256`. -/
def Operand.decode (input : List Nat) : Option (Operand × List Nat) := do
  let first_byte0 ← input.head?
  let first_byte := first_byte0 % 256
  let rest := input.tail
  let addr_mode := (first_byte &&& ADDRESSING_MODE_MASK) >>> ADDRESSING_MODE_SHIFT
  let register_num := (first_byte &&& REGISTER_NUM_MASK) >>> REGISTER_NUM_SHIFT
  let sign := (first_byte &&& SIGN_MASK) >>> SIGN_SHIFT
  let value_size := (first_byte &&& VALUE_SIZE_MASK) >>> VALUE_SIZE_SHIFT
  if rest.length < value_size then none
  else
    let value_bytes := rest.take value_size
    let value_padded_bytes := value_bytes ++ List.replicate (8 - value_size) 0
    let uvalue := fromLeBytes value_padded_bytes
    let ivalue := iOfU uvalue * (if sign = 0 then 1 else -1)
    let remaining := rest.drop value_size
    match addr_mode with
    | 0 => some (Operand.Immediate ivalue, remaining)
    | 1 => some (Operand.Register register_num, remaining)
    | 2 => some (Operand.Reference register_num ivalue, remaining)
    | 3 => some (Operand.Stack uvalue, remaining)
    | _ => none

/-- The core operand denoted by a (label-free) front-end operand. -/
def toCoreOperand : AsmOperand → Operand
  | .Label _ => Operand.Immediate 0
  | .Immediate x => Operand.Immediate x
  | .Register r => Operand.Register r
  | .Reference r off => Operand.Reference r off
  | .Stack o => Operand.Stack o

/-- The minimal number of little-endian bytes whose value range contains
`v` (0 bytes for 0). -/
def minimalByteLen (v : Nat) : Nat := if v = 0 then 0 else Nat.log 256 v + 1

/-! ## Heap-region operation sequences and the partition invariant
(claim C2) -/

/-- One `HeapRegions` operation of the claim: `allocate`, `deallocate` or
`compact`. -/
inductive RegionOp where
  | alloc : (data_size allocation : Nat) → RegionOp
  | dealloc : (id : Nat) → RegionOp
  | compact : RegionOp
deriving DecidableEq, Repr

/-- Apply one operation to (regions, heap bytes); a failing operation
(`OutOfMemory`, unknown region id) propagates an error in the source and
leaves the region state unchanged. -/
def applyRegionOp (st : HeapRegions × (Nat → Nat)) : RegionOp → HeapRegions × (Nat → Nat)
  | .alloc ds a =>
    match st.1.allocate ds a with
    | some res => (res.1, st.2)
    | none => st
  | .dealloc id =>
    match st.1.deallocate id with
    | some h2 => (h2, st.2)
    | none => st
  | .compact => st.1.compact st.2

/-- The ordered regions tile `[pos, heap_len)` exactly: each base equals
the running position, with the final position landing on `heap_len`. -/
def coversExactly (pos heap_len : Nat) : List HeapRegion → Bool
  | [] => pos == heap_len
  | r :: rest => r.base == pos && coversExactly (r.base + r.length) heap_len rest

/-- Region bases are strictly ascending. -/
def basesStrictAscB : List HeapRegion → Bool
  | [] => true
  | [_] => true
  | r :: r2 :: rest => decide (r.base < r2.base) && basesStrictAscB (r2 :: rest)

/-- No two adjacent regions are both `Free`. -/
def noAdjacentFreeB : List HeapRegion → Bool
  | [] => true
  | [_] => true
  | r :: r2 :: rest => !(r.is_free && r2.is_free) && noAdjacentFreeB (r2 :: rest)

/-- The allocation ids of the `Used` regions, in address order. -/
def usedIds : List HeapRegion → List Nat
  | [] => []
  | r :: rest =>
    match r.state with
    | .Free => usedIds rest
    | .Used a => a :: usedIds rest

/-- The partition invariant exactly as claim C2 states it: the regions
partition `[0, heap_len)` (no gaps, last end = heap length), bases strictly
ascending, no two adjacent `Free` regions, and every `Used` region's
allocation id occurs in exactly one region. -/
def regionsInvariantStrict (h : HeapRegions) (heap_len : Nat) : Bool :=
  coversExactly 0 heap_len h.in_order && basesStrictAscB h.in_order &&
    noAdjacentFreeB h.in_order && decide (usedIds h.in_order).Nodup

/-- The strengthened inductive invariant: the strict partition plus
positive region lengths, unique region ids below the id counter, and a
positive heap length. -/
structure RegionsWF (heap_len : Nat) (h : HeapRegions) : Prop where
  hlen : 0 < heap_len
  covers : coversExactly 0 heap_len h.in_order = true
  pos : ∀ r ∈ h.in_order, 0 < r.length
  noadj : noAdjacentFreeB h.in_order = true
  uniqueUsed : (usedIds h.in_order).Nodup
  idsNodup : (h.in_order.map HeapRegion.id).Nodup
  idsLt : ∀ r ∈ h.in_order, r.id < h.next_id

/-- The well-formed operation sequences of the amended claim C2: starting
from `HeapRegions::new` over a positive heap length, applying `allocate`
only with positive payload sizes and allocation ids not currently used,
and `deallocate`/`compact` freely. -/
inductive RegionsReachable (heap_len : Nat) : HeapRegions × (Nat → Nat) → Prop where
  | init : ∀ heap : Nat → Nat, 0 < heap_len →
      RegionsReachable heap_len (HeapRegions.new heap_len, heap)
  | stepAlloc : ∀ st ds a, RegionsReachable heap_len st →
      0 < ds → a ∉ usedIds st.1.in_order →
      RegionsReachable heap_len (applyRegionOp st (.alloc ds a))
  | stepDealloc : ∀ st id, RegionsReachable heap_len st →
      RegionsReachable heap_len (applyRegionOp st (.dealloc id))
  | stepCompact : ∀ st, RegionsReachable heap_len st →
      RegionsReachable heap_len (applyRegionOp st .compact)

/-- The entry-table and mapper sanity facts under which the GC theorem is
stated: unique allocation ids, distinct virtual blocks that all exist, a
well-formed region list, and each allocation id carried only by its own
region. -/
structure GCMemWF (m : Memory) : Prop where
  idsNodup : (m.allocations.map Allocation.id).Nodup
  vbNodup : (m.allocations.map Allocation.virtual_block).Nodup
  blocksExist : ∀ a ∈ m.allocations, ∃ b, m.virtual_mapper.get a.virtual_block = some b
  regionsWF : RegionsWF m.heap_len m.regions
  assoc : ∀ a ∈ m.allocations, ∀ r ∈ m.regions.in_order,
    r.state = .Used a.id → r.id = a.region

/-- The part of `GCMemWF` preserved by every `Memory::deallocate` step of
the GC's deallocation loop. -/
structure DeallocInv (mc : Memory) : Prop where
  ids : (mc.allocations.map Allocation.id).Nodup
  rwf : RegionsWF mc.heap_len mc.regions
  assoc : ∀ x ∈ mc.allocations, ∀ r ∈ mc.regions.in_order,
    r.state = .Used x.id → r.id = x.region

/-- Allocation `a` has been fully deallocated: no entry, virtual block
unmapped, and no heap region carries its id. -/
def PDone (a : Allocation) (mc : Memory) : Prop :=
  a.id ∉ mc.allocations.map Allocation.id ∧
  mc.virtual_mapper.get a.virtual_block = none ∧
  a.id ∉ usedIds mc.regions.in_order

/-! ## Concrete states used by witnesses and counterexamples -/

/-- A fresh memory as built by `Memory::new` with a 64-byte backing heap
(the heap bytes start zeroed for determinism). -/
def emptyMemory : Memory :=
  { virtual_mapper := VirtualAddressMapper.new
    regions := HeapRegions.new 64
    allocations := []
    next_allocation_id := 1
    heap := fun _ => 0
    heap_len := 64 }

/-- A CPU state with the given register file and everything else zeroed. -/
def mkCpu (f : Fin REGISTER_NUM → DataWord) : CpuState :=
  { registers := f, stack_pointer := 0, instruction_pointer := 0
    carry_flag := false, zero_flag := false }

/-- Register file holding `a` in R0 and `b` in R1. -/
def regFile (a b : DataWord) : Fin REGISTER_NUM → DataWord :=
  fun k => if k.1 = 0 then a else if k.1 = 1 then b else { value := 0, is_reference := false }

/-- Interpreter state with `a` in R0 and `b` in R1 over a fresh memory. -/
def twoRegInterp (a b : DataWord) : Interp :=
  { cpu_state := mkCpu (regFile a b), memory := emptyMemory }

/-- A memory holding one 32-byte allocation mapped at virtual address 0
(backing region of 33 bytes: payload plus one bitfield byte). -/
def stackMemory : Memory :=
  { virtual_mapper :=
      { blocks := [{ id := 1, allocation := 1, base := 0, size := 32 }]
        next_block_id := 2
        mappings := fun k => if k = 0 then some { block := 1, offset := 0 } else none
        next_address := 1024 }
    regions :=
      { in_order := [{ id := 1, state := .Used 1, base := 0, length := 33 },
                     { id := 2, state := .Free, base := 33, length := 31 }]
        next_id := 3 }
    allocations := [{ id := 1, start := 0, data_length := 32, is_collectible := false,
                      name := none, virtual_block := 1, region := 1 }]
    next_allocation_id := 2
    heap := fun _ => 0
    heap_len := 64 }

/-- Interpreter state over `stackMemory` with the stack pointer at virtual
address 8. -/
def stackInterp : Interp :=
  { cpu_state := { mkCpu (regFile { value := 0, is_reference := false }
      { value := 0, is_reference := false }) with stack_pointer := 8 }
    memory := stackMemory }

/-- The result of `force_garbage_collection` on `stackMemory` with no
roots: its single non-collectible allocation survives, compaction leaves
it in place and re-tiles the trailing free space under a fresh region id. -/
def gcW : Memory :=
  { stackMemory with
    regions :=
      { in_order := [{ id := 1, state := .Used 1, base := 0, length := 33 },
                     { id := 3, state := .Free, base := 33, length := 31 }]
        next_id := 4 }
    heap := copyWithin (fun _ => 0) 0 33 0 }

/-- A memory holding a non-collectible allocation (id 1) whose only data
word is a tagged pointer (bitfield bit set) to the virtual base `1024` of
a collectible allocation (id 2).  The collectible one is unreachable from
any supplied root. -/
def gcCounterMemory : Memory :=
  { virtual_mapper :=
      { blocks := [{ id := 1, allocation := 1, base := 0, size := 8 },
                   { id := 2, allocation := 2, base := 1024, size := 8 }]
        next_block_id := 3
        mappings := fun k =>
          if k = 0 then some { block := 1, offset := 0 }
          else if k = 1024 then some { block := 2, offset := 0 }
          else none
        next_address := 2048 }
    regions :=
      { in_order := [{ id := 1, state := .Used 1, base := 0, length := 9 },
                     { id := 2, state := .Used 2, base := 9, length := 9 },
                     { id := 3, state := .Free, base := 18, length := 110 }]
        next_id := 4 }
    allocations := [{ id := 1, start := 0, data_length := 8, is_collectible := false,
                      name := none, virtual_block := 1, region := 1 },
                    { id := 2, start := 9, data_length := 8, is_collectible := true,
                      name := none, virtual_block := 2, region := 2 }]
    next_allocation_id := 3
    heap := fun i => if i = 1 then 4 else if i = 8 then 1 else 0
    heap_len := 128 }

/-! ## Register-operand evaluation lemmas -/

theorem Interp.read_register (s : Interp) (i : Fin REGISTER_NUM) :
    s.read (.Register i.1) = some (s.cpu_state.registers i) := by
  simp [Interp.read, i.isLt]

theorem Interp.write_register (s : Interp) (j : Fin REGISTER_NUM) (v : DataWord) :
    s.write (.Register j.1) v =
      some { s with cpu_state := { s.cpu_state with
        registers := Function.update s.cpu_state.registers j v } } := by
  simp [Interp.write, j.isLt]

theorem Interp.write_with_flags_register (s : Interp) (j : Fin REGISTER_NUM)
    (v : DataWord) :
    s.write_with_flags (.Register j.1) v =
      some { s with cpu_state := { s.cpu_state with
        registers := Function.update s.cpu_state.registers j v
        carry_flag := false
        zero_flag := v.value == 0 } } := by
  simp [Interp.write_with_flags, Interp.write_register]

theorem Interp.combine_with_carry_registers (s : Interp) (i j : Fin REGISTER_NUM)
    (f : DataWord → DataWord → Option (DataWord × Bool)) :
    s.combine_with_carry [.Register i.1, .Register j.1] f =
      (f (s.cpu_state.registers i) (s.cpu_state.registers j)).map (fun rc =>
        { s with cpu_state := { s.cpu_state with
            registers := Function.update s.cpu_state.registers j rc.1
            carry_flag := rc.2
            zero_flag := rc.1.value == 0 } }) := by
  cases hf : f (s.cpu_state.registers i) (s.cpu_state.registers j) with
  | none =>
    simp [Interp.combine_with_carry, Interp.read_register, hf]
  | some rc =>
    simp [Interp.combine_with_carry, Interp.read_register, hf,
      Interp.write_with_flags_register]

theorem Interp.combine_registers (s : Interp) (i j : Fin REGISTER_NUM)
    (f : DataWord → DataWord → DataWord) :
    s.combine [.Register i.1, .Register j.1] f =
      some { s with cpu_state := { s.cpu_state with
        registers := Function.update s.cpu_state.registers j
          (f (s.cpu_state.registers i) (s.cpu_state.registers j))
        carry_flag := false
        zero_flag := (f (s.cpu_state.registers i) (s.cpu_state.registers j)).value
          == 0 } } := by
  simp [Interp.combine, Interp.read_register, Interp.write_with_flags_register]

theorem beqNatDecide (a b : Nat) : (a == b) = decide (a = b) := by
  by_cases h : a = b <;> simp [h]

theorem Interp.jump_register (s : Interp) (i : Fin REGISTER_NUM) :
    s.jump [.Register i.1] =
      some { s with cpu_state := { s.cpu_state with
        instruction_pointer := (s.cpu_state.registers i).value } } := by
  simp [Interp.jump, Interp.read_register]

/-! ## Claim theorems: interpreter arithmetic and control flow -/

/-- Claim C5: `sub` and `div` are order-sensitive in the stated direction.
With source operand `src` (first operand, register `i`) and destination
`dst` (second operand, register `j`), `sub` stores the wrap-around value of
`dst − src` and `div` stores `dst / src`; the carry flag becomes the
overflow reported by the underlying operation (`dst < src` for `sub`,
`false` for `div`) and the zero flag is set iff the stored result is 0. -/
theorem sub_div_destination_order (s : Interp) (i j : Fin REGISTER_NUM)
    (hdiv : (s.cpu_state.registers i).value ≠ 0) :
    (Interp.stepOpcode s .Subtract [.Register i.1, .Register j.1] =
      some ({ s with cpu_state := { s.cpu_state with
        registers := Function.update s.cpu_state.registers j
          { value := ((s.cpu_state.registers j).value + U64_MOD -
              (s.cpu_state.registers i).value) % U64_MOD
            is_reference := (s.cpu_state.registers j).is_reference ||
              (s.cpu_state.registers i).is_reference }
        carry_flag :=
          decide ((s.cpu_state.registers j).value < (s.cpu_state.registers i).value)
        zero_flag := decide (((s.cpu_state.registers j).value + U64_MOD -
          (s.cpu_state.registers i).value) % U64_MOD = 0) } }, true)) ∧
    (Interp.stepOpcode s .Divide [.Register i.1, .Register j.1] =
      some ({ s with cpu_state := { s.cpu_state with
        registers := Function.update s.cpu_state.registers j
          { value := (s.cpu_state.registers j).value / (s.cpu_state.registers i).value
            is_reference := (s.cpu_state.registers j).is_reference ||
              (s.cpu_state.registers i).is_reference }
        carry_flag := false
        zero_flag := decide ((s.cpu_state.registers j).value /
          (s.cpu_state.registers i).value = 0) } }, true)) := by
  constructor
  · simp [Interp.stepOpcode, Interp.reverse_combine_with_carry,
      Interp.combine_with_carry_registers, DataWord.overflowing_sub,
      DataWord.overflowingOperation, DataWord.combine, uwordSub, beqNatDecide]
  · simp [Interp.stepOpcode, Interp.reverse_combine_with_carry,
      Interp.combine_with_carry_registers, DataWord.overflowing_div,
      DataWord.overflowingOperation, DataWord.combine, hdiv, beqNatDecide]

/-- Witness for `sub_div_destination_order` at a concrete state
(R0 = 3, R1 = 10): sub stores 7, div stores 3. -/
theorem sub_div_destination_order_witness :
    ((3 : Nat) ≠ 0) ∧
    (Interp.stepOpcode (twoRegInterp { value := 3, is_reference := false }
        { value := 10, is_reference := false }) .Subtract
        [.Register (0 : Fin REGISTER_NUM).1, .Register (1 : Fin REGISTER_NUM).1]).map
        (fun r => (r.1.cpu_state.registers 1).value) = some 7 := by
  refine ⟨by decide, ?_⟩
  rw [(sub_div_destination_order
    (twoRegInterp { value := 3, is_reference := false }
      { value := 10, is_reference := false }) 0 1 (by decide)).1]
  decide

/-- Claim C6: each conditional jump transfers control iff its flag predicate
holds (`jeq`: zero; `jne`: ¬zero; `jgt`: ¬zero ∧ carry; `jge`: carry;
`jlt`: ¬carry; `jle`: zero ∨ ¬carry); otherwise the state is unchanged — in
particular the instruction pointer, which after fetch/decode already
addresses the following instruction, stays there. -/
theorem conditional_jumps_spec (s : Interp) (i : Fin REGISTER_NUM) :
    (Interp.stepOpcode s .JumpEqual [.Register i.1] =
      some (if s.cpu_state.zero_flag = true then
        { s with cpu_state := { s.cpu_state with
          instruction_pointer := (s.cpu_state.registers i).value } } else s, true)) ∧
    (Interp.stepOpcode s .JumpNotEqual [.Register i.1] =
      some (if s.cpu_state.zero_flag = false then
        { s with cpu_state := { s.cpu_state with
          instruction_pointer := (s.cpu_state.registers i).value } } else s, true)) ∧
    (Interp.stepOpcode s .JumpGreater [.Register i.1] =
      some (if s.cpu_state.zero_flag = false ∧ s.cpu_state.carry_flag = true then
        { s with cpu_state := { s.cpu_state with
          instruction_pointer := (s.cpu_state.registers i).value } } else s, true)) ∧
    (Interp.stepOpcode s .JumpGreaterEqual [.Register i.1] =
      some (if s.cpu_state.carry_flag = true then
        { s with cpu_state := { s.cpu_state with
          instruction_pointer := (s.cpu_state.registers i).value } } else s, true)) ∧
    (Interp.stepOpcode s .JumpLess [.Register i.1] =
      some (if s.cpu_state.carry_flag = false then
        { s with cpu_state := { s.cpu_state with
          instruction_pointer := (s.cpu_state.registers i).value } } else s, true)) ∧
    (Interp.stepOpcode s .JumpLessEqual [.Register i.1] =
      some (if s.cpu_state.zero_flag = true ∨ s.cpu_state.carry_flag = false then
        { s with cpu_state := { s.cpu_state with
          instruction_pointer := (s.cpu_state.registers i).value } } else s, true)) := by
  refine ⟨?_, ?_, ?_, ?_, ?_, ?_⟩ <;>
    cases hz : s.cpu_state.zero_flag <;> cases hc : s.cpu_state.carry_flag <;>
      simp [Interp.stepOpcode, Interp.conditional_jump, Interp.jump_register, hz, hc]

/-- Claim C7: executing `div` with a zero source (divisor) value does not
produce a silently wrapped result: `u64::overflowing_div` panics, embedded
as a failing (`none`) step. -/
theorem div_by_zero_fails (s : Interp) (i j : Fin REGISTER_NUM)
    (h : (s.cpu_state.registers i).value = 0) :
    Interp.stepOpcode s .Divide [.Register i.1, .Register j.1] = none := by
  simp [Interp.stepOpcode, Interp.reverse_combine_with_carry,
    Interp.combine_with_carry_registers, DataWord.overflowing_div, h]

/-- Witness for `div_by_zero_fails`: dividing R1 = 5 by R0 = 0 fails. -/
theorem div_by_zero_fails_witness :
    Interp.stepOpcode (twoRegInterp { value := 0, is_reference := false }
      { value := 5, is_reference := false }) .Divide [.Register 0, .Register 1] = none :=
  div_by_zero_fails _ 0 1 (by decide)

/-- Counterexample to claim C8 as stated: with the shift amount
`2 ^ 32` (which is `≥ 64`) in the destination register, `shl` leaves the
carry flag *clear*, because the amount is truncated `as u32` to 0 before
`overflowing_shl` tests it. -/
theorem shift_ge64_carry_claim_false :
    64 ≤ (2 ^ 32 : Nat) ∧
    (Interp.stepOpcode (twoRegInterp { value := 1, is_reference := false }
        { value := 2 ^ 32, is_reference := false }) .ShiftLeft
        [.Register 0, .Register 1]).map (fun r => r.1.cpu_state.carry_flag) =
      some false := by
  refine ⟨by norm_num, ?_⟩
  decide

/-- Claim C8, amended: the shift instructions truncate the shift amount to
32 bits (`as u32`) before `overflowing_shl`/`overflowing_shr`; the carry
(overflow) flag is set iff the truncated amount is `≥ 64` (so for amounts
`64 ≤ b < 2 ^ 32` exactly as the claim states, but not for larger amounts
whose low 32 bits are below 64), and the stored result is the deterministic
wrapping shift of the source value by the amount modulo 64. -/
theorem shift_overflow_spec (s : Interp) (i j : Fin REGISTER_NUM) :
    (Interp.stepOpcode s .ShiftLeft [.Register i.1, .Register j.1] =
      some ({ s with cpu_state := { s.cpu_state with
        registers := Function.update s.cpu_state.registers j
          { value := ((s.cpu_state.registers i).value <<<
              ((s.cpu_state.registers j).value % U32_MOD % 64)) % U64_MOD
            is_reference := (s.cpu_state.registers i).is_reference ||
              (s.cpu_state.registers j).is_reference }
        carry_flag := decide (64 ≤ (s.cpu_state.registers j).value % U32_MOD)
        zero_flag := decide (((s.cpu_state.registers i).value <<<
          ((s.cpu_state.registers j).value % U32_MOD % 64)) % U64_MOD = 0) } },
        true)) ∧
    (Interp.stepOpcode s .ShiftRight [.Register i.1, .Register j.1] =
      some ({ s with cpu_state := { s.cpu_state with
        registers := Function.update s.cpu_state.registers j
          { value := ((s.cpu_state.registers i).value % U64_MOD) >>>
              ((s.cpu_state.registers j).value % U32_MOD % 64)
            is_reference := (s.cpu_state.registers i).is_reference ||
              (s.cpu_state.registers j).is_reference }
        carry_flag := decide (64 ≤ (s.cpu_state.registers j).value % U32_MOD)
        zero_flag := decide (((s.cpu_state.registers i).value % U64_MOD) >>>
          ((s.cpu_state.registers j).value % U32_MOD % 64) = 0) } }, true)) := by
  constructor
  · simp [Interp.stepOpcode, Interp.combine_with_carry_registers,
      DataWord.overflowing_shl, DataWord.overflowingOperation, DataWord.combine,
      uwordShl, beqNatDecide]
  · simp [Interp.stepOpcode, Interp.combine_with_carry_registers,
      DataWord.overflowing_shr, DataWord.overflowingOperation, DataWord.combine,
      uwordShr, beqNatDecide]

/-- Claim C10: every two-operand arithmetic/bitwise instruction tags its
result with the disjunction of the operands' reference tags (so adding an
untagged offset to a tagged word stays tagged, and two untagged words never
produce a tag). -/
theorem binary_ops_tag_propagation (s : Interp) (i j : Fin REGISTER_NUM)
    (hdiv : (s.cpu_state.registers i).value ≠ 0) :
    ∀ instr ∈ ([.Add, .Subtract, .Multiply, .Divide, .BitwiseAnd, .BitwiseOr,
        .BitwiseXor, .ShiftLeft, .ShiftRight] : List Instruction),
      (Interp.stepOpcode s instr [.Register i.1, .Register j.1]).map
          (fun r => (r.1.cpu_state.registers j).is_reference) =
        some ((s.cpu_state.registers i).is_reference ||
          (s.cpu_state.registers j).is_reference) := by
  intro instr hinstr
  fin_cases hinstr <;>
    simp [Interp.stepOpcode, Interp.combine_with_carry_registers,
      Interp.combine_registers, Interp.reverse_combine_with_carry,
      DataWord.overflowing_add, DataWord.overflowing_sub, DataWord.overflowing_mul,
      DataWord.overflowing_div, DataWord.overflowing_shl, DataWord.overflowing_shr,
      DataWord.overflowingOperation, DataWord.combine, DataWord.bitand,
      DataWord.bitor, DataWord.bitxor, hdiv, Bool.or_comm]

/-- Witness for `binary_ops_tag_propagation`: R0 untagged 8, R1 tagged 40;
`add` yields a tagged result. -/
theorem binary_ops_tag_propagation_witness :
    ((8 : Nat) ≠ 0) ∧
    (Interp.stepOpcode (twoRegInterp { value := 8, is_reference := false }
        { value := 40, is_reference := true }) .Add
        [.Register (0 : Fin REGISTER_NUM).1, .Register (1 : Fin REGISTER_NUM).1]).map
        (fun r => (r.1.cpu_state.registers 1).is_reference) = some true := by
  refine ⟨by decide, ?_⟩
  rw [binary_ops_tag_propagation
    (twoRegInterp { value := 8, is_reference := false }
      { value := 40, is_reference := true }) 0 1 (by decide) .Add (by simp)]
  decide

/-! ## Byte-level round-trip lemmas for the memory words -/

theorem leBytes_length (n v : Nat) : (leBytes n v).length = n := by
  simp [leBytes]

theorem leByte_lt (v j : Nat) : leByte v j < 256 := by
  simp [leByte, Nat.mod_lt]

theorem leBytes_getD (n v j : Nat) (h : j < n) : (leBytes n v).getD j 0 = leByte v j := by
  simp [leBytes, List.getD, List.getElem?_map, List.getElem?_range h]

theorem fromLe_aux (v : Nat) :
    ∀ n k, (((List.range n).map (fun j => leByte v (k + j))).foldr
        (fun b acc => b % 256 + 256 * acc) 0) = v / 256 ^ k % 256 ^ n := by
  intro n
  induction n with
  | zero => intro k; simp [Nat.mod_one]
  | succ n ih =>
    intro k
    rw [List.range_succ_eq_map]
    simp only [List.map_cons, List.map_map, List.foldr_cons]
    have hcomp : ((fun j => leByte v (k + j)) ∘ Nat.succ) =
        (fun j => leByte v (k + 1 + j)) := by
      funext j
      simp only [Function.comp, Nat.succ_eq_add_one]
      ring_nf
    rw [hcomp, ih (k + 1)]
    have h1 : leByte v (k + 0) % 256 = v / 256 ^ k % 256 := by
      simp [leByte]
    rw [h1]
    have h2 : v / 256 ^ (k + 1) = v / 256 ^ k / 256 := by
      rw [Nat.pow_succ, Nat.div_div_eq_div_mul]
    rw [h2]
    have h3 : (256 : Nat) ^ (n + 1) = 256 * 256 ^ n := by ring
    rw [h3, Nat.mod_mul]

theorem fromLe_leBytes (n v : Nat) : fromLeBytes (leBytes n v) = v % 256 ^ n := by
  have h := fromLe_aux v n 0
  simp only [Nat.zero_add, Nat.pow_zero, Nat.div_one] at h
  simpa [fromLeBytes, leBytes] using h

theorem byteBit_eq_testBit (x pos : Nat) :
    byteBit x pos = Nat.testBit (x % 256) pos := by
  simp [byteBit, Nat.testBit_to_div_mod, Nat.shiftRight_eq_div_pow, beqNatDecide]

theorem byteBit_setByteBit (byte pos : Nat) (b : Bool) (hpos : pos < 8) :
    byteBit (setByteBit byte pos b) pos = b := by
  have h256 : (256 : Nat) = 2 ^ 8 := by norm_num
  cases b with
  | true =>
    rw [byteBit_eq_testBit, setByteBit, if_pos rfl, h256, Nat.testBit_mod_two_pow]
    simp [hpos, Nat.testBit_lor, Nat.testBit_two_pow_self]
  | false =>
    rw [byteBit_eq_testBit, setByteBit, if_neg (by simp), h256, Nat.testBit_mod_two_pow]
    have hzero : Nat.testBit (255 - 2 ^ pos) pos = false := by
      interval_cases pos <;> decide
    simp [hpos, Nat.testBit_land, hzero]

/-! ## Heap-only updates do not disturb address translation -/

theorem Memory.addr_to_allocation_heap (m : Memory) (h2 : Nat → Nat) (a : Nat) :
    Memory.addr_to_allocation { m with heap := h2 } a = m.addr_to_allocation a := rfl

theorem Memory.addr_to_indices_heap (m : Memory) (h2 : Nat → Nat) (a n : Nat) :
    Memory.addr_to_indices { m with heap := h2 } a n = m.addr_to_indices a n := rfl

/-! ## Writing then reading a data word -/

theorem Memory.set_get_data_word {m m2 : Memory} {a : Nat} {w : DataWord}
    (hw : w.value < U64_MOD) (h : m.set_data_word a w = some m2) :
    m2.get_data_word a = some w := by
  -- split the write into the word write and the tag write
  rw [Memory.set_data_word] at h
  cases hsw : m.set_word a w.value with
  | none => rw [hsw] at h; exact absurd h (by simp)
  | some m1 =>
  rw [hsw] at h
  simp only [Option.bind_eq_bind, Option.some_bind] at h
  -- dissect the word write
  rw [Memory.set_word] at hsw
  by_cases hal : ensure_aligned a
  swap
  · rw [if_neg hal] at hsw; exact absurd hsw (by simp)
  rw [if_pos hal] at hsw
  rw [Memory.set, leBytes_length] at hsw
  cases hidx : m.addr_to_indices a WORD_BYTE_SIZE with
  | none => rw [hidx] at hsw; exact absurd hsw (by simp)
  | some se =>
  rw [hidx] at hsw
  simp only [Option.map_some'] at hsw
  have hm1 : m1 = { m with heap := writeBytes m.heap se.1 (leBytes WORD_BYTE_SIZE w.value) } :=
    (Option.some_inj.mp hsw).symm
  -- dissect the bound check to learn the allocation layout
  rw [Memory.addr_to_indices] at hidx
  cases hata : m.addr_to_allocation a with
  | none => rw [hata] at hidx; exact absurd hidx (by simp)
  | some ao =>
  rw [hata] at hidx
  simp only [Option.bind_eq_bind, Option.some_bind] at hidx
  by_cases hread : ao.1.data_length - ao.2 < WORD_BYTE_SIZE
  · rw [if_pos hread] at hidx; exact absurd hidx (by simp)
  rw [if_neg hread] at hidx
  push_neg at hread
  have hse : se = (ao.1.start + ao.2, ao.1.start + ao.2 + WORD_BYTE_SIZE) :=
    (Option.some_inj.mp hidx).symm
  -- the offset is inside the payload
  have hoff : ao.2 < ao.1.data_length := by
    rw [Memory.addr_to_allocation] at hata
    cases ht : m.virtual_mapper.translate a with
    | none => rw [ht] at hata; exact absurd hata (by simp)
    | some t =>
      rw [ht] at hata
      simp only [Option.bind_eq_bind, Option.some_bind] at hata
      cases hga : m.getAllocation t.1 with
      | none => rw [hga] at hata; exact absurd hata (by simp)
      | some al =>
        rw [hga] at hata
        simp only [Option.bind_eq_bind, Option.some_bind] at hata
        by_cases hd : al.data_length ≤ t.2
        · rw [if_pos hd] at hata; exact absurd hata (by simp)
        · rw [if_neg hd] at hata
          cases Option.some_inj.mp hata
          exact Nat.lt_of_not_le hd
  -- dissect the tag write
  rw [Memory.set_reference, Memory.addr_to_reference_indices] at h
  have hal8 : a % WORD_BYTE_SIZE = 0 := by
    simpa [ensure_aligned] using hal
  rw [if_neg (by simp [hal8])] at h
  have hata1 : Memory.addr_to_allocation m1 a = some ao := by
    rw [hm1, Memory.addr_to_allocation_heap]
    exact hata
  rw [hata1] at h
  simp only [Option.bind_eq_bind, Option.some_bind, Option.map_some'] at h
  -- basic layout facts
  have hbs : ao.1.bitfield_start = ao.1.start + ao.1.data_length := rfl
  have hse1 : se.1 = ao.1.start + ao.2 := by rw [hse]
  -- the final heap
  have hm2 : m2 = { m1 with heap := (fun i =>
      if i = ao.1.bitfield_start + ao.2 / WORD_BYTE_SIZE / 8 then
        setByteBit (m1.heap (ao.1.bitfield_start + ao.2 / WORD_BYTE_SIZE / 8))
          (ao.2 / WORD_BYTE_SIZE % 8) w.is_reference
      else m1.heap i) } := (Option.some_inj.mp h).symm
  have hm2heap : ∀ i, m2.heap i =
      if i = ao.1.bitfield_start + ao.2 / WORD_BYTE_SIZE / 8 then
        setByteBit (m1.heap (ao.1.bitfield_start + ao.2 / WORD_BYTE_SIZE / 8))
          (ao.2 / WORD_BYTE_SIZE % 8) w.is_reference
      else m1.heap i := by
    intro i
    rw [hm2]
  have hm1heap : ∀ i, m1.heap i =
      writeBytes m.heap se.1 (leBytes WORD_BYTE_SIZE w.value) i := by
    intro i
    rw [hm1]
  -- the written word lies strictly below the bitfield byte
  have hdisj : ∀ j, j < WORD_BYTE_SIZE →
      se.1 + j ≠ ao.1.bitfield_start + ao.2 / WORD_BYTE_SIZE / 8 := by
    intro j hj
    have h1 := hse1
    have h2 := hbs
    have h3 := hread
    simp only [WORD_BYTE_SIZE] at hj h3 ⊢
    omega
  -- read back: translation is unchanged
  have hidx2 : Memory.addr_to_indices m2 a WORD_BYTE_SIZE = some se := by
    rw [hm2, Memory.addr_to_indices_heap, hm1, Memory.addr_to_indices_heap]
    rw [Memory.addr_to_indices, hata]
    simp only [Option.bind_eq_bind, Option.some_bind]
    rw [if_neg (by omega), hse]
  -- read back: the word value
  have hword : Memory.get_word m2 a = some w.value := by
    rw [Memory.get_word, if_pos hal, Memory.get, hidx2]
    simp only [Option.map_some', Option.some_inj]
    have hbytes : (List.range WORD_BYTE_SIZE).map (fun j => m2.heap (se.1 + j) % 256) =
        leBytes WORD_BYTE_SIZE w.value := by
      rw [leBytes]
      apply List.map_congr_left
      intro j hj
      rw [List.mem_range] at hj
      show m2.heap (se.1 + j) % 256 = leByte w.value j
      rw [hm2heap, if_neg (hdisj j hj), hm1heap]
      rw [writeBytes, leBytes_length]
      rw [if_pos (by omega)]
      have hji : se.1 + j - se.1 = j := by omega
      rw [hji, leBytes_getD _ _ _ hj]
      exact Nat.mod_eq_of_lt (leByte_lt w.value j)
    rw [hbytes, fromLe_leBytes]
    have h64 : (256 : Nat) ^ WORD_BYTE_SIZE = U64_MOD := by
      rw [U64_MOD]; norm_num
    rw [h64]
    exact Nat.mod_eq_of_lt hw
  -- read back: the tag bit
  have href : Memory.is_reference m2 a = some w.is_reference := by
    rw [Memory.is_reference, Memory.addr_to_reference_indices]
    rw [if_neg (by simp [hal8])]
    have hata2 : Memory.addr_to_allocation m2 a = some ao := by
      rw [hm2, Memory.addr_to_allocation_heap]
      exact hata1
    rw [hata2]
    simp only [Option.bind_eq_bind, Option.some_bind, Option.map_some', Option.some_inj]
    show byteBit (m2.heap (ao.1.bitfield_start + ao.2 / WORD_BYTE_SIZE / 8))
        (ao.2 / WORD_BYTE_SIZE % 8) = w.is_reference
    rw [hm2heap, if_pos rfl]
    exact byteBit_setByteBit _ _ _ (Nat.mod_lt _ (by norm_num))
  rw [Memory.get_data_word, hword]
  simp only [Option.bind_eq_bind, Option.some_bind]
  rw [href]
  rfl

/-- `pop_stack`, unfolded: increment SP by one word (wrapping), read there. -/
theorem Interp.pop_stack_eq (s1 : Interp) (w : DataWord)
    (hget : s1.memory.get_data_word
      ((s1.cpu_state.stack_pointer + WORD_BYTE_SIZE) % U64_MOD) = some w) :
    s1.pop_stack = some (w, { s1 with cpu_state := { s1.cpu_state with
      stack_pointer := (s1.cpu_state.stack_pointer + WORD_BYTE_SIZE) % U64_MOD } }) := by
  rw [Interp.pop_stack]
  simp [hget]

/-- Claim C4: pushing a tagged word and then popping returns exactly that
word — value and reference tag — and restores the stack pointer: push
writes at SP and then decrements SP by one word, pop increments SP by one
word and reads back the same address. -/
theorem push_pop_roundtrip (s : Interp) (w : DataWord)
    (hw : w.value < U64_MOD) (hsp : s.cpu_state.stack_pointer < U64_MOD)
    (hpush : (s.push_stack w).isSome) :
    ((s.push_stack w).bind Interp.pop_stack).map
        (fun r => (r.1, r.2.cpu_state.stack_pointer)) =
      some (w, s.cpu_state.stack_pointer) := by
  cases hset : s.memory.set_data_word s.cpu_state.stack_pointer w with
  | none =>
    rw [Interp.push_stack, hset] at hpush
    simp at hpush
  | some m2 =>
    have hpush1 : s.push_stack w = some
        { cpu_state := { s.cpu_state with stack_pointer :=
            (s.cpu_state.stack_pointer + U64_MOD - WORD_BYTE_SIZE) % U64_MOD }
          memory := m2 } := by
      rw [Interp.push_stack, hset]
      rfl
    have hM : U64_MOD = 2 ^ 64 := rfl
    have hsp2 : ((s.cpu_state.stack_pointer + U64_MOD - WORD_BYTE_SIZE) % U64_MOD +
        WORD_BYTE_SIZE) % U64_MOD = s.cpu_state.stack_pointer := by
      rw [Nat.mod_add_mod]
      have he : s.cpu_state.stack_pointer + U64_MOD - WORD_BYTE_SIZE + WORD_BYTE_SIZE =
          s.cpu_state.stack_pointer + U64_MOD := by
        simp only [WORD_BYTE_SIZE] at *
        omega
      rw [he, Nat.add_mod_right]
      exact Nat.mod_eq_of_lt hsp
    have hget : m2.get_data_word
        (((s.cpu_state.stack_pointer + U64_MOD - WORD_BYTE_SIZE) % U64_MOD +
          WORD_BYTE_SIZE) % U64_MOD) = some w := by
      rw [hsp2]
      exact Memory.set_get_data_word hw hset
    have hpop := Interp.pop_stack_eq
      { cpu_state := { s.cpu_state with stack_pointer :=
          (s.cpu_state.stack_pointer + U64_MOD - WORD_BYTE_SIZE) % U64_MOD }
        memory := m2 } w hget
    rw [hpush1, Option.some_bind, hpop]
    simp only [Option.map_some']
    rw [hsp2]

set_option maxRecDepth 8192 in
/-- Witness for `push_pop_roundtrip`: a tagged word pushed at SP = 8 over a
concrete one-allocation memory comes back unchanged. -/
theorem push_pop_roundtrip_witness :
    ((Interp.push_stack stackInterp { value := 42, is_reference := true }).bind
        Interp.pop_stack).map (fun r => (r.1, r.2.cpu_state.stack_pointer)) =
      some ({ value := 42, is_reference := true }, 8) :=
  push_pop_roundtrip stackInterp { value := 42, is_reference := true }
    (by decide) (by decide) (by decide)

/-! ## Minimal-length little-endian encoding -/

theorem lt_pow_minimalByteLen (v : Nat) : v < 256 ^ minimalByteLen v := by
  rw [minimalByteLen]
  by_cases hv : v = 0
  · simp [hv]
  · rw [if_neg hv]
    exact Nat.lt_pow_succ_log_self (by norm_num) v

theorem minimalByteLen_le {v n : Nat} (h : v < 256 ^ n) : minimalByteLen v ≤ n := by
  rw [minimalByteLen]
  by_cases hv : v = 0
  · simp [hv]
  · rw [if_neg hv]
    exact Nat.log_lt_of_lt_pow hv h

theorem leByte_eq_zero {v j : Nat} (h : v < 256 ^ j) : leByte v j = 0 := by
  rw [leByte, Nat.div_eq_of_lt h]

theorem leBytes_split (n v : Nat) (h : minimalByteLen v ≤ n) :
    leBytes n v = leBytes (minimalByteLen v) v ++
      List.replicate (n - minimalByteLen v) 0 := by
  rw [leBytes, leBytes]
  have hn : n = minimalByteLen v + (n - minimalByteLen v) := by omega
  rw [hn, List.range_add, List.map_append, List.map_map]
  congr 1
  have hz : ∀ i, leByte v (minimalByteLen v + i) = 0 := by
    intro i
    apply leByte_eq_zero
    calc v < 256 ^ minimalByteLen v := lt_pow_minimalByteLen v
    _ ≤ 256 ^ (minimalByteLen v + i) :=
      Nat.pow_le_pow_right (by norm_num) (by omega)
  rw [List.eq_replicate_iff]
  refine ⟨by simp, ?_⟩
  intro b hb
  simp only [List.mem_map, List.mem_range, Function.comp] at hb
  obtain ⟨i, _, hbi⟩ := hb
  rw [← hbi]
  exact hz i

theorem dropWhile_zeros_replicate (k : Nat) (l : List Nat) :
    (List.replicate k 0 ++ l).dropWhile (fun b => b == 0) =
      l.dropWhile (fun b => b == 0) := by
  induction k with
  | zero => simp
  | succ k ih => simp only [List.replicate_succ, List.cons_append, List.dropWhile_cons]; simp only [beq_self_eq_true, if_true, ite_true, decide_True]; exact ih

theorem strip_append_zeros (A : List Nat) (k : Nat) (hA : A.getLast? ≠ some 0) :
    stripTrailingZeros (A ++ List.replicate k 0) = A := by
  rw [stripTrailingZeros, List.reverse_append, List.reverse_replicate,
    dropWhile_zeros_replicate]
  cases hAe : A.reverse with
  | nil => simp_all
  | cons x xs =>
    have hx : x ≠ 0 := by
      have hhead : A.reverse.head? = some x := by rw [hAe]; rfl
      rw [List.head?_reverse] at hhead
      intro h0
      rw [h0] at hhead
      exact hA hhead
    rw [List.dropWhile_cons, if_neg (by simpa using hx), ← hAe, List.reverse_reverse]

theorem leBytes_minimal_getLast (v : Nat) :
    (leBytes (minimalByteLen v) v).getLast? ≠ some 0 := by
  by_cases hv : v = 0
  · simp [hv, minimalByteLen, leBytes]
  · have hmin : minimalByteLen v = Nat.log 256 v + 1 := by
      rw [minimalByteLen, if_neg hv]
    rw [hmin, leBytes, List.range_succ, List.map_append]
    simp only [List.map_cons, List.map_nil]
    rw [List.getLast?_concat]
    have hge : 1 ≤ v / 256 ^ Nat.log 256 v :=
      (Nat.one_le_div_iff (Nat.pos_pow_of_pos _ (by norm_num))).mpr
        (Nat.pow_log_le_self 256 hv)
    have hlt : v / 256 ^ Nat.log 256 v < 256 := by
      rw [Nat.div_lt_iff_lt_mul (Nat.pos_pow_of_pos _ (by norm_num))]
      calc v < 256 ^ (Nat.log 256 v + 1) := Nat.lt_pow_succ_log_self (by norm_num) v
      _ = 256 ^ Nat.log 256 v * 256 := by rw [Nat.pow_succ]
      _ = 256 * 256 ^ Nat.log 256 v := by ring
    intro hcon
    rw [Option.some_inj, leByte, Nat.mod_eq_of_lt hlt] at hcon
    omega

theorem strip_leBytes {n v : Nat} (h : v < 256 ^ n) :
    stripTrailingZeros (leBytes n v) = leBytes (minimalByteLen v) v := by
  rw [leBytes_split n v (minimalByteLen_le h)]
  exact strip_append_zeros _ _ (leBytes_minimal_getLast v)

theorem strip_leBytes_length {n v : Nat} (h : v < 256 ^ n) :
    (stripTrailingZeros (leBytes n v)).length = minimalByteLen v := by
  rw [strip_leBytes h, leBytes_length]

theorem fromLe_append_zeros (l : List Nat) (k : Nat) :
    fromLeBytes (l ++ List.replicate k 0) = fromLeBytes l := by
  have hz : fromLeBytes (List.replicate k 0) = 0 := by
    induction k with
    | zero => rfl
    | succ k ih => simpa [fromLeBytes, List.replicate_succ] using ih
  induction l with
  | nil => simpa using hz
  | cons x xs ih => simp [fromLeBytes, List.foldr_cons] at ih ⊢; rw [ih]

theorem iOfU_small {u : Nat} (h : u < 2 ^ 63) : iOfU u = (u : Int) := by
  have hu : u % U64_MOD = u := by
    apply Nat.mod_eq_of_lt
    rw [U64_MOD]
    calc u < 2 ^ 63 := h
    _ < 2 ^ 64 := by norm_num
  rw [iOfU, hu, if_pos h]
  exact_mod_cast hu

/-- Extracting the four bit fields of an encoded operand descriptor byte
recovers the encoded components (checked over all 256 combinations). -/
theorem firstByteFields : ∀ (m r : Fin 4) (s2 : Fin 2) (l : Fin 8),
    (((((m.1 <<< ADDRESSING_MODE_SHIFT) &&& ADDRESSING_MODE_MASK) |||
      ((r.1 <<< REGISTER_NUM_SHIFT) &&& REGISTER_NUM_MASK) ||| 8 * s2.1 |||
      ((l.1 <<< VALUE_SIZE_SHIFT) &&& VALUE_SIZE_MASK)) % 256 &&&
        ADDRESSING_MODE_MASK) >>> ADDRESSING_MODE_SHIFT = m.1) ∧
    (((((m.1 <<< ADDRESSING_MODE_SHIFT) &&& ADDRESSING_MODE_MASK) |||
      ((r.1 <<< REGISTER_NUM_SHIFT) &&& REGISTER_NUM_MASK) ||| 8 * s2.1 |||
      ((l.1 <<< VALUE_SIZE_SHIFT) &&& VALUE_SIZE_MASK)) % 256 &&&
        REGISTER_NUM_MASK) >>> REGISTER_NUM_SHIFT = r.1) ∧
    (((((m.1 <<< ADDRESSING_MODE_SHIFT) &&& ADDRESSING_MODE_MASK) |||
      ((r.1 <<< REGISTER_NUM_SHIFT) &&& REGISTER_NUM_MASK) ||| 8 * s2.1 |||
      ((l.1 <<< VALUE_SIZE_SHIFT) &&& VALUE_SIZE_MASK)) % 256 &&&
        SIGN_MASK) >>> SIGN_SHIFT = s2.1) ∧
    (((((m.1 <<< ADDRESSING_MODE_SHIFT) &&& ADDRESSING_MODE_MASK) |||
      ((r.1 <<< REGISTER_NUM_SHIFT) &&& REGISTER_NUM_MASK) ||| 8 * s2.1 |||
      ((l.1 <<< VALUE_SIZE_SHIFT) &&& VALUE_SIZE_MASK)) % 256 &&&
        VALUE_SIZE_MASK) >>> VALUE_SIZE_SHIFT = l.1) := by decide

/-- Decoding the byte stream produced for components
`(mode, register, sign, value)` (value bytes stripped of trailing zeroes)
reconstructs the operand the mode dictates and leaves the tail
unconsumed. -/
theorem decode_encoded (m r : Fin 4) (s2 : Fin 2) (v : Nat) (tail : List Nat)
    (hv : v < 256 ^ 7) :
    Operand.decode (((((m.1 <<< ADDRESSING_MODE_SHIFT) &&& ADDRESSING_MODE_MASK) |||
        ((r.1 <<< REGISTER_NUM_SHIFT) &&& REGISTER_NUM_MASK) ||| 8 * s2.1 |||
        (((stripTrailingZeros (leBytes 8 v)).length <<< VALUE_SIZE_SHIFT) &&&
          VALUE_SIZE_MASK))) :: (stripTrailingZeros (leBytes 8 v) ++ tail)) =
      some ((match m.1 with
        | 0 => Operand.Immediate ((v : Int) * (if s2.1 = 0 then 1 else -1))
        | 1 => Operand.Register r.1
        | 2 => Operand.Reference r.1 ((v : Int) * (if s2.1 = 0 then 1 else -1))
        | _ => Operand.Stack v), tail) := by
  have hv8 : v < 256 ^ 8 := by
    calc v < 256 ^ 7 := hv
    _ ≤ 256 ^ 8 := Nat.pow_le_pow_right (by norm_num) (by omega)
  have hlen : (stripTrailingZeros (leBytes 8 v)).length = minimalByteLen v :=
    strip_leBytes_length hv8
  have hmin : minimalByteLen v ≤ 7 := minimalByteLen_le hv
  have hfin : (stripTrailingZeros (leBytes 8 v)).length < 8 := by omega
  obtain ⟨hf1, hf2, hf3, hf4⟩ :=
    firstByteFields m r s2 ⟨(stripTrailingZeros (leBytes 8 v)).length, hfin⟩
  rw [Operand.decode]
  simp only [List.head?_cons, Option.bind_eq_bind, Option.some_bind, List.tail_cons]
  rw [hf1, hf2, hf3, hf4]
  rw [if_neg (by simp)]
  rw [List.take_left, List.drop_left]
  have huv : fromLeBytes (stripTrailingZeros (leBytes 8 v) ++
      List.replicate (8 - (stripTrailingZeros (leBytes 8 v)).length) 0) = v := by
    rw [fromLe_append_zeros, strip_leBytes hv8, fromLe_leBytes]
    exact Nat.mod_eq_of_lt (lt_pow_minimalByteLen v)
  rw [huv]
  have hiu : iOfU v = (v : Int) := by
    apply iOfU_small
    calc v < 256 ^ 7 := hv
    _ < 2 ^ 63 := by norm_num
  rw [hiu]
  fin_cases m <;> rfl

/-- `decode_encoded` with the sign given as the encoder's boolean. -/
theorem decode_encodedB (m r : Fin 4) (pos : Bool) (v : Nat) (tail : List Nat)
    (hv : v < 256 ^ 7) :
    Operand.decode ((((m.1 <<< ADDRESSING_MODE_SHIFT) &&& ADDRESSING_MODE_MASK) |||
        ((r.1 <<< REGISTER_NUM_SHIFT) &&& REGISTER_NUM_MASK) |||
        (if pos then 0 else SIGN_MASK) |||
        (((stripTrailingZeros (leBytes 8 v)).length <<< VALUE_SIZE_SHIFT) &&&
          VALUE_SIZE_MASK)) :: (stripTrailingZeros (leBytes 8 v) ++ tail)) =
      some ((match m.1 with
        | 0 => Operand.Immediate ((v : Int) * (if pos then 1 else -1))
        | 1 => Operand.Register r.1
        | 2 => Operand.Reference r.1 ((v : Int) * (if pos then 1 else -1))
        | _ => Operand.Stack v), tail) := by
  cases pos with
  | false =>
    have h := decode_encoded m r 1 v tail hv
    simpa using h
  | true =>
    have h := decode_encoded m r 0 v tail hv
    simpa using h

/-- `decode_encodedB` with the mode and register as plain naturals. -/
theorem decode_encodedN (m r : Nat) (hm : m < 4) (hr : r < 4) (pos : Bool)
    (v : Nat) (tail : List Nat) (hv : v < 256 ^ 7) :
    Operand.decode ((((m <<< ADDRESSING_MODE_SHIFT) &&& ADDRESSING_MODE_MASK) |||
        ((r <<< REGISTER_NUM_SHIFT) &&& REGISTER_NUM_MASK) |||
        (if pos then 0 else SIGN_MASK) |||
        (((stripTrailingZeros (leBytes 8 v)).length <<< VALUE_SIZE_SHIFT) &&&
          VALUE_SIZE_MASK)) :: (stripTrailingZeros (leBytes 8 v) ++ tail)) =
      some ((match m with
        | 0 => Operand.Immediate ((v : Int) * (if pos then 1 else -1))
        | 1 => Operand.Register r
        | 2 => Operand.Reference r ((v : Int) * (if pos then 1 else -1))
        | _ => Operand.Stack v), tail) :=
  decode_encodedB ⟨m, hm⟩ ⟨r, hr⟩ pos v tail hv

/-- The bytes `encode_operand` emits for a label-free operand whose value
fits in 7 bytes. -/
theorem encode_operand_nonlabel (op : AsmOperand)
    (hnl : (get_operand_data op).label = none)
    (h7 : ¬ 7 < (stripTrailingZeros
      (leBytes 8 (get_operand_data op).value_absolute)).length) :
    encode_operand op = some (
      ((((get_operand_data op).addressing_mode <<< ADDRESSING_MODE_SHIFT) &&&
          ADDRESSING_MODE_MASK) |||
        (((get_operand_data op).register_number <<< REGISTER_NUM_SHIFT) &&&
          REGISTER_NUM_MASK) |||
        (if (get_operand_data op).value_is_positive then 0 else SIGN_MASK) |||
        (((stripTrailingZeros
            (leBytes 8 (get_operand_data op).value_absolute)).length <<<
          VALUE_SIZE_SHIFT) &&& VALUE_SIZE_MASK)) ::
      stripTrailingZeros (leBytes 8 (get_operand_data op).value_absolute)) := by
  simp only [encode_operand, hnl, Option.isSome_none, Bool.false_eq_true, if_false]
  rw [if_neg h7]

/-- Claim C3: for every label-free operand whose absolute value fits in at
most 7 little-endian bytes (and whose register index is in range), decoding
the encoder's output reconstructs the same operand — addressing mode,
register index, sign and value — with the tail of the stream untouched, and
the emitted value field has exactly the minimal byte length (trailing zero
bytes stripped); a label operand's value field is always exactly 7 bytes. -/
theorem encode_decode_operand_spec :
    (∀ (op : AsmOperand) (tail : List Nat),
      (get_operand_data op).label = none →
      (get_operand_data op).value_absolute < 256 ^ 7 →
      (get_operand_data op).register_number < 4 →
      ∃ fb vb, encode_operand op = some (fb :: vb) ∧
        Operand.decode ((fb :: vb) ++ tail) = some (toCoreOperand op, tail) ∧
        vb.length = minimalByteLen (get_operand_data op).value_absolute) ∧
    (∀ lname, ∃ fb vb,
      encode_operand (AsmOperand.Label lname) = some (fb :: vb) ∧ vb.length = 7) := by
  constructor
  · intro op tail hnl hfit hreg
    have hv8 : (get_operand_data op).value_absolute < 256 ^ 8 := by
      calc (get_operand_data op).value_absolute < 256 ^ 7 := hfit
      _ ≤ 256 ^ 8 := Nat.pow_le_pow_right (by norm_num) (by omega)
    have h7 : ¬ 7 < (stripTrailingZeros
        (leBytes 8 (get_operand_data op).value_absolute)).length := by
      rw [strip_leBytes_length hv8]
      have := minimalByteLen_le hfit
      omega
    refine ⟨_, _, encode_operand_nonlabel op hnl h7, ?_,
      strip_leBytes_length hv8⟩
    rw [List.cons_append]
    cases op with
    | Label l => simp [get_operand_data] at hnl
    | Immediate x =>
      simp only [get_operand_data] at hfit ⊢
      rw [decode_encodedN 0 0 (by norm_num) (by norm_num) (decide (0 ≤ x))
        x.natAbs tail hfit]
      have hx : ((x.natAbs : Int) * (if decide (0 ≤ x) then 1 else -1)) = x := by
        by_cases hp : 0 ≤ x
        · rw [if_pos (by simpa using hp)]
          omega
        · rw [if_neg (by simpa using hp)]
          omega
      show some (Operand.Immediate ((x.natAbs : Int) *
        (if decide (0 ≤ x) then 1 else -1)), tail) = _
      rw [hx]
      rfl
    | Register r =>
      simp only [get_operand_data] at hfit hreg ⊢
      have hd := decode_encodedN 1 r (by norm_num) hreg true 0 tail hfit
      simp only [eq_self_iff_true, if_true] at hd ⊢
      rw [hd]
      rfl
    | Reference r off =>
      simp only [get_operand_data] at hfit hreg ⊢
      rw [decode_encodedN 2 r (by norm_num) hreg (decide (0 ≤ off))
        off.natAbs tail hfit]
      have hx : ((off.natAbs : Int) * (if decide (0 ≤ off) then 1 else -1)) = off := by
        by_cases hp : 0 ≤ off
        · rw [if_pos (by simpa using hp)]
          omega
        · rw [if_neg (by simpa using hp)]
          omega
      show some (Operand.Reference r ((off.natAbs : Int) *
        (if decide (0 ≤ off) then 1 else -1)), tail) = _
      rw [hx]
      rfl
    | Stack o =>
      simp only [get_operand_data] at hfit hreg ⊢
      have hd := decode_encodedN 3 0 (by norm_num) (by norm_num) true o tail hfit
      simp only [eq_self_iff_true, if_true] at hd ⊢
      rw [hd]
      rfl
  · intro lname
    refine ⟨7, List.replicate 7 0, ?_, by decide⟩
    simp only [encode_operand, get_operand_data, Option.isSome_some,
      eq_self_iff_true, if_true]
    rw [if_neg (by decide)]
    decide

/-- Witness for `encode_decode_operand_spec`: encoding `Immediate 300`
yields a 2-byte value field that decodes back to `Immediate 300`. -/
theorem encode_decode_operand_spec_witness :
    ∃ fb vb, encode_operand (AsmOperand.Immediate 300) = some (fb :: vb) ∧
      Operand.decode ((fb :: vb) ++ []) =
        some (toCoreOperand (AsmOperand.Immediate 300), []) ∧
      vb.length = minimalByteLen
        (get_operand_data (AsmOperand.Immediate 300)).value_absolute :=
  encode_decode_operand_spec.1 (AsmOperand.Immediate 300) []
    (by decide) (by decide) (by decide)

/-! ## Virtual mapper page-table lemmas (claim C9) -/

theorem insertMappings_not_mem (bid : Nat) (pages : List (Nat × Nat))
    (mm : Nat → Option VirtualAddressMapping) (k : Nat)
    (hk : k ∉ pages.map Prod.snd) :
    insertMappings bid pages mm k = mm k := by
  induction pages generalizing mm with
  | nil => rfl
  | cons pa rest ih =>
    simp only [List.map_cons, List.mem_cons, not_or] at hk
    rw [insertMappings, List.foldl_cons]
    rw [show (List.foldl _ _ rest : Nat → Option VirtualAddressMapping) =
      insertMappings bid rest (fun k2 =>
        if k2 = pa.2 then some { block := bid, offset := pa.1 * VIRTUAL_PAGE_SIZE }
        else mm k2) from rfl]
    rw [ih _ hk.2]
    exact if_neg hk.1

theorem insertMappings_mem (bid : Nat) (pages : List (Nat × Nat))
    (mm : Nat → Option VirtualAddressMapping) (p k : Nat)
    (hmem : (p, k) ∈ pages) (hnd : (pages.map Prod.snd).Nodup) :
    insertMappings bid pages mm k =
      some { block := bid, offset := p * VIRTUAL_PAGE_SIZE } := by
  induction pages generalizing mm with
  | nil => cases hmem
  | cons pa rest ih =>
    simp only [List.map_cons, List.nodup_cons] at hnd
    rw [insertMappings, List.foldl_cons]
    rw [show (List.foldl _ _ rest : Nat → Option VirtualAddressMapping) =
      insertMappings bid rest (fun k2 =>
        if k2 = pa.2 then some { block := bid, offset := pa.1 * VIRTUAL_PAGE_SIZE }
        else mm k2) from rfl]
    rcases List.mem_cons.mp hmem with heq | hrest
    · rw [insertMappings_not_mem _ _ _ _ (by rw [← heq] at hnd; exact hnd.1)]
      rw [← heq]
      simp
    · exact ih _ hrest hnd.2

theorem pages_of_snd (base size : Nat) :
    (VirtualAddressMapper.pages_of base size).map Prod.snd =
      (List.range (size / VIRTUAL_PAGE_SIZE + 1)).map
        (fun p => base + p * VIRTUAL_PAGE_SIZE) := by
  simp [VirtualAddressMapper.pages_of, List.map_map, Function.comp]

theorem pages_of_snd_nodup (base size : Nat) :
    ((VirtualAddressMapper.pages_of base size).map Prod.snd).Nodup := by
  rw [pages_of_snd]
  refine List.Nodup.map ?_ (List.nodup_range _)
  intro p q h
  simp only [VIRTUAL_PAGE_SIZE] at h
  omega

theorem pages_of_mem (base size p : Nat) (h : p ≤ size / VIRTUAL_PAGE_SIZE) :
    (p, base + p * VIRTUAL_PAGE_SIZE) ∈ VirtualAddressMapper.pages_of base size := by
  simp only [VirtualAddressMapper.pages_of, List.mem_map, List.mem_range]
  exact ⟨p, by omega, rfl⟩

theorem pages_of_length (base size : Nat) :
    (VirtualAddressMapper.pages_of base size).length = size / VIRTUAL_PAGE_SIZE + 1 := by
  simp [VirtualAddressMapper.pages_of]

/-- Counterexample to claim C9 as stated: mapping a block of size 1 inserts
only `⌊1/page⌋ + 1 = 1` page key (the base page), not
`⌈1/page⌉ + 1 = 2`: the second page `base + page_size` stays unmapped. -/
theorem map_page_count_claim_false :
    divide_round_up 1 VIRTUAL_PAGE_SIZE + 1 = 2 ∧
    ∃ m2, VirtualAddressMapper.map VirtualAddressMapper.new 1 1 none =
        some (0, 1, m2) ∧
      m2.mappings 0 = some { block := 1, offset := 0 } ∧
      m2.mappings VIRTUAL_PAGE_SIZE = none := by
  refine ⟨by decide, ?_⟩
  refine ⟨_, rfl, rfl, rfl⟩

/-- Claim C9, amended: every mapping key created by a successful
`VirtualAddressMapper::map` (from a page-aligned `next_address`) is
page-aligned, and the keys cover exactly `⌊size/page⌋ + 1` contiguous pages
starting at the block's base — one more page than the size strictly needs,
but one less than the claimed `⌈size/page⌉ + 1` whenever the size is not a
multiple of the page size. -/
theorem map_pages_spec (vm : VirtualAddressMapper) (size allocation : Nat)
    (pref : Option Nat) (base bid : Nat) (m2 : VirtualAddressMapper)
    (halign : vm.next_address % VIRTUAL_PAGE_SIZE = 0)
    (h : vm.map size allocation pref = some (base, bid, m2)) :
    base % VIRTUAL_PAGE_SIZE = 0 ∧
    (∀ p, p ≤ size / VIRTUAL_PAGE_SIZE →
      m2.mappings (base + p * VIRTUAL_PAGE_SIZE) =
        some { block := bid, offset := p * VIRTUAL_PAGE_SIZE } ∧
      (base + p * VIRTUAL_PAGE_SIZE) % VIRTUAL_PAGE_SIZE = 0) ∧
    (∀ k, m2.mappings k ≠ vm.mappings k →
      ∃ p, p ≤ size / VIRTUAL_PAGE_SIZE ∧ k = base + p * VIRTUAL_PAGE_SIZE) ∧
    (VirtualAddressMapper.pages_of base size).length = size / VIRTUAL_PAGE_SIZE + 1 := by
  -- reduce both branches of the preferred-base step to a common shape
  have hsh : ∃ vm1 : VirtualAddressMapper,
      vm1.next_address % VIRTUAL_PAGE_SIZE = 0 ∧
      vm1.mappings = vm.mappings ∧
      base = vm1.next_address ∧ bid = vm1.next_block_id ∧
      m2.mappings = insertMappings vm1.next_block_id
        (VirtualAddressMapper.pages_of vm1.next_address size) vm1.mappings := by
    cases pref with
    | none =>
      rw [VirtualAddressMapper.map] at h
      simp only [Option.bind_eq_bind, Option.some_bind, Option.some_inj,
        Prod.mk.injEq] at h
      obtain ⟨h1, h2, h3⟩ := h
      refine ⟨vm, halign, rfl, h1.symm, h2.symm, ?_⟩
      rw [← h3]
    | some b =>
      rw [VirtualAddressMapper.map] at h
      by_cases hb : b % VIRTUAL_PAGE_SIZE ≠ 0
      · rw [if_pos hb] at h
        simp at h
      rw [if_neg hb] at h
      push_neg at hb
      by_cases hlt : b < vm.next_address
      · rw [if_pos hlt] at h
        simp at h
      rw [if_neg hlt] at h
      simp only [Option.bind_eq_bind, Option.some_bind, Option.some_inj,
        Prod.mk.injEq] at h
      obtain ⟨h1, h2, h3⟩ := h
      refine ⟨{ vm with next_address := b }, hb, rfl, h1.symm, h2.symm, ?_⟩
      rw [← h3]
  obtain ⟨vm1, h1align, h1mm, hbase, hbid, hm2⟩ := hsh
  refine ⟨by rw [hbase]; exact h1align, ?_, ?_, pages_of_length base size⟩
  · intro p hp
    constructor
    · rw [hm2, hbase, hbid]
      exact insertMappings_mem _ _ _ p _ (pages_of_mem _ size p hp)
        (pages_of_snd_nodup _ size)
    · rw [hbase]
      simp only [VIRTUAL_PAGE_SIZE] at h1align ⊢
      omega
  · intro k hk
    rw [hm2, ← h1mm] at hk
    by_cases hmem : k ∈ (VirtualAddressMapper.pages_of vm1.next_address size).map Prod.snd
    · rw [pages_of_snd] at hmem
      simp only [List.mem_map, List.mem_range] at hmem
      obtain ⟨p, hp, hpk⟩ := hmem
      exact ⟨p, by omega, by rw [hbase, hpk]⟩
    · exact absurd (insertMappings_not_mem _ _ _ _ hmem) hk

/-- Witness for `map_pages_spec`: mapping 2048 bytes from a fresh mapper
creates the page keys 0, 1024 and 2048. -/
theorem map_pages_spec_witness :
    ∃ base bid m2, VirtualAddressMapper.map VirtualAddressMapper.new 2048 1 none =
        some (base, bid, m2) ∧ base % VIRTUAL_PAGE_SIZE = 0 ∧
      m2.mappings (base + 2 * VIRTUAL_PAGE_SIZE) =
        some { block := bid, offset := 2 * VIRTUAL_PAGE_SIZE } := by
  have hs : (VirtualAddressMapper.map VirtualAddressMapper.new 2048 1 none).isSome =
      true := rfl
  cases hmap : VirtualAddressMapper.map VirtualAddressMapper.new 2048 1 none with
  | none => rw [hmap] at hs; cases hs
  | some res =>
    obtain ⟨base, bid, m2⟩ := res
    have hspec := map_pages_spec VirtualAddressMapper.new 2048 1 none base bid m2
      rfl hmap
    exact ⟨base, bid, m2, rfl, hspec.1, (hspec.2.1 2 (by decide)).1⟩

/-! ## Region-list helper lemmas -/

theorem usedIds_cons (r : HeapRegion) (l : List HeapRegion) :
    usedIds (r :: l) = match r.state with
      | .Free => usedIds l
      | .Used a => a :: usedIds l := rfl

theorem usedIds_cons_free {r : HeapRegion} (l : List HeapRegion)
    (h : r.is_free = true) : usedIds (r :: l) = usedIds l := by
  rw [usedIds_cons]
  cases hs : r.state with
  | Free => rfl
  | Used a => rw [HeapRegion.is_free, hs, HeapRegionState.is_free] at h; cases h

theorem usedIds_cons_used {r : HeapRegion} {a : Nat} (l : List HeapRegion)
    (h : r.state = .Used a) : usedIds (r :: l) = a :: usedIds l := by
  rw [usedIds_cons, h]

theorem is_free_iff {r : HeapRegion} : r.is_free = true ↔ r.state = .Free := by
  cases hs : r.state <;> simp [HeapRegion.is_free, hs, HeapRegionState.is_free]

theorem not_is_free_iff {r : HeapRegion} :
    r.is_free = false ↔ ∃ a, r.state = .Used a := by
  cases hs : r.state <;> simp [HeapRegion.is_free, hs, HeapRegionState.is_free]

theorem noAdj_cons (r : HeapRegion) (l : List HeapRegion) :
    noAdjacentFreeB (r :: l) = true ↔
      ((∀ r2, l.head? = some r2 → r.is_free = true → r2.is_free = false) ∧
        noAdjacentFreeB l = true) := by
  cases l with
  | nil => simp [noAdjacentFreeB]
  | cons r2 rest =>
    rw [noAdjacentFreeB]
    simp only [List.head?_cons, Option.some_inj, Bool.and_eq_true, Bool.not_eq_true',
      Bool.and_eq_false_iff]
    constructor
    · rintro ⟨h1, h2⟩
      refine ⟨?_, h2⟩
      rintro x rfl hfree
      rcases h1 with h1 | h1
      · rw [h1] at hfree; cases hfree
      · exact h1
    · rintro ⟨h1, h2⟩
      refine ⟨?_, h2⟩
      by_cases hf : r.is_free = true
      · right; exact h1 r2 rfl hf
      · left; simpa using hf

theorem coversExactly_cons (r : HeapRegion) (l : List HeapRegion)
    (pos heap_len : Nat) :
    coversExactly pos heap_len (r :: l) = true ↔
      (r.base = pos ∧ coversExactly (r.base + r.length) heap_len l = true) := by
  rw [coversExactly]
  simp

/-- `HeapRegions::allocate`'s scan preserves the partition facts; the new
`Used` region carries `a` and the optional remainder carries the fresh
`new_id`. -/
theorem allocateGo_wf (total a new_id : Nat) (htot : 0 < total) :
    ∀ (rs : List HeapRegion) (pos heap_len : Nat) (out : List HeapRegion × Nat × Nat),
    HeapRegions.allocateGo total a new_id rs = some out →
    coversExactly pos heap_len rs = true →
    (∀ r ∈ rs, 0 < r.length) →
    noAdjacentFreeB rs = true →
    coversExactly pos heap_len out.1 = true ∧
    (∀ r ∈ out.1, 0 < r.length) ∧
    noAdjacentFreeB out.1 = true ∧
    (usedIds out.1).Perm (a :: usedIds rs) ∧
    (out.1.map HeapRegion.id = rs.map HeapRegion.id ∨
      (out.1.map HeapRegion.id).Perm (new_id :: rs.map HeapRegion.id)) ∧
    (∀ r2, out.1.head? = some r2 → r2.is_free = true →
      ∃ r1, rs.head? = some r1 ∧ r1.is_free = true) := by
  intro rs
  induction rs with
  | nil => intro pos heap_len out h; rw [HeapRegions.allocateGo] at h; cases h
  | cons r rest ih =>
    intro pos heap_len out h hcov hpos hnoadj
    rw [HeapRegions.allocateGo] at h
    obtain ⟨hbase, hcov2⟩ := (coversExactly_cons _ _ _ _).mp hcov
    obtain ⟨hnoadj1, hnoadj2⟩ := (noAdj_cons _ _).mp hnoadj
    by_cases hg : (r.is_free && decide (total ≤ r.length)) = true
    · rw [if_pos hg] at h
      simp only [Bool.and_eq_true, decide_eq_true_eq] at hg
      obtain ⟨hfree, hle⟩ := hg
      by_cases hsplit : total < r.length
      · rw [if_pos hsplit] at h
        cases Option.some_inj.mp h
        refine ⟨?_, ?_, ?_, ?_, ?_, ?_⟩
        · refine (coversExactly_cons _ _ _ _).mpr ⟨hbase, ?_⟩
          refine (coversExactly_cons _ _ _ _).mpr ⟨rfl, ?_⟩
          rw [show r.base + total + (r.length - total) = r.base + r.length from
            by omega]
          exact hcov2
        · intro x hx
          simp only [List.mem_cons] at hx
          rcases hx with hx | hx | hx
          · rw [hx]; exact htot
          · rw [hx]; show 0 < r.length - total; omega
          · exact hpos x (List.mem_cons_of_mem _ hx)
        · refine (noAdj_cons _ _).mpr ⟨?_, ?_⟩
          · intro r2 hr2 hfreeU
            cases hfreeU
          · refine (noAdj_cons _ _).mpr ⟨?_, hnoadj2⟩
            intro r2 hr2 _
            exact hnoadj1 r2 hr2 hfree
        · rw [usedIds_cons_used (l := _) (a := a) (by rfl)]
          rw [usedIds_cons_free (l := _) (by rfl)]
          rw [usedIds_cons_free (l := _) hfree]
        · right
          simp only [List.map_cons]
          show (r.id :: new_id :: rest.map HeapRegion.id).Perm
            (new_id :: r.id :: rest.map HeapRegion.id)
          exact List.Perm.swap _ _ _
        · intro r2 hr2 hfree2
          cases Option.some_inj.mp hr2
          cases hfree2
      · rw [if_neg hsplit] at h
        cases Option.some_inj.mp h
        have hlen : r.length = total := by omega
        refine ⟨?_, ?_, ?_, ?_, ?_, ?_⟩
        · refine (coversExactly_cons _ _ _ _).mpr ⟨hbase, ?_⟩
          show coversExactly (r.base + total) heap_len rest = true
          rw [← hlen]
          exact hcov2
        · intro x hx
          simp only [List.mem_cons] at hx
          rcases hx with hx | hx
          · rw [hx]; exact htot
          · exact hpos x (List.mem_cons_of_mem _ hx)
        · refine (noAdj_cons _ _).mpr ⟨?_, hnoadj2⟩
          intro r2 hr2 hfreeU
          cases hfreeU
        · rw [usedIds_cons_used (l := _) (a := a) (by rfl)]
          rw [usedIds_cons_free (l := _) hfree]
        · left
          simp
        · intro r2 hr2 hfree2
          cases Option.some_inj.mp hr2
          cases hfree2
    · rw [if_neg hg] at h
      cases hrec : HeapRegions.allocateGo total a new_id rest with
      | none => rw [hrec] at h; cases h
      | some out1 =>
        rw [hrec] at h
        simp only [Option.map_some', Option.some_inj] at h
        obtain ⟨hc1, hp1, hn1, hu1, hi1, hh1⟩ :=
          ih (r.base + r.length) heap_len out1 hrec hcov2
            (fun x hx => hpos x (List.mem_cons_of_mem _ hx)) hnoadj2
        subst h
        refine ⟨?_, ?_, ?_, ?_, ?_, ?_⟩
        · exact (coversExactly_cons _ _ _ _).mpr ⟨hbase, hc1⟩
        · intro x hx
          simp only [List.mem_cons] at hx
          rcases hx with hx | hx
          · rw [hx]; exact hpos r (List.mem_cons_self _ _)
          · exact hp1 x hx
        · refine (noAdj_cons _ _).mpr ⟨?_, hn1⟩
          intro r2 hr2 hfreeR
          by_contra hc
          simp only [Bool.not_eq_false] at hc
          obtain ⟨r1, hr1, hfr1⟩ := hh1 r2 hr2 hc
          have : r1.is_free = false := hnoadj1 r1 hr1 hfreeR
          rw [hfr1] at this
          cases this
        · cases hs : r.state with
          | Free =>
            rw [usedIds_cons_free (l := _) (is_free_iff.mpr hs),
              usedIds_cons_free (l := _) (is_free_iff.mpr hs)]
            exact hu1
          | Used aid =>
            rw [usedIds_cons_used (l := _) hs, usedIds_cons_used (l := _) hs]
            exact (List.Perm.cons _ hu1).trans (List.Perm.swap _ _ _)
        · rcases hi1 with hi1 | hi1
          · left; simp [hi1]
          · right
            simp only [List.map_cons]
            exact (List.Perm.cons _ hi1).trans (List.Perm.swap _ _ _)
        · intro r2 hr2 hfree2
          cases Option.some_inj.mp hr2
          exact ⟨r, rfl, hfree2⟩

theorem usedIds_sublist_cons (r : HeapRegion) (l : List HeapRegion) :
    List.Sublist (usedIds l) (usedIds (r :: l)) := by
  rw [usedIds_cons]
  cases r.state with
  | Free => exact List.Sublist.refl _
  | Used a => exact List.sublist_cons_self _ _

theorem usedIds_cons_sublist (r : HeapRegion) {l1 l2 : List HeapRegion}
    (h : List.Sublist (usedIds l1) (usedIds l2)) :
    List.Sublist (usedIds (r :: l1)) (usedIds (r :: l2)) := by
  rw [usedIds_cons, usedIds_cons]
  cases r.state with
  | Free => exact h
  | Used a => exact List.cons_sublist_cons.mpr h

theorem deallocateGo_eq_cons (id : Nat) (r r2 : HeapRegion)
    (rest : List HeapRegion) :
    HeapRegions.deallocateGo id (r :: r2 :: rest) =
    if r.id = id then
      if r2.is_free then some (r.joinRight r2 :: rest)
      else some (r.setFree :: r2 :: rest)
    else if r2.id = id then
      deallocMid r r2 rest
    else
      (HeapRegions.deallocateGo id (r2 :: rest)).map (fun l => r :: l) := by
  cases rest with
  | nil =>
    by_cases hf : r.is_free = true <;>
      simp [HeapRegions.deallocateGo, deallocMid, hf]
  | cons r3 rest3 =>
    by_cases hf : r.is_free = true <;>
      simp [HeapRegions.deallocateGo, deallocMid, hf]

/-- `HeapRegions::deallocate`'s scan preserves the partition facts: the
target becomes `Free` and is coalesced with `Free` neighbours, so no two
adjacent `Free` regions remain, the tiling is unchanged, and the used ids
and region ids only shrink; a result whose head is `Free` comes from a
head that was `Free` or was the target. -/
theorem deallocateGo_wf (id : Nat) :
    ∀ (rs : List HeapRegion) (pos heap_len : Nat) (rs2 : List HeapRegion),
    HeapRegions.deallocateGo id rs = some rs2 →
    coversExactly pos heap_len rs = true →
    (∀ r ∈ rs, 0 < r.length) →
    noAdjacentFreeB rs = true →
    coversExactly pos heap_len rs2 = true ∧
    (∀ r ∈ rs2, 0 < r.length) ∧
    noAdjacentFreeB rs2 = true ∧
    List.Sublist (usedIds rs2) (usedIds rs) ∧
    List.Sublist (rs2.map HeapRegion.id) (rs.map HeapRegion.id) ∧
    (∀ r2, rs2.head? = some r2 → r2.is_free = true →
      ∃ r1, rs.head? = some r1 ∧ (r1.is_free = true ∨ r1.id = id)) := by
  intro rs
  induction rs with
  | nil => intro pos heap_len rs2 h; rw [HeapRegions.deallocateGo] at h; cases h
  | cons r rest ih =>
    cases rest with
    | nil =>
      intro pos heap_len rs2 h hcov hpos hnoadj
      rw [HeapRegions.deallocateGo] at h
      by_cases hid : r.id = id
      · rw [if_pos hid] at h
        cases Option.some_inj.mp h
        obtain ⟨hbase, hcov2⟩ := (coversExactly_cons _ _ _ _).mp hcov
        refine ⟨?_, ?_, ?_, ?_, ?_, ?_⟩
        · exact (coversExactly_cons _ _ _ _).mpr ⟨hbase, hcov2⟩
        · intro x hx
          simp only [List.mem_cons, List.not_mem_nil, or_false] at hx
          rw [hx]
          exact hpos r (List.mem_cons_self _ _)
        · rfl
        · rw [usedIds_cons_free (r := r.setFree) ([] : List HeapRegion) rfl]
          exact List.nil_sublist _
        · exact List.Sublist.refl _
        · intro r2 hr2 _
          cases Option.some_inj.mp hr2
          exact ⟨r, rfl, Or.inr hid⟩
      · rw [if_neg hid] at h
        cases h
    | cons r2 rest2 =>
      intro pos heap_len rs2 h hcov hpos hnoadj
      obtain ⟨hbase, hcov2⟩ := (coversExactly_cons _ _ _ _).mp hcov
      obtain ⟨hbase2, hcov3⟩ := (coversExactly_cons _ _ _ _).mp hcov2
      obtain ⟨hnoadj1, hnoadjT⟩ := (noAdj_cons _ _).mp hnoadj
      obtain ⟨hnoadj2, hnoadjT2⟩ := (noAdj_cons _ _).mp hnoadjT
      rw [deallocateGo_eq_cons] at h
      by_cases hid : r.id = id
      · rw [if_pos hid] at h
        by_cases hf2 : r2.is_free = true
        · rw [if_pos hf2] at h
          cases Option.some_inj.mp h
          refine ⟨?_, ?_, ?_, ?_, ?_, ?_⟩
          · refine (coversExactly_cons _ _ _ _).mpr ⟨hbase, ?_⟩
            show coversExactly (r.base + (r.length + r2.length)) heap_len rest2 = true
            rw [show r.base + (r.length + r2.length) = r2.base + r2.length from
              by omega]
            exact hcov3
          · intro x hx
            simp only [List.mem_cons] at hx
            rcases hx with hx | hx
            · rw [hx]
              show 0 < r.length + r2.length
              have := hpos r (List.mem_cons_self _ _)
              omega
            · exact hpos x (by simp [hx])
          · refine (noAdj_cons _ _).mpr ⟨?_, hnoadjT2⟩
            intro r3 hr3 _
            exact hnoadj2 r3 hr3 hf2
          · rw [usedIds_cons_free (r := r.joinRight r2) rest2 rfl]
            exact (usedIds_sublist_cons r2 rest2).trans (usedIds_sublist_cons r _)
          · simp only [List.map_cons]
            show List.Sublist (r.id :: rest2.map HeapRegion.id)
              (r.id :: r2.id :: rest2.map HeapRegion.id)
            exact List.cons_sublist_cons.mpr (List.sublist_cons_self _ _)
          · intro r3 hr3 _
            cases Option.some_inj.mp hr3
            exact ⟨r, rfl, Or.inr hid⟩
        · rw [if_neg hf2] at h
          cases Option.some_inj.mp h
          have hf2' : r2.is_free = false := by simpa using hf2
          refine ⟨?_, ?_, ?_, ?_, ?_, ?_⟩
          · exact (coversExactly_cons _ _ _ _).mpr ⟨hbase,
              (coversExactly_cons _ _ _ _).mpr ⟨hbase2, hcov3⟩⟩
          · intro x hx
            simp only [List.mem_cons] at hx
            rcases hx with hx | hx
            · rw [hx]
              exact hpos r (List.mem_cons_self _ _)
            · exact hpos x (by simp [hx])
          · refine (noAdj_cons _ _).mpr ⟨?_, hnoadjT⟩
            intro r3 hr3 _
            cases Option.some_inj.mp hr3
            exact hf2'
          · rw [usedIds_cons_free (r := r.setFree) (r2 :: rest2) rfl]
            exact usedIds_sublist_cons r _
          · exact List.Sublist.refl _
          · intro r3 hr3 _
            cases Option.some_inj.mp hr3
            exact ⟨r, rfl, Or.inr hid⟩
      · rw [if_neg hid] at h
        by_cases hid2 : r2.id = id
        · rw [if_pos hid2] at h
          by_cases hf1 : r.is_free = true
          · cases rest2 with
            | nil =>
              rw [deallocMid, if_pos hf1] at h
              cases Option.some_inj.mp h
              have hlast : r2.base + r2.length = heap_len := by
                simpa [coversExactly] using hcov3
              refine ⟨?_, ?_, ?_, ?_, ?_, ?_⟩
              · refine (coversExactly_cons _ _ _ _).mpr ⟨hbase, ?_⟩
                show coversExactly (r.base + (r.length + r2.length)) heap_len [] = true
                rw [coversExactly]
                simp only [beq_iff_eq]
                omega
              · intro x hx
                simp only [List.mem_cons, List.not_mem_nil, or_false] at hx
                rw [hx]
                show 0 < r.length + r2.length
                have := hpos r (List.mem_cons_self _ _)
                omega
              · rfl
              · rw [usedIds_cons_free (r := r.joinRight r2) ([] : List HeapRegion) rfl]
                exact List.nil_sublist _
              · simp only [List.map_cons, List.map_nil]
                show List.Sublist [r.id] [r.id, r2.id]
                exact List.cons_sublist_cons.mpr (List.nil_sublist _)
              · intro r3 hr3 _
                cases Option.some_inj.mp hr3
                exact ⟨r, rfl, Or.inl hf1⟩
            | cons r3 rest3 =>
              rw [deallocMid, if_pos hf1] at h
              obtain ⟨hbase3, hcov4⟩ := (coversExactly_cons _ _ _ _).mp hcov3
              obtain ⟨hnoadj3, hnoadjT3⟩ := (noAdj_cons _ _).mp hnoadjT2
              by_cases hf3 : r3.is_free = true
              · rw [if_pos hf3] at h
                cases Option.some_inj.mp h
                refine ⟨?_, ?_, ?_, ?_, ?_, ?_⟩
                · refine (coversExactly_cons _ _ _ _).mpr ⟨hbase, ?_⟩
                  show coversExactly (r.base + (r.length + r2.length + r3.length))
                    heap_len rest3 = true
                  rw [show r.base + (r.length + r2.length + r3.length) =
                    r3.base + r3.length from by omega]
                  exact hcov4
                · intro x hx
                  simp only [List.mem_cons] at hx
                  rcases hx with hx | hx
                  · rw [hx]
                    show 0 < r.length + r2.length + r3.length
                    have := hpos r (List.mem_cons_self _ _)
                    omega
                  · exact hpos x (by simp [hx])
                · refine (noAdj_cons _ _).mpr ⟨?_, hnoadjT3⟩
                  intro r4 hr4 _
                  exact hnoadj3 r4 hr4 hf3
                · rw [usedIds_cons_free
                    (r := (r.joinRight r2).joinRight r3) rest3 rfl]
                  exact ((usedIds_sublist_cons r3 rest3).trans
                    (usedIds_sublist_cons r2 _)).trans (usedIds_sublist_cons r _)
                · simp only [List.map_cons]
                  show List.Sublist (r.id :: rest3.map HeapRegion.id)
                    (r.id :: r2.id :: r3.id :: rest3.map HeapRegion.id)
                  exact List.cons_sublist_cons.mpr
                    ((List.sublist_cons_self _ _).trans (List.sublist_cons_self _ _))
                · intro r4 hr4 _
                  cases Option.some_inj.mp hr4
                  exact ⟨r, rfl, Or.inl hf1⟩
              · rw [if_neg hf3] at h
                cases Option.some_inj.mp h
                have hf3' : r3.is_free = false := by simpa using hf3
                refine ⟨?_, ?_, ?_, ?_, ?_, ?_⟩
                · refine (coversExactly_cons _ _ _ _).mpr ⟨hbase, ?_⟩
                  refine (coversExactly_cons _ _ _ _).mpr ⟨?_, hcov4⟩
                  show r3.base = r.base + (r.length + r2.length)
                  omega
                · intro x hx
                  simp only [List.mem_cons] at hx
                  rcases hx with hx | hx
                  · rw [hx]
                    show 0 < r.length + r2.length
                    have := hpos r (List.mem_cons_self _ _)
                    omega
                  · exact hpos x (by simp [hx])
                · refine (noAdj_cons _ _).mpr ⟨?_, hnoadjT2⟩
                  intro r4 hr4 _
                  cases Option.some_inj.mp hr4
                  exact hf3'
                · rw [usedIds_cons_free (r := r.joinRight r2) (r3 :: rest3) rfl]
                  exact (usedIds_sublist_cons r2 _).trans (usedIds_sublist_cons r _)
                · simp only [List.map_cons]
                  show List.Sublist (r.id :: r3.id :: rest3.map HeapRegion.id)
                    (r.id :: r2.id :: r3.id :: rest3.map HeapRegion.id)
                  exact List.cons_sublist_cons.mpr (List.sublist_cons_self _ _)
                · intro r4 hr4 _
                  cases Option.some_inj.mp hr4
                  exact ⟨r, rfl, Or.inl hf1⟩
          · have hf1' : r.is_free = false := by simpa using hf1
            cases rest2 with
            | nil =>
              rw [deallocMid, if_neg hf1] at h
              cases Option.some_inj.mp h
              refine ⟨?_, ?_, ?_, ?_, ?_, ?_⟩
              · exact (coversExactly_cons _ _ _ _).mpr ⟨hbase,
                  (coversExactly_cons _ _ _ _).mpr ⟨hbase2, hcov3⟩⟩
              · intro x hx
                simp only [List.mem_cons, List.not_mem_nil, or_false] at hx
                rcases hx with hx | hx
                · rw [hx]; exact hpos r (List.mem_cons_self _ _)
                · rw [hx]
                  show 0 < r2.length
                  exact hpos r2 (by simp)
              · refine (noAdj_cons _ _).mpr ⟨?_, rfl⟩
                intro r3 hr3 hfr
                rw [hf1'] at hfr
                cases hfr
              · refine usedIds_cons_sublist r ?_
                rw [usedIds_cons_free (r := r2.setFree) ([] : List HeapRegion) rfl]
                exact List.nil_sublist _
              · exact List.Sublist.refl _
              · intro r3 hr3 hfr
                cases Option.some_inj.mp hr3
                rw [hf1'] at hfr
                cases hfr
            | cons r3 rest3 =>
              rw [deallocMid, if_neg hf1] at h
              obtain ⟨hbase3, hcov4⟩ := (coversExactly_cons _ _ _ _).mp hcov3
              obtain ⟨hnoadj3, hnoadjT3⟩ := (noAdj_cons _ _).mp hnoadjT2
              by_cases hf3 : r3.is_free = true
              · rw [if_pos hf3] at h
                cases Option.some_inj.mp h
                refine ⟨?_, ?_, ?_, ?_, ?_, ?_⟩
                · refine (coversExactly_cons _ _ _ _).mpr ⟨hbase, ?_⟩
                  refine (coversExactly_cons _ _ _ _).mpr ⟨hbase2, ?_⟩
                  show coversExactly (r2.base + (r2.length + r3.length))
                    heap_len rest3 = true
                  rw [show r2.base + (r2.length + r3.length) =
                    r3.base + r3.length from by omega]
                  exact hcov4
                · intro x hx
                  simp only [List.mem_cons] at hx
                  rcases hx with hx | hx | hx
                  · rw [hx]; exact hpos r (List.mem_cons_self _ _)
                  · rw [hx]
                    show 0 < r2.length + r3.length
                    have := hpos r2 (by simp)
                    omega
                  · exact hpos x (by simp [hx])
                · refine (noAdj_cons _ _).mpr ⟨?_, ?_⟩
                  · intro r4 hr4 hfr
                    rw [hf1'] at hfr
                    cases hfr
                  · refine (noAdj_cons _ _).mpr ⟨?_, hnoadjT3⟩
                    intro r4 hr4 _
                    exact hnoadj3 r4 hr4 hf3
                · refine usedIds_cons_sublist r ?_
                  rw [usedIds_cons_free (r := r2.joinRight r3) rest3 rfl]
                  exact (usedIds_sublist_cons r3 _).trans (usedIds_sublist_cons r2 _)
                · simp only [List.map_cons]
                  show List.Sublist (r.id :: r2.id :: rest3.map HeapRegion.id)
                    (r.id :: r2.id :: r3.id :: rest3.map HeapRegion.id)
                  exact List.cons_sublist_cons.mpr (List.cons_sublist_cons.mpr
                    (List.sublist_cons_self _ _))
                · intro r4 hr4 hfr
                  cases Option.some_inj.mp hr4
                  rw [hf1'] at hfr
                  cases hfr
              · rw [if_neg hf3] at h
                cases Option.some_inj.mp h
                have hf3' : r3.is_free = false := by simpa using hf3
                refine ⟨?_, ?_, ?_, ?_, ?_, ?_⟩
                · exact (coversExactly_cons _ _ _ _).mpr ⟨hbase,
                    (coversExactly_cons _ _ _ _).mpr ⟨hbase2,
                      (coversExactly_cons _ _ _ _).mpr ⟨hbase3, hcov4⟩⟩⟩
                · intro x hx
                  simp only [List.mem_cons] at hx
                  rcases hx with hx | hx | hx
                  · rw [hx]; exact hpos r (List.mem_cons_self _ _)
                  · rw [hx]
                    show 0 < r2.length
                    exact hpos r2 (by simp)
                  · exact hpos x (by simp [hx])
                · refine (noAdj_cons _ _).mpr ⟨?_, ?_⟩
                  · intro r4 hr4 hfr
                    rw [hf1'] at hfr
                    cases hfr
                  · refine (noAdj_cons _ _).mpr ⟨?_, hnoadjT2⟩
                    intro r4 hr4 _
                    cases Option.some_inj.mp hr4
                    exact hf3'
                · refine usedIds_cons_sublist r ?_
                  rw [usedIds_cons_free (r := r2.setFree) (r3 :: rest3) rfl]
                  exact usedIds_sublist_cons r2 _
                · exact List.Sublist.refl _
                · intro r4 hr4 hfr
                  cases Option.some_inj.mp hr4
                  rw [hf1'] at hfr
                  cases hfr
        · rw [if_neg hid2] at h
          cases hrec : HeapRegions.deallocateGo id (r2 :: rest2) with
          | none => rw [hrec] at h; cases h
          | some out1 =>
            rw [hrec] at h
            simp only [Option.map_some', Option.some_inj] at h
            obtain ⟨hc1, hp1, hn1, hu1, hi1, hh1⟩ :=
              ih (r.base + r.length) heap_len out1 hrec hcov2
                (fun x hx => hpos x (List.mem_cons_of_mem _ hx)) hnoadjT
            subst h
            refine ⟨?_, ?_, ?_, ?_, ?_, ?_⟩
            · exact (coversExactly_cons _ _ _ _).mpr ⟨hbase, hc1⟩
            · intro x hx
              simp only [List.mem_cons] at hx
              rcases hx with hx | hx
              · rw [hx]; exact hpos r (List.mem_cons_self _ _)
              · exact hp1 x hx
            · refine (noAdj_cons _ _).mpr ⟨?_, hn1⟩
              intro r3 hr3 hfr
              by_contra hneg
              simp only [Bool.not_eq_false] at hneg
              obtain ⟨r1, hr1, hc⟩ := hh1 r3 hr3 hneg
              rw [List.head?_cons, Option.some_inj] at hr1
              subst hr1
              rcases hc with hc | hc
              · have := hnoadj1 r2 rfl hfr
                rw [this] at hc
                cases hc
              · exact hid2 hc
            · exact usedIds_cons_sublist r hu1
            · simp only [List.map_cons]
              exact List.cons_sublist_cons.mpr hi1
            · intro r3 hr3 hfr
              cases Option.some_inj.mp hr3
              exact ⟨r, rfl, Or.inl hfr⟩

theorem compactGo_cons_free (r : HeapRegion) (rest : List HeapRegion)
    (nb : Nat) (heap : Nat → Nat) (hf : r.is_free = true) :
    HeapRegions.compactGo (r :: rest) nb heap =
      HeapRegions.compactGo rest nb heap := by
  rw [HeapRegions.compactGo, if_pos hf]

theorem compactGo_cons_used (r : HeapRegion) (rest : List HeapRegion)
    (nb : Nat) (heap : Nat → Nat) (hf : r.is_free = false) :
    HeapRegions.compactGo (r :: rest) nb heap =
      (({ r with base := nb } : HeapRegion) ::
         (HeapRegions.compactGo rest (nb + r.length)
           (copyWithin heap r.base r.length nb)).1,
       (HeapRegions.compactGo rest (nb + r.length)
         (copyWithin heap r.base r.length nb)).2) := by
  rw [HeapRegions.compactGo, if_neg (by simp [hf])]

/-- `HeapRegions::compact`'s walk keeps exactly the `Used` regions (same
allocation ids, in order), re-bases them to tile `[next_base, final
next_base)` contiguously, and the final `next_base` stays within the heap. -/
theorem compactGo_spec :
    ∀ (rs : List HeapRegion) (nb pos heap_len : Nat) (heap : Nat → Nat),
    coversExactly pos heap_len rs = true →
    (∀ r ∈ rs, 0 < r.length) →
    nb ≤ pos →
    coversExactly nb (HeapRegions.compactGo rs nb heap).2.1
      (HeapRegions.compactGo rs nb heap).1 = true ∧
    (∀ r ∈ (HeapRegions.compactGo rs nb heap).1, 0 < r.length) ∧
    (∀ r ∈ (HeapRegions.compactGo rs nb heap).1, r.is_free = false) ∧
    usedIds (HeapRegions.compactGo rs nb heap).1 = usedIds rs ∧
    List.Sublist ((HeapRegions.compactGo rs nb heap).1.map HeapRegion.id)
      (rs.map HeapRegion.id) ∧
    (HeapRegions.compactGo rs nb heap).2.1 ≤ heap_len := by
  intro rs
  induction rs with
  | nil =>
    intro nb pos heap_len heap hcov hpos hnb
    rw [HeapRegions.compactGo]
    refine ⟨by simp [coversExactly], ?_, ?_, rfl, List.Sublist.refl _, ?_⟩
    · intro x hx
      exact absurd hx (List.not_mem_nil x)
    · intro x hx
      exact absurd hx (List.not_mem_nil x)
    · have hpe : pos = heap_len := by simpa [coversExactly] using hcov
      show nb ≤ heap_len
      omega
  | cons r rest ih =>
    intro nb pos heap_len heap hcov hpos hnb
    obtain ⟨hbase, hcov2⟩ := (coversExactly_cons _ _ _ _).mp hcov
    by_cases hf : r.is_free = true
    · rw [compactGo_cons_free r rest nb heap hf]
      obtain ⟨h1, h2, h3, h4, h5, h6⟩ :=
        ih nb (r.base + r.length) heap_len heap hcov2
          (fun x hx => hpos x (List.mem_cons_of_mem _ hx)) (by omega)
      refine ⟨h1, h2, h3, ?_, ?_, h6⟩
      · rw [h4, usedIds_cons_free (r := r) rest hf]
      · exact h5.trans (List.sublist_cons_self _ _)
    · have hf' : r.is_free = false := by simpa using hf
      rw [compactGo_cons_used r rest nb heap hf']
      obtain ⟨a, hs⟩ := not_is_free_iff.mp hf'
      obtain ⟨h1, h2, h3, h4, h5, h6⟩ :=
        ih (nb + r.length) (r.base + r.length) heap_len
          (copyWithin heap r.base r.length nb) hcov2
          (fun x hx => hpos x (List.mem_cons_of_mem _ hx)) (by omega)
      refine ⟨?_, ?_, ?_, ?_, ?_, h6⟩
      · refine (coversExactly_cons _ _ _ _).mpr ⟨rfl, ?_⟩
        show coversExactly (nb + r.length) _ _ = true
        exact h1
      · intro x hx
        simp only [List.mem_cons] at hx
        rcases hx with hx | hx
        · rw [hx]
          show 0 < r.length
          exact hpos r (List.mem_cons_self _ _)
        · exact h2 x hx
      · intro x hx
        simp only [List.mem_cons] at hx
        rcases hx with hx | hx
        · rw [hx]
          exact hf'
        · exact h3 x hx
      · rw [usedIds_cons_used (r := { r with base := nb }) _ hs,
          usedIds_cons_used (r := r) rest hs, h4]
      · simp only [List.map_cons]
        show List.Sublist (r.id :: _) (r.id :: rest.map HeapRegion.id)
        exact List.cons_sublist_cons.mpr h5

theorem coversExactly_append {l l2 : List HeapRegion} :
    ∀ {pos mid hl : Nat}, coversExactly pos mid l = true →
    coversExactly mid hl l2 = true → coversExactly pos hl (l ++ l2) = true := by
  induction l with
  | nil =>
    intro pos mid hl h1 h2
    have : pos = mid := by simpa [coversExactly] using h1
    rw [List.nil_append, this]
    exact h2
  | cons r rest ih =>
    intro pos mid hl h1 h2
    obtain ⟨hb, hc⟩ := (coversExactly_cons _ _ _ _).mp h1
    exact (coversExactly_cons _ _ _ _).mpr ⟨hb, ih hc h2⟩

theorem noAdj_of_all_used {l : List HeapRegion}
    (h : ∀ r ∈ l, r.is_free = false) : noAdjacentFreeB l = true := by
  induction l with
  | nil => rfl
  | cons r rest ih =>
    refine (noAdj_cons _ _).mpr ⟨?_, ih (fun x hx => h x (List.mem_cons_of_mem _ hx))⟩
    intro r2 hr2 hfr
    rw [h r (List.mem_cons_self _ _)] at hfr
    cases hfr

theorem noAdj_all_used_append {l : List HeapRegion} (tr : HeapRegion)
    (h : ∀ r ∈ l, r.is_free = false) :
    noAdjacentFreeB (l ++ [tr]) = true := by
  induction l with
  | nil => rfl
  | cons r rest ih =>
    refine (noAdj_cons _ _).mpr
      ⟨?_, ih (fun x hx => h x (List.mem_cons_of_mem _ hx))⟩
    intro r2 hr2 hfr
    rw [h r (List.mem_cons_self _ _)] at hfr
    cases hfr

theorem usedIds_append (l l2 : List HeapRegion) :
    usedIds (l ++ l2) = usedIds l ++ usedIds l2 := by
  induction l with
  | nil => rfl
  | cons r rest ih =>
    rw [List.cons_append, usedIds_cons, usedIds_cons]
    cases r.state with
    | Free => exact ih
    | Used a => rw [ih]; rfl

theorem getLast_region_end_of_covers :
    ∀ (rs : List HeapRegion) (pos heap_len : Nat), rs ≠ [] →
    coversExactly pos heap_len rs = true →
    (rs.getLast?.map HeapRegion.region_end).getD 0 = heap_len := by
  intro rs
  induction rs with
  | nil => intro pos heap_len hne; cases hne rfl
  | cons r rest ih =>
    intro pos heap_len hne hcov
    obtain ⟨hb, hc⟩ := (coversExactly_cons _ _ _ _).mp hcov
    cases rest with
    | nil =>
      have : r.base + r.length = heap_len := by simpa [coversExactly] using hc
      simp [List.getLast?_singleton, HeapRegion.region_end, this]
    | cons r2 rest2 =>
      rw [List.getLast?_cons_cons]
      exact ih (r.base + r.length) heap_len (by simp) hc

theorem strictAsc_of_covers :
    ∀ (rs : List HeapRegion) (pos heap_len : Nat),
    coversExactly pos heap_len rs = true →
    (∀ r ∈ rs, 0 < r.length) →
    basesStrictAscB rs = true := by
  intro rs
  induction rs with
  | nil => intro pos heap_len _ _; rfl
  | cons r rest ih =>
    intro pos heap_len hcov hpos
    obtain ⟨hb, hc⟩ := (coversExactly_cons _ _ _ _).mp hcov
    cases rest with
    | nil => rfl
    | cons r2 rest2 =>
      obtain ⟨hb2, hc2⟩ := (coversExactly_cons _ _ _ _).mp hc
      rw [basesStrictAscB]
      simp only [Bool.and_eq_true, decide_eq_true_eq]
      refine ⟨?_, ih (r.base + r.length) heap_len hc
        (fun x hx => hpos x (List.mem_cons_of_mem _ hx))⟩
      have := hpos r (List.mem_cons_self _ _)
      omega

theorem regionsInvariantStrict_of_wf {heap_len : Nat} {h : HeapRegions}
    (wf : RegionsWF heap_len h) : regionsInvariantStrict h heap_len = true := by
  rw [regionsInvariantStrict]
  simp only [Bool.and_eq_true, decide_eq_true_eq]
  exact ⟨⟨⟨wf.covers, strictAsc_of_covers _ 0 heap_len wf.covers wf.pos⟩,
    wf.noadj⟩, wf.uniqueUsed⟩

theorem new_wf {heap_len : Nat} (hpos : 0 < heap_len) :
    RegionsWF heap_len (HeapRegions.new heap_len) := by
  refine ⟨hpos, ?_, ?_, rfl, List.nodup_nil, ?_, ?_⟩
  · simp [HeapRegions.new, coversExactly]
  · intro r hr
    simp only [HeapRegions.new, List.mem_singleton] at hr
    rw [hr]
    exact hpos
  · simp [HeapRegions.new]
  · intro r hr
    simp only [HeapRegions.new, List.mem_singleton] at hr
    rw [hr]
    show (1 : Nat) < 2
    omega

theorem allocate_wf {heap_len : Nat} {h : HeapRegions} (wf : RegionsWF heap_len h)
    {ds a : Nat} (hds : 0 < ds) (ha : a ∉ usedIds h.in_order)
    {res : HeapRegions × Nat × Nat} (hres : h.allocate ds a = some res) :
    RegionsWF heap_len res.1 := by
  rw [HeapRegions.allocate] at hres
  cases hgo : HeapRegions.allocateGo (total_region_len ds) a h.next_id h.in_order with
  | none => rw [hgo] at hres; cases hres
  | some out =>
    rw [hgo] at hres
    simp only [Option.map_some', Option.some_inj] at hres
    subst hres
    have htot : 0 < total_region_len ds := by rw [total_region_len]; omega
    obtain ⟨h1, h2, h3, h4, h5, _⟩ :=
      allocateGo_wf (total_region_len ds) a h.next_id htot h.in_order 0 heap_len out
        hgo wf.covers wf.pos wf.noadj
    refine ⟨wf.hlen, h1, h2, h3, ?_, ?_, ?_⟩
    · exact h4.nodup_iff.mpr (List.nodup_cons.mpr ⟨ha, wf.uniqueUsed⟩)
    · rcases h5 with h5 | h5
      · show (out.1.map HeapRegion.id).Nodup
        rw [h5]
        exact wf.idsNodup
      · refine h5.nodup_iff.mpr (List.nodup_cons.mpr ⟨?_, wf.idsNodup⟩)
        intro hmem
        obtain ⟨r2, hr2, hid⟩ := List.mem_map.mp hmem
        have := wf.idsLt r2 hr2
        omega
    · intro r hr
      show r.id < h.next_id + 1
      have hmem : r.id ∈ out.1.map HeapRegion.id :=
        List.mem_map_of_mem HeapRegion.id hr
      rcases h5 with h5 | h5
      · rw [h5] at hmem
        obtain ⟨r2, hr2, hid⟩ := List.mem_map.mp hmem
        have := wf.idsLt r2 hr2
        omega
      · have := h5.mem_iff.mp hmem
        simp only [List.mem_cons] at this
        rcases this with hh | hh
        · omega
        · obtain ⟨r2, hr2, hid⟩ := List.mem_map.mp hh
          have := wf.idsLt r2 hr2
          omega

theorem deallocate_wf {heap_len : Nat} {h : HeapRegions} (wf : RegionsWF heap_len h)
    {id : Nat} {h2 : HeapRegions} (hres : h.deallocate id = some h2) :
    RegionsWF heap_len h2 := by
  rw [HeapRegions.deallocate] at hres
  cases hgo : HeapRegions.deallocateGo id h.in_order with
  | none => rw [hgo] at hres; cases hres
  | some l =>
    rw [hgo] at hres
    simp only [Option.map_some', Option.some_inj] at hres
    subst hres
    obtain ⟨h1, hp, hn, hu, hi, _⟩ :=
      deallocateGo_wf id h.in_order 0 heap_len l hgo wf.covers wf.pos wf.noadj
    refine ⟨wf.hlen, h1, hp, hn, ?_, ?_, ?_⟩
    · exact List.Nodup.sublist hu wf.uniqueUsed
    · exact List.Nodup.sublist hi wf.idsNodup
    · intro r hr
      have hmem := hi.subset (List.mem_map_of_mem HeapRegion.id hr)
      obtain ⟨r2, hr2, hid⟩ := List.mem_map.mp hmem
      have := wf.idsLt r2 hr2
      show r.id < h.next_id
      omega

theorem compact_wf {heap_len : Nat} {h : HeapRegions} (heap : Nat → Nat)
    (wf : RegionsWF heap_len h) :
    RegionsWF heap_len (h.compact heap).1 := by
  have hne : h.in_order ≠ [] := by
    intro he
    have hcv := wf.covers
    rw [he] at hcv
    have h0 : (0 : Nat) = heap_len := by simpa [coversExactly] using hcv
    have := wf.hlen
    omega
  have hend : (h.in_order.getLast?.map HeapRegion.region_end).getD 0 = heap_len :=
    getLast_region_end_of_covers h.in_order 0 heap_len hne wf.covers
  obtain ⟨h1, h2, h3, h4, h5, h6⟩ :=
    compactGo_spec h.in_order 0 0 heap_len heap wf.covers wf.pos (Nat.le_refl 0)
  simp only [HeapRegions.compact, hend]
  by_cases hlt : (HeapRegions.compactGo h.in_order 0 heap).2.1 < heap_len
  · rw [if_pos hlt]
    refine ⟨wf.hlen, ?_, ?_, ?_, ?_, ?_, ?_⟩
    · refine coversExactly_append h1 ?_
      refine (coversExactly_cons _ _ _ _).mpr ⟨rfl, ?_⟩
      rw [coversExactly]
      simp only [beq_iff_eq]
      omega
    · intro x hx
      simp only [List.mem_append, List.mem_singleton] at hx
      rcases hx with hx | hx
      · exact h2 x hx
      · rw [hx]
        show 0 < heap_len - (HeapRegions.compactGo h.in_order 0 heap).2.1
        omega
    · exact noAdj_all_used_append _ h3
    · have husE : usedIds ((HeapRegions.compactGo h.in_order 0 heap).1 ++
          [{ id := h.next_id, state := .Free,
             base := (HeapRegions.compactGo h.in_order 0 heap).2.1,
             length := heap_len - (HeapRegions.compactGo h.in_order 0 heap).2.1 }]) =
          usedIds (HeapRegions.compactGo h.in_order 0 heap).1 := by
        rw [usedIds_append]
        exact List.append_nil _
      rw [husE, h4]
      exact wf.uniqueUsed
    · rw [List.map_append]
      refine List.Nodup.append (List.Nodup.sublist h5 wf.idsNodup) (by simp) ?_
      intro x hx hx2
      simp only [List.map_cons, List.map_nil, List.mem_singleton] at hx2
      subst hx2
      obtain ⟨r2, hr2, hid⟩ := List.mem_map.mp (h5.subset hx)
      have := wf.idsLt r2 hr2
      omega
    · intro x hx
      simp only [List.mem_append, List.mem_singleton] at hx
      show x.id < h.next_id + 1
      rcases hx with hx | hx
      · obtain ⟨r2, hr2, hid⟩ :=
          List.mem_map.mp (h5.subset (List.mem_map_of_mem HeapRegion.id hx))
        have := wf.idsLt r2 hr2
        omega
      · rw [hx]
        show h.next_id < h.next_id + 1
        omega
  · rw [if_neg hlt]
    have heq : (HeapRegions.compactGo h.in_order 0 heap).2.1 = heap_len := by omega
    refine ⟨wf.hlen, ?_, h2, noAdj_of_all_used h3, ?_, ?_, ?_⟩
    · rw [← heq]
      exact h1
    · show (usedIds (HeapRegions.compactGo h.in_order 0 heap).1).Nodup
      rw [h4]
      exact wf.uniqueUsed
    · exact List.Nodup.sublist h5 wf.idsNodup
    · intro x hx
      obtain ⟨r2, hr2, hid⟩ :=
        List.mem_map.mp (h5.subset (List.mem_map_of_mem HeapRegion.id hx))
      have := wf.idsLt r2 hr2
      show x.id < h.next_id
      omega

theorem regionsReachable_wf {heap_len : Nat} {st : HeapRegions × (Nat → Nat)}
    (h : RegionsReachable heap_len st) : RegionsWF heap_len st.1 := by
  induction h with
  | init heap hpos => exact new_wf hpos
  | stepAlloc st ds a _ hds ha ih =>
    cases hres : st.1.allocate ds a with
    | none => simpa [applyRegionOp, hres] using ih
    | some res => simpa [applyRegionOp, hres] using allocate_wf ih hds ha hres
  | stepDealloc st id _ ih =>
    cases hres : st.1.deallocate id with
    | none => simpa [applyRegionOp, hres] using ih
    | some h2 => simpa [applyRegionOp, hres] using deallocate_wf ih hres
  | stepCompact st _ ih =>
    simpa [applyRegionOp] using compact_wf st.2 ih

/-- Claim C2 (amended): starting from `HeapRegions::new` over a positive
heap length, and applying `allocate` only with positive data sizes and
allocation ids not currently in use (which is how `Memory` calls it, with
sizes from `total_region_len` of a payload and ids from a fresh counter),
every sequence of `allocate`/`deallocate`/`compact` operations keeps the
partition invariant: the ordered regions tile `[0, heap_len)` exactly with
strictly ascending bases, no two adjacent regions are `Free`, and every
`Used` region's allocation id occurs in exactly one region. -/
theorem region_partition_invariant {heap_len : Nat}
    {st : HeapRegions × (Nat → Nat)} (h : RegionsReachable heap_len st) :
    regionsInvariantStrict st.1 heap_len = true :=
  regionsInvariantStrict_of_wf (regionsReachable_wf h)

theorem region_partition_invariant_witness :
    regionsInvariantStrict
      (applyRegionOp (applyRegionOp (HeapRegions.new 64, fun _ => 0)
        (.alloc 8 1)) (.dealloc 2)).1 64 = true :=
  region_partition_invariant
    (RegionsReachable.stepDealloc _ 2
      (RegionsReachable.stepAlloc _ 8 1
        (RegionsReachable.init _ (by decide)) (by decide) (by decide)))

/-- Claim C2, original wording, is false: `HeapRegions::allocate` with a
zero-size request succeeds and produces a zero-length `Used` region whose
`Free` remainder starts at the same base, so the bases are not strictly
ascending (the source is only ever called with positive total sizes, which
the amended claim requires). -/
theorem region_partition_claim_false :
    ((HeapRegions.new 64).allocate 0 1).isSome = true ∧
    regionsInvariantStrict
      (applyRegionOp (HeapRegions.new 64, fun _ => 0) (.alloc 0 1)).1 64 = false := by
  constructor
  · decide
  · decide

theorem gcMark_nil (m : Memory) (visited : List Nat) :
    gcMark m visited [] = visited := by
  rw [gcMark]

theorem gcMark_cons_none (m : Memory) (visited : List Nat) (addr : Nat)
    (rest : List Nat) (h : m.addr_to_allocation addr = none) :
    gcMark m visited (addr :: rest) = gcMark m visited rest := by
  rw [gcMark]
  split
  · rfl
  · next a2 off2 heq =>
    rw [h] at heq
    cases heq

theorem gcMark_cons_mem (m : Memory) (visited : List Nat) (addr : Nat)
    (rest : List Nat) {a : Allocation} {off : Nat}
    (h : m.addr_to_allocation addr = some (a, off)) (h2 : a.id ∈ visited) :
    gcMark m visited (addr :: rest) = gcMark m visited rest := by
  rw [gcMark]
  split
  · next heq =>
    rw [h] at heq
  · next a2 off2 heq =>
    rw [h] at heq
    cases heq
    rw [dif_pos h2]

theorem gcMark_cons_new (m : Memory) (visited : List Nat) (addr : Nat)
    (rest : List Nat) {a : Allocation} {off : Nat}
    (h : m.addr_to_allocation addr = some (a, off)) (h2 : a.id ∉ visited) :
    gcMark m visited (addr :: rest) =
      gcMark m (a.id :: visited) ((pointersOf m a).reverse ++ rest) := by
  rw [gcMark]
  split
  · next heq =>
    rw [h] at heq
    cases heq
  · next a2 off2 heq =>
    rw [h] at heq
    cases heq
    rw [dif_neg h2]

theorem gcMark_mono (m : Memory) :
    ∀ (visited next : List Nat), ∀ i ∈ visited, i ∈ gcMark m visited next := by
  intro visited next
  induction visited, next using gcMark.induct (m := m) with
  | case1 visited =>
    intro i hi
    rw [gcMark_nil]
    exact hi
  | case2 visited addr rest h ih =>
    intro i hi
    rw [gcMark_cons_none m visited addr rest h]
    exact ih i hi
  | case3 visited addr rest a off h h2 ih =>
    intro i hi
    rw [gcMark_cons_mem m visited addr rest h h2]
    exact ih i hi
  | case4 visited addr rest a off h h2 ih =>
    intro i hi
    rw [gcMark_cons_new m visited addr rest h h2]
    exact ih i (List.mem_cons_of_mem _ hi)

theorem gcMark_covers (m : Memory) :
    ∀ (visited next : List Nat), ∀ addr ∈ next, ∀ a off,
    m.addr_to_allocation addr = some (a, off) →
    a.id ∈ gcMark m visited next := by
  intro visited next
  induction visited, next using gcMark.induct (m := m) with
  | case1 visited =>
    intro addr haddr
    cases haddr
  | case2 visited addr rest h ih =>
    intro addr2 haddr a2 off2 hres
    rw [gcMark_cons_none m visited addr rest h]
    rcases List.mem_cons.mp haddr with heq | hmem
    · subst heq
      rw [h] at hres
      cases hres
    · exact ih addr2 hmem a2 off2 hres
  | case3 visited addr rest a off h h2 ih =>
    intro addr2 haddr a2 off2 hres
    rw [gcMark_cons_mem m visited addr rest h h2]
    rcases List.mem_cons.mp haddr with heq | hmem
    · subst heq
      rw [h] at hres
      cases hres
      exact gcMark_mono m visited rest a.id h2
    · exact ih addr2 hmem a2 off2 hres
  | case4 visited addr rest a off h h2 ih =>
    intro addr2 haddr a2 off2 hres
    rw [gcMark_cons_new m visited addr rest h h2]
    rcases List.mem_cons.mp haddr with heq | hmem
    · subst heq
      rw [h] at hres
      cases hres
      exact gcMark_mono m _ _ a.id (List.mem_cons_self _ _)
    · exact ih addr2 (List.mem_append_right _ hmem) a2 off2 hres

theorem gcMark_sound (m : Memory) (seeds : List Nat) :
    ∀ (visited next : List Nat),
    (∀ i ∈ visited, reachesId m seeds i) →
    (∀ addr ∈ next, GCReachableAddr m seeds addr) →
    ∀ i ∈ gcMark m visited next, reachesId m seeds i := by
  intro visited next
  induction visited, next using gcMark.induct (m := m) with
  | case1 visited =>
    intro hv hn i hi
    rw [gcMark_nil] at hi
    exact hv i hi
  | case2 visited addr rest h ih =>
    intro hv hn i hi
    rw [gcMark_cons_none m visited addr rest h] at hi
    exact ih hv (fun x hx => hn x (List.mem_cons_of_mem _ hx)) i hi
  | case3 visited addr rest a off h h2 ih =>
    intro hv hn i hi
    rw [gcMark_cons_mem m visited addr rest h h2] at hi
    exact ih hv (fun x hx => hn x (List.mem_cons_of_mem _ hx)) i hi
  | case4 visited addr rest a off h h2 ih =>
    intro hv hn i hi
    rw [gcMark_cons_new m visited addr rest h h2] at hi
    refine ih ?_ ?_ i hi
    · intro j hj
      rcases List.mem_cons.mp hj with hj | hj
      · exact ⟨addr, a, off, hn addr (List.mem_cons_self _ _), h, hj.symm⟩
      · exact hv j hj
    · intro x hx
      rcases List.mem_append.mp hx with hx | hx
      · exact GCReachableAddr.step addr a off x
          (hn addr (List.mem_cons_self _ _)) h (List.mem_reverse.mp hx)
      · exact hn x (List.mem_cons_of_mem _ hx)

theorem gcMark_closed (m : Memory) :
    ∀ (visited next : List Nat), gcInv m visited next →
    gcInv m (gcMark m visited next) [] := by
  intro visited next
  induction visited, next using gcMark.induct (m := m) with
  | case1 visited =>
    intro hinv
    rw [gcMark_nil]
    intro i hi a ha p hp
    rcases hinv i hi a ha p hp with hc | hc
    · cases hc
    · exact Or.inr hc
  | case2 visited addr rest h ih =>
    intro hinv
    rw [gcMark_cons_none m visited addr rest h]
    apply ih
    intro i hi a ha p hp
    rcases hinv i hi a ha p hp with hc | hc
    · rcases List.mem_cons.mp hc with heq | hm
      · subst heq
        right
        intro a2 off2 hres
        rw [h] at hres
        cases hres
      · exact Or.inl hm
    · exact Or.inr hc
  | case3 visited addr rest a off h h2 ih =>
    intro hinv
    rw [gcMark_cons_mem m visited addr rest h h2]
    apply ih
    intro i hi a3 ha3 p hp
    rcases hinv i hi a3 ha3 p hp with hc | hc
    · rcases List.mem_cons.mp hc with heq | hm
      · subst heq
        right
        intro a2 off2 hres
        rw [h] at hres
        cases hres
        exact h2
      · exact Or.inl hm
    · exact Or.inr hc
  | case4 visited addr rest a off h h2 ih =>
    intro hinv
    rw [gcMark_cons_new m visited addr rest h h2]
    apply ih
    intro i hi a3 ha3 p hp
    rcases List.mem_cons.mp hi with hi | hi
    · subst hi
      have hcan := (Memory.addr_to_allocation_mem h).2
      rw [ha3] at hcan
      cases hcan
      left
      exact List.mem_append_left _ (List.mem_reverse.mpr hp)
    · rcases hinv i hi a3 ha3 p hp with hc | hc
      · rcases List.mem_cons.mp hc with heq | hm
        · subst heq
          right
          intro a2 off2 hres
          rw [h] at hres
          cases hres
          exact List.mem_cons_self _ _
        · left
          exact List.mem_append_right _ hm
      · right
        intro a2 off2 hres
        exact List.mem_cons_of_mem _ (hc a2 off2 hres)

theorem reachable_in_gcMark (m : Memory) (seeds next0 : List Nat)
    (hset : ∀ x, x ∈ next0 ↔ x ∈ seeds) :
    ∀ addr, GCReachableAddr m seeds addr →
    ∀ a off, m.addr_to_allocation addr = some (a, off) →
    a.id ∈ gcMark m [] next0 := by
  have hclosed : gcInv m (gcMark m [] next0) [] := by
    apply gcMark_closed
    intro i hi
    cases hi
  intro addr hreach
  induction hreach with
  | seed addr haddr =>
    intro a off hres
    exact gcMark_covers m [] next0 addr ((hset addr).mpr haddr) a off hres
  | step addr a off p hr hres hp ih =>
    intro a2 off2 hres2
    have hidV := ih a off hres
    have hcan := (Memory.addr_to_allocation_mem hres).2
    rcases hclosed a.id hidV a hcan p hp with hc | hc
    · cases hc
    · exact hc a2 off2 hres2

theorem gcReachable_nil_false {m : Memory} {addr : Nat}
    (h : GCReachableAddr m [] addr) : False := by
  induction h with
  | seed addr ha => cases ha
  | step addr a off p hr hres hp ih => exact ih

theorem usedIds_mem_iff {i : Nat} : ∀ (l : List HeapRegion),
    i ∈ usedIds l ↔ ∃ r ∈ l, r.state = .Used i := by
  intro l
  induction l with
  | nil => simp [usedIds]
  | cons r rest ih =>
    cases hs : r.state with
    | Free =>
      rw [usedIds_cons_free rest (is_free_iff.mpr hs), ih]
      constructor
      · rintro ⟨r2, hr2, hst⟩
        exact ⟨r2, List.mem_cons_of_mem _ hr2, hst⟩
      · rintro ⟨r2, hr2, hst⟩
        rcases List.mem_cons.mp hr2 with heq | hm
        · subst heq
          rw [hs] at hst
          cases hst
        · exact ⟨r2, hm, hst⟩
    | Used a =>
      rw [usedIds_cons_used rest hs]
      constructor
      · intro hmem
        rcases List.mem_cons.mp hmem with heq | hm
        · exact ⟨r, List.mem_cons_self _ _, by rw [hs, heq]⟩
        · obtain ⟨r2, hr2, hst⟩ := ih.mp hm
          exact ⟨r2, List.mem_cons_of_mem _ hr2, hst⟩
      · rintro ⟨r2, hr2, hst⟩
        rcases List.mem_cons.mp hr2 with heq | hm
        · subst heq
          rw [hs] at hst
          cases hst
          exact List.mem_cons_self _ _
        · exact List.mem_cons_of_mem _ (ih.mpr ⟨r2, hm, hst⟩)

theorem deallocateGo_used_survivors (rid : Nat) :
    ∀ (rs rs2 : List HeapRegion), HeapRegions.deallocateGo rid rs = some rs2 →
    (rs.map HeapRegion.id).Nodup →
    ∀ r2 ∈ rs2, r2.is_free = false → r2 ∈ rs ∧ r2.id ≠ rid := by
  intro rs
  induction rs with
  | nil =>
    intro rs2 h
    rw [HeapRegions.deallocateGo] at h
    cases h
  | cons r rest ih =>
    cases rest with
    | nil =>
      intro rs2 h hnd r2 hr2 hfree
      rw [HeapRegions.deallocateGo] at h
      by_cases hid : r.id = rid
      · rw [if_pos hid] at h
        cases Option.some_inj.mp h
        simp only [List.mem_cons, List.not_mem_nil, or_false] at hr2
        subst hr2
        simp [HeapRegion.setFree, HeapRegion.is_free, HeapRegionState.is_free] at hfree
      · rw [if_neg hid] at h
        cases h
    | cons rB rest2 =>
      intro rs2 h hnd r2 hr2 hfree
      rw [deallocateGo_eq_cons] at h
      rw [List.map_cons, List.nodup_cons] at hnd
      obtain ⟨hndh, hndT⟩ := hnd
      by_cases hid : r.id = rid
      · rw [if_pos hid] at h
        by_cases hf : rB.is_free = true
        · rw [if_pos hf] at h
          cases Option.some_inj.mp h
          rcases List.mem_cons.mp hr2 with heq | hm
          · subst heq
            simp [HeapRegion.joinRight, HeapRegion.is_free,
              HeapRegionState.is_free] at hfree
          · refine ⟨List.mem_cons_of_mem _ (List.mem_cons_of_mem _ hm), ?_⟩
            intro hcon
            apply hndh
            rw [hid, ← hcon]
            exact List.mem_map_of_mem HeapRegion.id (List.mem_cons_of_mem _ hm)
        · rw [if_neg hf] at h
          cases Option.some_inj.mp h
          rcases List.mem_cons.mp hr2 with heq | hm
          · subst heq
            simp [HeapRegion.setFree, HeapRegion.is_free,
              HeapRegionState.is_free] at hfree
          · refine ⟨List.mem_cons_of_mem _ hm, ?_⟩
            intro hcon
            apply hndh
            rw [hid, ← hcon]
            exact List.mem_map_of_mem HeapRegion.id hm
      · rw [if_neg hid] at h
        by_cases hid2 : rB.id = rid
        · rw [if_pos hid2] at h
          cases rest2 with
          | nil =>
            rw [deallocMid] at h
            by_cases hf1 : r.is_free = true
            · rw [if_pos hf1] at h
              cases Option.some_inj.mp h
              simp only [List.mem_cons, List.not_mem_nil, or_false] at hr2
              subst hr2
              simp [HeapRegion.joinRight, HeapRegion.is_free,
                HeapRegionState.is_free] at hfree
            · rw [if_neg hf1] at h
              cases Option.some_inj.mp h
              rcases List.mem_cons.mp hr2 with heq | hm
              · subst heq
                exact ⟨List.mem_cons_self _ _, hid⟩
              · simp only [List.mem_cons, List.not_mem_nil, or_false] at hm
                subst hm
                simp [HeapRegion.setFree, HeapRegion.is_free,
                  HeapRegionState.is_free] at hfree
          | cons r3 rest3 =>
            rw [deallocMid] at h
            rw [List.map_cons, List.nodup_cons] at hndT
            obtain ⟨hndh2, hndT2⟩ := hndT
            by_cases hf1 : r.is_free = true
            · by_cases hf3 : r3.is_free = true
              · rw [if_pos hf1, if_pos hf3] at h
                cases Option.some_inj.mp h
                rcases List.mem_cons.mp hr2 with heq | hm
                · subst heq
                  simp [HeapRegion.joinRight, HeapRegion.is_free,
                    HeapRegionState.is_free] at hfree
                · refine ⟨List.mem_cons_of_mem _ (List.mem_cons_of_mem _
                    (List.mem_cons_of_mem _ hm)), ?_⟩
                  intro hcon
                  apply hndh2
                  rw [hid2, ← hcon]
                  exact List.mem_map_of_mem HeapRegion.id (List.mem_cons_of_mem _ hm)
              · rw [if_pos hf1, if_neg hf3] at h
                cases Option.some_inj.mp h
                rcases List.mem_cons.mp hr2 with heq | hm
                · subst heq
                  simp [HeapRegion.joinRight, HeapRegion.is_free,
                    HeapRegionState.is_free] at hfree
                · refine ⟨List.mem_cons_of_mem _ (List.mem_cons_of_mem _ hm), ?_⟩
                  intro hcon
                  apply hndh2
                  rw [hid2, ← hcon]
                  exact List.mem_map_of_mem HeapRegion.id hm
            · by_cases hf3 : r3.is_free = true
              · rw [if_neg hf1, if_pos hf3] at h
                cases Option.some_inj.mp h
                rcases List.mem_cons.mp hr2 with heq | hm
                · subst heq
                  exact ⟨List.mem_cons_self _ _, hid⟩
                · rcases List.mem_cons.mp hm with heq2 | hm2
                  · subst heq2
                    simp [HeapRegion.joinRight, HeapRegion.is_free,
                      HeapRegionState.is_free] at hfree
                  · refine ⟨List.mem_cons_of_mem _ (List.mem_cons_of_mem _
                      (List.mem_cons_of_mem _ hm2)), ?_⟩
                    intro hcon
                    apply hndh2
                    rw [hid2, ← hcon]
                    exact List.mem_map_of_mem HeapRegion.id
                      (List.mem_cons_of_mem _ hm2)
              · rw [if_neg hf1, if_neg hf3] at h
                cases Option.some_inj.mp h
                rcases List.mem_cons.mp hr2 with heq | hm
                · subst heq
                  exact ⟨List.mem_cons_self _ _, hid⟩
                · rcases List.mem_cons.mp hm with heq2 | hm2
                  · subst heq2
                    simp [HeapRegion.setFree, HeapRegion.is_free,
                      HeapRegionState.is_free] at hfree
                  · refine ⟨List.mem_cons_of_mem _ (List.mem_cons_of_mem _ hm2), ?_⟩
                    intro hcon
                    apply hndh2
                    rw [hid2, ← hcon]
                    rcases List.mem_cons.mp hm2 with heq3 | hm3
                    · rw [heq3]
                      exact List.mem_map_of_mem HeapRegion.id (List.mem_cons_self _ _)
                    · exact List.mem_map_of_mem HeapRegion.id hm2
        · rw [if_neg hid2] at h
          cases hrec : HeapRegions.deallocateGo rid (rB :: rest2) with
          | none =>
            rw [hrec] at h
            cases h
          | some out1 =>
            rw [hrec] at h
            simp only [Option.map_some', Option.some_inj] at h
            subst h
            rcases List.mem_cons.mp hr2 with heq | hm
            · subst heq
              exact ⟨List.mem_cons_self _ _, hid⟩
            · obtain ⟨hmem, hne⟩ := ih out1 hrec hndT r2 hm hfree
              exact ⟨List.mem_cons_of_mem _ hmem, hne⟩

theorem deallocateRegions_eq {h : HeapRegions} {id : Nat} {h2 : HeapRegions}
    (hd : h.deallocate id = some h2) :
    ∃ l, HeapRegions.deallocateGo id h.in_order = some l ∧
      h2 = { h with in_order := l } := by
  rw [HeapRegions.deallocate] at hd
  cases hgo : HeapRegions.deallocateGo id h.in_order with
  | none =>
    rw [hgo] at hd
    cases hd
  | some l =>
    rw [hgo] at hd
    simp only [Option.map_some', Option.some_inj] at hd
    exact ⟨l, rfl, hd.symm⟩

theorem find?_filter_of_imp {α} {l : List α} {p q : α → Bool}
    (himp : ∀ x, p x = true → q x = true) :
    (l.filter q).find? p = l.find? p := by
  induction l with
  | nil => rfl
  | cons x xs ih =>
    by_cases hp : p x = true
    · rw [List.filter_cons_of_pos (himp x hp), List.find?_cons_of_pos _ hp,
        List.find?_cons_of_pos _ hp]
    · rw [List.find?_cons_of_neg _ hp]
      by_cases hq : q x = true
      · rw [List.filter_cons_of_pos hq, List.find?_cons_of_neg _ hp]
        exact ih
      · rw [List.filter_cons_of_neg (by simpa using hq)]
        exact ih

theorem unmap_eq {vm : VirtualAddressMapper} {id0 : Nat} {vm2 : VirtualAddressMapper}
    (h : vm.unmap id0 = some vm2) :
    ∃ block, vm.get id0 = some block ∧
      vm2 = { vm with
        blocks := vm.blocks.filter (fun b => b.id ≠ id0)
        mappings := fun k =>
          if ((VirtualAddressMapper.pages_of block.base block.size).map
              Prod.snd).contains k then none
          else vm.mappings k } := by
  rw [VirtualAddressMapper.unmap] at h
  cases hg : vm.get id0 with
  | none =>
    rw [hg] at h
    cases h
  | some block =>
    rw [hg] at h
    simp only [Option.bind_eq_bind, Option.some_bind, Option.some_inj] at h
    exact ⟨block, rfl, h.symm⟩

theorem unmap_get_other {vm vm2 : VirtualAddressMapper} {id0 q : Nat}
    (h : vm.unmap id0 = some vm2) (hne : q ≠ id0) :
    vm2.get q = vm.get q := by
  obtain ⟨block, hb, hvm2⟩ := unmap_eq h
  subst hvm2
  rw [VirtualAddressMapper.get, VirtualAddressMapper.get]
  exact find?_filter_of_imp (fun b hpb => by
    simp only [beq_iff_eq] at hpb
    simp only [decide_eq_true_eq]
    rw [hpb]
    exact hne)

theorem unmap_get_self {vm vm2 : VirtualAddressMapper} {id0 : Nat}
    (h : vm.unmap id0 = some vm2) : vm2.get id0 = none := by
  obtain ⟨block, hb, hvm2⟩ := unmap_eq h
  subst hvm2
  rw [VirtualAddressMapper.get]
  rw [List.find?_eq_none]
  intro b hbm
  have := (List.mem_filter.mp hbm).2
  simp only [decide_eq_true_eq] at this
  simp only [beq_iff_eq]
  exact this

theorem unmap_get_none_mono {vm vm2 : VirtualAddressMapper} {id0 q : Nat}
    (h : vm.unmap id0 = some vm2) (hq : vm.get q = none) :
    vm2.get q = none := by
  obtain ⟨block, hb, hvm2⟩ := unmap_eq h
  subst hvm2
  rw [VirtualAddressMapper.get] at hq ⊢
  rw [List.find?_eq_none] at hq ⊢
  intro b hbm
  exact hq b (List.mem_of_mem_filter hbm)

theorem getAllocation_props {m : Memory} {i : Nat} {al : Allocation}
    (h : m.getAllocation i = some al) : al ∈ m.allocations ∧ al.id = i := by
  rw [Memory.getAllocation] at h
  refine ⟨List.mem_of_find?_eq_some h, ?_⟩
  have := List.find?_some h
  simpa using this

theorem getAllocation_of_mem {m : Memory}
    (hnodup : (m.allocations.map Allocation.id).Nodup)
    {a : Allocation} (ha : a ∈ m.allocations) : m.getAllocation a.id = some a := by
  rw [Memory.getAllocation]
  cases hf : m.allocations.find? (fun x => x.id == a.id) with
  | none =>
    rw [List.find?_eq_none] at hf
    exact absurd (by simp : (a.id == a.id) = true) (hf a ha)
  | some al =>
    have hmem := List.mem_of_find?_eq_some hf
    have hid : al.id = a.id := by
      have := List.find?_some hf
      simpa using this
    have : al = a := List.inj_on_of_nodup_map hnodup hmem ha hid
    rw [this]

theorem deallocateMemory_eq {mc : Memory} {i : Nat} {mn : Memory}
    (h : mc.deallocate i = some mn) :
    ∃ al, mc.getAllocation i = some al ∧
      ∃ vm, mc.virtual_mapper.unmap al.virtual_block = some vm ∧
      ∃ rg, mc.regions.deallocate al.region = some rg ∧
      mn = { mc with
        allocations := mc.allocations.filter (fun a => a.id ≠ i)
        virtual_mapper := vm
        regions := rg } := by
  rw [Memory.deallocate] at h
  simp only [Option.bind_eq_bind] at h
  cases hal : mc.getAllocation i with
  | none =>
    rw [hal] at h
    cases h
  | some al =>
    rw [hal] at h
    simp only [Option.some_bind] at h
    cases hvm : mc.virtual_mapper.unmap al.virtual_block with
    | none =>
      rw [hvm] at h
      cases h
    | some vm =>
      rw [hvm] at h
      simp only [Option.some_bind] at h
      cases hrg : mc.regions.deallocate al.region with
      | none =>
        rw [hrg] at h
        cases h
      | some rg =>
        rw [hrg] at h
        simp only [Option.some_bind, Option.some_inj] at h
        exact ⟨al, rfl, vm, hvm, rg, hrg, h.symm⟩

theorem deallocate_step_inv {mc mn : Memory} {i : Nat}
    (h : mc.deallocate i = some mn) (hinv : DeallocInv mc) :
    DeallocInv mn ∧ List.Sublist mn.allocations mc.allocations ∧
      mn.heap_len = mc.heap_len := by
  obtain ⟨al, hal, vm, hvm, rg, hrg, hmn⟩ := deallocateMemory_eq h
  obtain ⟨l, hgo, hrg2⟩ := deallocateRegions_eq hrg
  subst hrg2
  subst hmn
  refine ⟨⟨?_, ?_, ?_⟩, List.filter_sublist _, rfl⟩
  · exact List.Nodup.sublist
      (List.Sublist.map Allocation.id (List.filter_sublist _)) hinv.ids
  · exact deallocate_wf hinv.rwf hrg
  · intro x hx r hrl hst
    have hfree : r.is_free = false := by
      rw [HeapRegion.is_free, hst]
      rfl
    obtain ⟨hmem, -⟩ := deallocateGo_used_survivors al.region mc.regions.in_order l
      hgo hinv.rwf.idsNodup r hrl hfree
    exact hinv.assoc x (List.mem_of_mem_filter hx) r hmem hst

theorem deallocate_establishes {mc mn : Memory} {a : Allocation}
    (h : mc.deallocate a.id = some mn) (ha : a ∈ mc.allocations)
    (hinv : DeallocInv mc) : PDone a mn := by
  obtain ⟨al, hal, vm, hvm, rg, hrg, hmn⟩ := deallocateMemory_eq h
  obtain ⟨l, hgo, hrg2⟩ := deallocateRegions_eq hrg
  have hcanon : mc.getAllocation a.id = some a := getAllocation_of_mem hinv.ids ha
  rw [hcanon] at hal
  cases hal
  subst hrg2
  subst hmn
  refine ⟨?_, unmap_get_self hvm, ?_⟩
  · intro hcon
    obtain ⟨x, hx, hxid⟩ := List.mem_map.mp hcon
    have := (List.mem_filter.mp hx).2
    rw [hxid] at this
    simp at this
  · intro hcon
    obtain ⟨r, hrl, hst⟩ := (usedIds_mem_iff l).mp hcon
    have hfree : r.is_free = false := by
      rw [HeapRegion.is_free, hst]
      rfl
    obtain ⟨hmem, hne⟩ := deallocateGo_used_survivors a.region mc.regions.in_order l
      hgo hinv.rwf.idsNodup r hrl hfree
    exact hne (hinv.assoc a ha r hmem hst)

theorem deallocate_preserves_pdone {mc mn : Memory} {i : Nat} {a : Allocation}
    (h : mc.deallocate i = some mn) (hinv : DeallocInv mc) (hp : PDone a mc) :
    PDone a mn := by
  obtain ⟨al, hal, vm, hvm, rg, hrg, hmn⟩ := deallocateMemory_eq h
  obtain ⟨l, hgo, hrg2⟩ := deallocateRegions_eq hrg
  subst hrg2
  subst hmn
  obtain ⟨hp1, hp2, hp3⟩ := hp
  refine ⟨?_, unmap_get_none_mono hvm hp2, ?_⟩
  · intro hcon
    obtain ⟨x, hx, hxid⟩ := List.mem_map.mp hcon
    exact hp1 (List.mem_map.mpr ⟨x, List.mem_of_mem_filter hx, hxid⟩)
  · intro hcon
    obtain ⟨r, hrl, hst⟩ := (usedIds_mem_iff l).mp hcon
    have hfree : r.is_free = false := by
      rw [HeapRegion.is_free, hst]
      rfl
    obtain ⟨hmem, -⟩ := deallocateGo_used_survivors al.region mc.regions.in_order l
      hgo hinv.rwf.idsNodup r hrl hfree
    exact hp3 ((usedIds_mem_iff mc.regions.in_order).mpr ⟨r, hmem, hst⟩)

theorem foldDealloc_keeps (a : Allocation) :
    ∀ (cs : List Nat) (mc m2 : Memory),
    cs.foldlM Memory.deallocate mc = some m2 →
    (∀ i ∈ cs, i ≠ a.id) →
    a ∈ mc.allocations →
    (mc.allocations.map Allocation.id).Nodup →
    (mc.allocations.map Allocation.virtual_block).Nodup →
    a ∈ m2.allocations ∧
      m2.virtual_mapper.get a.virtual_block =
        mc.virtual_mapper.get a.virtual_block := by
  intro cs
  induction cs with
  | nil =>
    intro mc m2 h _ ha _ _
    rw [List.foldlM_nil] at h
    cases Option.some_inj.mp h
    exact ⟨ha, rfl⟩
  | cons i cs ih =>
    intro mc m2 h hne ha hids hvb
    rw [List.foldlM_cons] at h
    cases hd : mc.deallocate i with
    | none =>
      rw [hd] at h
      simp only [Option.bind_eq_bind, Option.none_bind] at h
      cases h
    | some mn =>
      rw [hd] at h
      simp only [Option.bind_eq_bind, Option.some_bind] at h
      obtain ⟨al, hal, vm, hvm, rg, hrg, hmn⟩ := deallocateMemory_eq hd
      obtain ⟨halm, hali⟩ := getAllocation_props hal
      have hala : al ≠ a := by
        intro he
        exact hne i (List.mem_cons_self _ _) (by rw [← hali, he])
      have hvbne : a.virtual_block ≠ al.virtual_block := by
        intro he
        exact hala (List.inj_on_of_nodup_map hvb halm ha he.symm)
      have hstep : mn.virtual_mapper.get a.virtual_block =
          mc.virtual_mapper.get a.virtual_block := by
        rw [hmn]
        exact unmap_get_other hvm hvbne
      have hamem : a ∈ mn.allocations := by
        rw [hmn]
        refine List.mem_filter.mpr ⟨ha, ?_⟩
        simp only [decide_eq_true_eq]
        intro he
        exact hne i (List.mem_cons_self _ _) he.symm
      have hids2 : (mn.allocations.map Allocation.id).Nodup := by
        rw [hmn]
        exact List.Nodup.sublist
          (List.Sublist.map Allocation.id (List.filter_sublist _)) hids
      have hvb2 : (mn.allocations.map Allocation.virtual_block).Nodup := by
        rw [hmn]
        exact List.Nodup.sublist
          (List.Sublist.map Allocation.virtual_block (List.filter_sublist _)) hvb
      obtain ⟨h1, h2⟩ := ih mn m2 h
        (fun j hj => hne j (List.mem_cons_of_mem _ hj)) hamem hids2 hvb2
      exact ⟨h1, h2.trans hstep⟩

theorem foldDealloc_removes (a : Allocation) :
    ∀ (cs : List Nat) (mc m2 : Memory),
    cs.foldlM Memory.deallocate mc = some m2 →
    DeallocInv mc →
    ((a ∈ mc.allocations ∧ a.id ∈ cs) ∨ PDone a mc) →
    PDone a m2 := by
  intro cs
  induction cs with
  | nil =>
    intro mc m2 h hinv hcase
    rw [List.foldlM_nil] at h
    cases Option.some_inj.mp h
    rcases hcase with ⟨-, hmem⟩ | hdone
    · cases hmem
    · exact hdone
  | cons i cs ih =>
    intro mc m2 h hinv hcase
    rw [List.foldlM_cons] at h
    cases hd : mc.deallocate i with
    | none =>
      rw [hd] at h
      simp only [Option.bind_eq_bind, Option.none_bind] at h
      cases h
    | some mn =>
      rw [hd] at h
      simp only [Option.bind_eq_bind, Option.some_bind] at h
      have hinv2 : DeallocInv mn := (deallocate_step_inv hd hinv).1
      rcases hcase with ⟨hamem, hacs⟩ | hdone
      · by_cases hia : i = a.id
        · subst hia
          exact ih mn m2 h hinv2 (Or.inr (deallocate_establishes hd hamem hinv))
        · refine ih mn m2 h hinv2 (Or.inl ⟨?_, ?_⟩)
          · obtain ⟨al, hal, vm, hvm, rg, hrg, hmn⟩ := deallocateMemory_eq hd
            rw [hmn]
            refine List.mem_filter.mpr ⟨hamem, ?_⟩
            simp only [decide_eq_true_eq]
            intro he
            exact hia he.symm
          · rcases List.mem_cons.mp hacs with heq | hm
            · exact absurd heq.symm hia
            · exact hm
      · exact ih mn m2 h hinv2 (Or.inr (deallocate_preserves_pdone hd hinv hdone))

theorem usedIds_append_free (l : List HeapRegion) (tr : HeapRegion)
    (hf : tr.is_free = true) : usedIds (l ++ [tr]) = usedIds l := by
  rw [usedIds_append, usedIds_cons_free ([] : List HeapRegion) hf]
  exact List.append_nil _

theorem compact_usedIds {heap_len : Nat} {h : HeapRegions} (heap : Nat → Nat)
    (wf : RegionsWF heap_len h) :
    usedIds (h.compact heap).1.in_order = usedIds h.in_order := by
  have hne : h.in_order ≠ [] := by
    intro he
    have hcv := wf.covers
    rw [he] at hcv
    have h0 : (0 : Nat) = heap_len := by simpa [coversExactly] using hcv
    have := wf.hlen
    omega
  have hend : (h.in_order.getLast?.map HeapRegion.region_end).getD 0 = heap_len :=
    getLast_region_end_of_covers h.in_order 0 heap_len hne wf.covers
  obtain ⟨h1, h2, h3, h4, h5, h6⟩ :=
    compactGo_spec h.in_order 0 0 heap_len heap wf.covers wf.pos (Nat.le_refl 0)
  simp only [HeapRegions.compact, hend]
  by_cases hlt : (HeapRegions.compactGo h.in_order 0 heap).2.1 < heap_len
  · rw [if_pos hlt]
    refine (usedIds_append_free _ _ ?_).trans h4
    rfl
  · rw [if_neg hlt]
    exact h4

theorem mapM_option_mem {α β} (f : α → Option β) :
    ∀ (l : List α) (l2 : List β), l.mapM f = some l2 →
    (∀ x ∈ l, ∃ y ∈ l2, f x = some y) ∧ (∀ y ∈ l2, ∃ x ∈ l, f x = some y) := by
  intro l
  induction l with
  | nil =>
    intro l2 h
    rw [List.mapM_nil] at h
    cases Option.some_inj.mp h
    constructor
    · intro x hx
      cases hx
    · intro y hy
      cases hy
  | cons x xs ih =>
    intro l2 h
    rw [List.mapM_cons] at h
    cases hf : f x with
    | none =>
      rw [hf] at h
      simp only [Option.bind_eq_bind, Option.none_bind] at h
      cases h
    | some y =>
      rw [hf] at h
      simp only [Option.bind_eq_bind, Option.some_bind] at h
      cases hm : xs.mapM f with
      | none =>
        rw [hm] at h
        simp only [Option.bind_eq_bind, Option.none_bind] at h
        cases h
      | some ys =>
        rw [hm] at h
        simp only [Option.bind_eq_bind, Option.some_bind] at h
        cases Option.some_inj.mp h
        obtain ⟨ihf, ihb⟩ := ih ys hm
        constructor
        · intro z hz
          rcases List.mem_cons.mp hz with heq | hz2
          · subst heq
            exact ⟨y, List.mem_cons_self _ _, hf⟩
          · obtain ⟨w, hw, hfw⟩ := ihf z hz2
            exact ⟨w, List.mem_cons_of_mem _ hw, hfw⟩
        · intro w hw
          rcases List.mem_cons.mp hw with heq | hw2
          · subst heq
            exact ⟨x, List.mem_cons_self _ _, hf⟩
          · obtain ⟨z, hz, hfz⟩ := ihb w hw2
            exact ⟨z, List.mem_cons_of_mem _ hz, hfz⟩

theorem foldDealloc_inv :
    ∀ (cs : List Nat) (mc m2 : Memory),
    cs.foldlM Memory.deallocate mc = some m2 → DeallocInv mc → DeallocInv m2 := by
  intro cs
  induction cs with
  | nil =>
    intro mc m2 h hinv
    rw [List.foldlM_nil] at h
    cases Option.some_inj.mp h
    exact hinv
  | cons i cs ih =>
    intro mc m2 h hinv
    rw [List.foldlM_cons] at h
    cases hd : mc.deallocate i with
    | none =>
      rw [hd] at h
      simp only [Option.bind_eq_bind, Option.none_bind] at h
      cases h
    | some mn =>
      rw [hd] at h
      simp only [Option.bind_eq_bind, Option.some_bind] at h
      exact ih mn m2 h (deallocate_step_inv hd hinv).1

theorem force_gc_eq {m : Memory} {gc_roots : List DataWord} {m2 : Memory}
    (h : m.force_garbage_collection gc_roots = some m2) :
    ∃ bases, basesOf m = some bases ∧
    ∃ mF, ((collectibleIds m).filter
        (fun i => decide (i ∉ gcMark m []
          ((rootsNext gc_roots ++ bases).reverse)))).foldlM Memory.deallocate m
        = some mF ∧
    ∃ allocs,
      mF.allocations.mapM
        (fun a => ((mF.regions.compact mF.heap).1.get a.region).map
          (fun r => { a with start := r.base })) = some allocs ∧
      m2 = { mF with
        regions := (mF.regions.compact mF.heap).1
        heap := (mF.regions.compact mF.heap).2
        allocations := allocs } := by
  rw [Memory.force_garbage_collection] at h
  simp only [Option.bind_eq_bind] at h
  obtain ⟨bases, hb, h⟩ := Option.bind_eq_some.mp h
  obtain ⟨mF, hfold, h⟩ := Option.bind_eq_some.mp h
  obtain ⟨allocs, hmap, h⟩ := Option.bind_eq_some.mp h
  exact ⟨bases, hb, mF, hfold, allocs, hmap, (Option.some_inj.mp h).symm⟩

/-- Claim C1 (amended): after a successful `force_garbage_collection` on a
well-formed memory, every allocation reachable transitively from the
tagged roots or from a non-collectible allocation's block base — and every
non-collectible allocation — is still present with its virtual block still
mapped at the same base, while every collectible allocation not so
reachable has been deallocated: entry removed, virtual block unmapped, and
no heap region carries its allocation id. -/
theorem gc_spec {m : Memory} {gc_roots : List DataWord} {m2 : Memory}
    {bases : List Nat}
    (hwf : GCMemWF m)
    (hgc : m.force_garbage_collection gc_roots = some m2)
    (hbases : basesOf m = some bases) :
    ∀ a ∈ m.allocations,
      ((reachesId m (gcSeeds gc_roots bases) a.id ∨ a.is_collectible = false) →
        ∃ a2 ∈ m2.allocations, a2.id = a.id ∧ a2.virtual_block = a.virtual_block ∧
          ∃ b, m.virtual_mapper.get a.virtual_block = some b ∧
            m2.virtual_mapper.get a.virtual_block = some b) ∧
      ((a.is_collectible = true ∧ ¬ reachesId m (gcSeeds gc_roots bases) a.id) →
        a.id ∉ m2.allocations.map Allocation.id ∧
        m2.virtual_mapper.get a.virtual_block = none ∧
        a.id ∉ usedIds m2.regions.in_order) := by
  obtain ⟨bases2, hb2, mF, hfold, allocs, hmap, hm2⟩ := force_gc_eq hgc
  rw [hbases] at hb2
  cases Option.some_inj.mp hb2
  have hseedset : ∀ x, x ∈ (rootsNext gc_roots ++ bases).reverse ↔
      x ∈ gcSeeds gc_roots bases := fun x => List.mem_reverse
  intro a ha
  constructor
  · intro hsurv
    have hnotrem : ∀ i ∈ (collectibleIds m).filter
        (fun i => decide (i ∉ gcMark m [] ((rootsNext gc_roots ++ bases).reverse))),
        i ≠ a.id := by
      intro i hi hcon
      subst hcon
      have hiV := (List.mem_filter.mp hi).2
      simp only [decide_eq_true_eq] at hiV
      have hicol := (List.mem_filter.mp hi).1
      rcases hsurv with hreach | hncol
      · obtain ⟨addr, aR, offR, hR, hresR, hidR⟩ := hreach
        have hmemV : aR.id ∈ gcMark m [] ((rootsNext gc_roots ++ bases).reverse) :=
          reachable_in_gcMark m (gcSeeds gc_roots bases) _ hseedset addr hR aR offR hresR
        rw [hidR] at hmemV
        exact hiV hmemV
      · obtain ⟨a3, ha3, hid3⟩ := List.mem_map.mp hicol
        have ha3m := List.mem_of_mem_filter ha3
        have hcol3 := (List.mem_filter.mp ha3).2
        have heq3 : a3 = a := List.inj_on_of_nodup_map hwf.idsNodup ha3m ha hid3
        rw [heq3, hncol] at hcol3
        cases hcol3
    obtain ⟨haF, hgetF⟩ := foldDealloc_keeps a _ m mF hfold hnotrem ha
      hwf.idsNodup hwf.vbNodup
    obtain ⟨hfwd, hbwd⟩ := mapM_option_mem _ mF.allocations allocs hmap
    obtain ⟨a2, ha2, hfa⟩ := hfwd a haF
    cases hget : ((mF.regions.compact mF.heap).1.get a.region) with
    | none =>
      rw [hget] at hfa
      cases hfa
    | some r =>
      rw [hget] at hfa
      simp only [Option.map_some', Option.some_inj] at hfa
      cases hfa
      obtain ⟨b, hgetb⟩ := hwf.blocksExist a ha
      refine ⟨{ a with start := r.base }, ?_, rfl, rfl, b, hgetb, ?_⟩
      · rw [hm2]
        exact ha2
      · rw [hm2]
        show mF.virtual_mapper.get a.virtual_block = some b
        rw [hgetF]
        exact hgetb
  · intro hdead
    obtain ⟨hcol, hnreach⟩ := hdead
    have hidrem : a.id ∈ (collectibleIds m).filter
        (fun i => decide (i ∉ gcMark m [] ((rootsNext gc_roots ++ bases).reverse))) := by
      refine List.mem_filter.mpr ⟨?_, ?_⟩
      · exact List.mem_map.mpr ⟨a, List.mem_filter.mpr ⟨ha, hcol⟩, rfl⟩
      · simp only [decide_eq_true_eq]
        intro hV
        apply hnreach
        exact gcMark_sound m (gcSeeds gc_roots bases) []
          ((rootsNext gc_roots ++ bases).reverse)
          (by intro i hi; cases hi)
          (fun addr haddr => GCReachableAddr.seed addr ((hseedset addr).mp haddr))
          a.id hV
    have hinv : DeallocInv m := ⟨hwf.idsNodup, hwf.regionsWF, hwf.assoc⟩
    have hdone : PDone a mF :=
      foldDealloc_removes a _ m mF hfold hinv (Or.inl ⟨ha, hidrem⟩)
    obtain ⟨hd1, hd2, hd3⟩ := hdone
    have hinvF : DeallocInv mF := foldDealloc_inv _ m mF hfold hinv
    have hcompU : usedIds (mF.regions.compact mF.heap).1.in_order =
        usedIds mF.regions.in_order := compact_usedIds mF.heap hinvF.rwf
    obtain ⟨hfwd, hbwd⟩ := mapM_option_mem _ mF.allocations allocs hmap
    refine ⟨?_, ?_, ?_⟩
    · intro hcon
      rw [hm2] at hcon
      obtain ⟨y, hy, hyid⟩ := List.mem_map.mp hcon
      obtain ⟨x, hx, hfx⟩ := hbwd y hy
      cases hget : ((mF.regions.compact mF.heap).1.get x.region) with
      | none =>
        rw [hget] at hfx
        cases hfx
      | some r =>
        rw [hget] at hfx
        simp only [Option.map_some', Option.some_inj] at hfx
        apply hd1
        refine List.mem_map.mpr ⟨x, hx, ?_⟩
        rw [← hfx] at hyid
        exact hyid
    · rw [hm2]
      exact hd2
    · rw [hm2]
      intro hcon
      have hcon2 : a.id ∈ usedIds (mF.regions.compact mF.heap).1.in_order := hcon
      rw [hcompU] at hcon2
      exact hd3 hcon2

theorem stackMemory_wf : GCMemWF stackMemory := by
  refine ⟨by decide, by decide, ?_,
    ⟨by decide, by decide, by decide, by decide, by decide, by decide, by decide⟩,
    by decide⟩
  intro a ha
  simp only [stackMemory, List.mem_singleton] at ha
  subst ha
  exact ⟨{ id := 1, allocation := 1, base := 0, size := 32 }, rfl⟩

theorem stack_gc_eval : stackMemory.force_garbage_collection [] = some gcW := by
  have hA : stackMemory.addr_to_allocation 0 =
      some ({ id := 1, start := 0, data_length := 32, is_collectible := false,
              name := none, virtual_block := 1, region := 1 }, 0) := rfl
  have hg : gcMark stackMemory [] [0] = [1] := by
    rw [gcMark_cons_new stackMemory [] 0 [] hA (by simp)]
    show gcMark stackMemory [1] [] = [1]
    exact gcMark_nil _ _
  simp only [Memory.force_garbage_collection, Option.bind_eq_bind,
    show basesOf stackMemory = some [0] from rfl, Option.some_bind,
    show ((rootsNext ([] : List DataWord) ++ [0]).reverse) = [0] from rfl, hg]
  rfl

/-- `gc_spec` at `stackMemory` with no roots: the non-collectible
allocation (id 1) survives with its virtual block still mapped at its
original base. -/
theorem gc_spec_witness :
    ∃ a2 ∈ gcW.allocations, a2.id = 1 ∧ a2.virtual_block = 1 ∧
      ∃ b, stackMemory.virtual_mapper.get 1 = some b ∧
        gcW.virtual_mapper.get 1 = some b :=
  (gc_spec stackMemory_wf stack_gc_eval
      (rfl : basesOf stackMemory = some [0])
      { id := 1, start := 0, data_length := 32, is_collectible := false,
        name := none, virtual_block := 1, region := 1 }
      (by decide)).1 (Or.inr rfl)

/-- Claim C1, original wording, is false: with no roots supplied, a
collectible allocation referenced only by a non-collectible allocation's
data survives `force_garbage_collection`, although it is not reachable
from the (empty) supplied root set — the collector also treats every
non-collectible allocation's block base as a root. -/
theorem gc_claim_false :
    ((gcCounterMemory.force_garbage_collection []).map
      (fun m2 => (m2.allocations.map Allocation.id).contains 2)) = some true ∧
    (∃ a ∈ gcCounterMemory.allocations, a.id = 2 ∧ a.is_collectible = true) ∧
    ¬ reachesId gcCounterMemory (rootsNext []) 2 := by
  refine ⟨?_, by decide, ?_⟩
  · have hA : gcCounterMemory.addr_to_allocation 0 =
        some ({ id := 1, start := 0, data_length := 8, is_collectible := false,
                name := none, virtual_block := 1, region := 1 }, 0) := rfl
    have hB : gcCounterMemory.addr_to_allocation 1024 =
        some ({ id := 2, start := 9, data_length := 8, is_collectible := true,
                name := none, virtual_block := 2, region := 2 }, 0) := rfl
    have hg : gcMark gcCounterMemory [] [0] = [2, 1] := by
      rw [gcMark_cons_new gcCounterMemory [] 0 [] hA (by simp)]
      show gcMark gcCounterMemory [1] [1024] = [2, 1]
      rw [gcMark_cons_new gcCounterMemory [1] 1024 [] hB (by decide)]
      show gcMark gcCounterMemory [2, 1] [] = [2, 1]
      exact gcMark_nil _ _
    simp only [Memory.force_garbage_collection, Option.bind_eq_bind,
      show basesOf gcCounterMemory = some [0] from rfl, Option.some_bind,
      show ((rootsNext ([] : List DataWord) ++ [0]).reverse) = [0] from rfl, hg]
    rfl
  · rintro ⟨addr, a, off, hr, -, -⟩
    exact gcReachable_nil_false hr

end Lakesis
